import Mathlib

/-
Verification of the self-balancing search trees of this repository.

The embedding covers:
* `avl`  : the AVL tree of avlTree.h (default build, plus the
           ENABLE_PREFERRED_TEST / INVERT_PREFERRED_TEST erase variants);
* `burb` : the bottom-up red-black tree of burbTree.h (default build:
           iterative insert and erase, no sentinel node);
* `llrb` : the left-leaning red-black tree of llrbTree.h.

Keys are modelled as `Int`, the instantiation used by every test program
of the repository (the C++ classes are templates over an ordered key).
The node pool ("freed list") is modelled as the list of keys held by the
nodes chained through their left pointers.
-/

namespace avl

/-- A node of the AVL tree of avlTree.h: key, signed balance field and the
two child pointers; `nil` models a null pointer. The optional PARENT
pointer is a derived back-reference and is not part of the functional
state. -/
inductive Tree where
  | nil : Tree
  | node (left : Tree) (key : Int) (bal : Int) (right : Tree) : Tree
deriving DecidableEq, Repr

open Tree

/-- Height of a subtree (a null pointer has height 0). -/
def height : Tree → Nat
  | nil => 0
  | node l _ _ r => 1 + max (height l) (height r)

/-- In-order key sequence of a subtree. -/
def keys : Tree → List Int
  | nil => []
  | node l k _ r => keys l ++ k :: keys r

/-- Balance field of the root of a subtree (0 for a null pointer). -/
def balRoot : Tree → Int
  | nil => 0
  | node _ _ b _ => b

/-- The `contains` member function of avlTree.h: iterative key search. -/
def contains : Tree → Int → Bool
  | nil, _ => false
  | node l k _ r, x =>
    if x < k then contains l x
    else if x > k then contains r x
    else true

/-- The structural AVL invariant: each node's balance field equals the
height of its right subtree minus the height of its left subtree, and the
two heights differ by at most one. -/
def Balanced : Tree → Prop
  | nil => True
  | node l _ b r => Balanced l ∧ Balanced r ∧
      b = (height r : Int) - (height l : Int) ∧
      height l ≤ height r + 1 ∧ height r ≤ height l + 1

/-- Decision procedure for `Balanced`. -/
def balancedDec : (t : Tree) → Decidable (Balanced t)
  | nil => isTrue trivial
  | node l k b r =>
    haveI : Decidable (Balanced l) := balancedDec l
    haveI : Decidable (Balanced r) := balancedDec r
    show Decidable (_ ∧ _ ∧ _ ∧ _ ∧ _) from inferInstance

instance : DecidablePred Balanced := balancedDec

/-- The BST ordering invariant: every key in the left subtree is smaller
than the node's key and every key in the right subtree is larger. -/
def Ordered : Tree → Prop
  | nil => True
  | node l k _ r => Ordered l ∧ Ordered r ∧
      (∀ y ∈ keys l, y < k) ∧ (∀ y ∈ keys r, k < y)

/-- Decision procedure for `Ordered`. -/
def orderedDec : (t : Tree) → Decidable (Ordered t)
  | nil => isTrue trivial
  | node l k b r =>
    haveI : Decidable (Ordered l) := orderedDec l
    haveI : Decidable (Ordered r) := orderedDec r
    show Decidable (_ ∧ _ ∧ _ ∧ _) from inferInstance

instance : DecidablePred Ordered := orderedDec

/-- The property named by the spec for the AVL structural invariant:
every node's balance field lies in [-1, 1]. -/
def BalInRange : Tree → Prop
  | nil => True
  | node l _ b r => -1 ≤ b ∧ b ≤ 1 ∧ BalInRange l ∧ BalInRange r

/-- Decision procedure for `BalInRange`. -/
def balInRangeDec : (t : Tree) → Decidable (BalInRange t)
  | nil => isTrue trivial
  | node l k b r =>
    haveI : Decidable (BalInRange l) := balInRangeDec l
    haveI : Decidable (BalInRange r) := balInRangeDec r
    show Decidable (_ ∧ _ ∧ _ ∧ _) from inferInstance

instance : DecidablePred BalInRange := balInRangeDec

/-- The `balanceInsertLeft` member function of avlTree.h. It is invoked
with the member variable `h` equal to true; the returned boolean is the
value of `h` after the call. Branches that the C++ code can only reach by
dereferencing a null pointer return the input unchanged. -/
def balanceInsertLeft : Tree → Tree × Bool
  | node l k b r =>
    if b = 1 then (node l k 0 r, false)
    else if b = 0 then (node l k (-1) r, true)
    else if b = -1 then
      match l with
      | node ll lk lb lr =>
        if lb = -1 then
          -- single LL rotation
          (node ll lk 0 (node lr k 0 r), false)
        else
          -- double LR rotation
          match lr with
          | node lrl lrk lrb lrr =>
            (node (node ll lk (if lrb = 1 then -1 else 0) lrl) lrk 0
                  (node lrr k (if lrb = -1 then 1 else 0) r), false)
          | nil => (node l k b r, true)
      | nil => (node l k b r, true)
    else (node l k b r, true)
  | nil => (nil, true)

/-- The `balanceInsertRight` member function of avlTree.h, the mirror
image of `balanceInsertLeft`. -/
def balanceInsertRight : Tree → Tree × Bool
  | node l k b r =>
    if b = -1 then (node l k 0 r, false)
    else if b = 0 then (node l k 1 r, true)
    else if b = 1 then
      match r with
      | node rl rk rb rr =>
        if rb = 1 then
          -- single RR rotation
          (node (node l k 0 rl) rk 0 rr, false)
        else
          -- double RL rotation
          match rl with
          | node rll rlk rlb rlr =>
            (node (node l k (if rlb = 1 then -1 else 0) rll) rlk 0
                  (node rlr rk (if rlb = -1 then 1 else 0) rr), false)
          | nil => (node l k b r, true)
      | nil => (node l k b r, true)
    else (node l k b r, true)
  | nil => (nil, true)

/-- The `newNode` member function of avlTree.h: reuse the head of the
freed list if the list is non-empty, otherwise allocate a fresh node.
Either way the node holds the key with balance 0 and null children, and
the member `h` becomes true. Returns (node, new freed list, h). -/
def newNode (x : Int) (freed : List Int) : Tree × List Int × Bool :=
  match freed with
  | _ :: rest => (node nil x 0 nil, rest, true)
  | [] => (node nil x 0 nil, [], true)

/-- Result of the recursive `insert` worker: the rebalanced subtree and
the member variables `h` (height changed) and `a` (key added), plus the
freed list threaded through `newNode`. -/
structure InsRes where
  tree : Tree
  h : Bool
  a : Bool
  freed : List Int
deriving DecidableEq, Repr

/-- The recursive `insert(Node* p, K const& x)` worker of avlTree.h
(non-PARENT build). The caller guarantees `p` is non-null; the `nil`
equation is never exercised. -/
def insertN : Tree → Int → List Int → InsRes
  | node l k b r, x, f =>
    if x < k then
      match l with
      | node .. =>
        let res := insertN l x f
        if res.h then
          let p := balanceInsertLeft (node res.tree k b r)
          ⟨p.1, p.2, res.a, res.freed⟩
        else ⟨node res.tree k b r, res.h, res.a, res.freed⟩
      | nil =>
        let p := newNode x f
        if p.2.2 then
          let q := balanceInsertLeft (node p.1 k b r)
          ⟨q.1, q.2, true, p.2.1⟩
        else ⟨node p.1 k b r, p.2.2, true, p.2.1⟩
    else if x > k then
      match r with
      | node .. =>
        let res := insertN r x f
        if res.h then
          let p := balanceInsertRight (node l k b res.tree)
          ⟨p.1, p.2, res.a, res.freed⟩
        else ⟨node l k b res.tree, res.h, res.a, res.freed⟩
      | nil =>
        let p := newNode x f
        if p.2.2 then
          let q := balanceInsertRight (node l k b p.1)
          ⟨q.1, q.2, true, p.2.1⟩
        else ⟨node l k b p.1, p.2.2, true, p.2.1⟩
    else
      -- the key is already in the tree: h = false, a = false
      ⟨node l k b r, false, false, f⟩
  | nil, _, f => ⟨nil, false, false, f⟩

/-- The `balanceEraseLeft` member function of avlTree.h. Invoked with the
member `h` true; the returned boolean is `h` after the call. -/
def balanceEraseLeft : Tree → Tree × Bool
  | node l k b r =>
    if b = -1 then (node l k 0 r, true)
    else if b = 0 then (node l k 1 r, false)
    else if b = 1 then
      match r with
      | node rl rk rb rr =>
        if rb ≥ 0 then
          -- single RR rotation
          if rb = 0 then (node (node l k 1 rl) rk (-1) rr, false)
          else (node (node l k 0 rl) rk 0 rr, true)
        else
          -- double RL rotation
          match rl with
          | node rll rlk rlb rlr =>
            (node (node l k (if rlb = 1 then -1 else 0) rll) rlk 0
                  (node rlr rk (if rlb = -1 then 1 else 0) rr), true)
          | nil => (node l k b r, true)
      | nil => (node l k b r, true)
    else (node l k b r, true)
  | nil => (nil, true)

/-- The `balanceEraseRight` member function of avlTree.h, the mirror
image of `balanceEraseLeft`. -/
def balanceEraseRight : Tree → Tree × Bool
  | node l k b r =>
    if b = 1 then (node l k 0 r, true)
    else if b = 0 then (node l k (-1) r, false)
    else if b = -1 then
      match l with
      | node ll lk lb lr =>
        if lb ≤ 0 then
          -- single LL rotation
          if lb = 0 then (node ll lk 1 (node lr k (-1) r), false)
          else (node ll lk 0 (node lr k 0 r), true)
        else
          -- double LR rotation
          match lr with
          | node lrl lrk lrb lrr =>
            (node (node ll lk (if lrb = 1 then -1 else 0) lrl) lrk 0
                  (node lrr k (if lrb = -1 then 1 else 0) r), true)
          | nil => (node l k b r, true)
      | nil => (node l k b r, true)
    else (node l k b r, true)
  | nil => (nil, true)

/-- The `eraseLeft` member function of avlTree.h: descend to the leftmost
node of the subtree, return its key (which the caller copies into the
two-child node `q`), splice the leftmost node out (it becomes the node
passed to `deleteNode`), and rebalance on the way back. Returns the new
subtree, the key of the spliced node, and `h`. -/
def eraseLeft : Tree → Tree × Int × Bool
  | node l k b r =>
    match l with
    | node .. =>
      let res := eraseLeft l
      if res.2.2 then
        let p := balanceEraseLeft (node res.1 k b r)
        (p.1, res.2.1, p.2)
      else (node res.1 k b r, res.2.1, res.2.2)
    | nil => (r, k, true)
  | nil => (nil, 0, true)

/-- The `eraseRight` member function of avlTree.h, the mirror image of
`eraseLeft`: splice out the rightmost node of the subtree. -/
def eraseRight : Tree → Tree × Int × Bool
  | node l k b r =>
    match r with
    | node .. =>
      let res := eraseRight r
      if res.2.2 then
        let p := balanceEraseRight (node l k b res.1)
        (p.1, res.2.1, p.2)
      else (node l k b res.1, res.2.1, res.2.2)
    | nil => (l, k, true)
  | nil => (nil, 0, true)

/-- Compile-time configuration of the two-child replacement choice in
`erase`: the default build, the ENABLE_PREFERRED_TEST build, and the
ENABLE_PREFERRED_TEST + INVERT_PREFERRED_TEST build. -/
inductive EraseCfg where
  | plain
  | preferred
  | invertPreferred
deriving DecidableEq, Repr

/-- Result of the recursive `erase` worker: the rebalanced subtree, the
member variables `h` and `r`, and the freed list (onto which `deleteNode`
prepends the spliced node, chained through its left pointer). -/
structure ErRes where
  tree : Tree
  h : Bool
  r : Bool
  freed : List Int
deriving DecidableEq, Repr

/-- The recursive `erase(Node* p, K const& x)` worker of avlTree.h,
parameterized by the preferred-replacement configuration. The caller
guarantees `p` is non-null. -/
def erase (cfg : EraseCfg) : Tree → Int → List Int → ErRes
  | node l k b r, x, f =>
    if x < k then
      match l with
      | node .. =>
        let res := erase cfg l x f
        if res.h then
          let p := balanceEraseLeft (node res.tree k b r)
          ⟨p.1, p.2, res.r, res.freed⟩
        else ⟨node res.tree k b r, res.h, res.r, res.freed⟩
      | nil => ⟨node l k b r, false, false, f⟩
    else if x > k then
      match r with
      | node .. =>
        let res := erase cfg r x f
        if res.h then
          let p := balanceEraseRight (node l k b res.tree)
          ⟨p.1, p.2, res.r, res.freed⟩
        else ⟨node l k b res.tree, res.h, res.r, res.freed⟩
      | nil => ⟨node l k b r, false, false, f⟩
    else
      -- x equals the node's key: remove this node
      if r = nil then ⟨l, true, true, k :: f⟩
      else if l = nil then ⟨r, true, true, k :: f⟩
      else
        -- two children: pick the replacement node per the configuration
        match cfg with
        | .plain =>
          let res := eraseLeft r
          let p := node l res.2.1 b res.1
          if res.2.2 then
            let q := balanceEraseRight p
            ⟨q.1, q.2, true, res.2.1 :: f⟩
          else ⟨p, res.2.2, true, res.2.1 :: f⟩
        | .preferred =>
          if b ≤ 0 then
            let res := eraseRight l
            let p := node res.1 res.2.1 b r
            if res.2.2 then
              let q := balanceEraseLeft p
              ⟨q.1, q.2, true, res.2.1 :: f⟩
            else ⟨p, res.2.2, true, res.2.1 :: f⟩
          else
            let res := eraseLeft r
            let p := node l res.2.1 b res.1
            if res.2.2 then
              let q := balanceEraseRight p
              ⟨q.1, q.2, true, res.2.1 :: f⟩
            else ⟨p, res.2.2, true, res.2.1 :: f⟩
        | .invertPreferred =>
          if b < 0 then
            let res := eraseRight l
            let p := node res.1 res.2.1 b r
            if res.2.2 then
              let q := balanceEraseLeft p
              ⟨q.1, q.2, true, res.2.1 :: f⟩
            else ⟨p, res.2.2, true, res.2.1 :: f⟩
          else
            let res := eraseLeft r
            let p := node l res.2.1 b res.1
            if res.2.2 then
              let q := balanceEraseRight p
              ⟨q.1, q.2, true, res.2.1 :: f⟩
            else ⟨p, res.2.2, true, res.2.1 :: f⟩
  | nil, _, f => ⟨nil, false, false, f⟩

/-- The state of an `avlTree` object: the root pointer, the node count,
and the freed list. -/
structure State where
  root : Tree
  count : Nat
  freed : List Int
deriving DecidableEq, Repr

/-- A freshly constructed `avlTree`. -/
def emptyState : State := ⟨nil, 0, []⟩

/-- The public `insert(K const& x)` member function of avlTree.h, paired
with its boolean return value `a`. -/
def insertS (s : State) (x : Int) : State × Bool :=
  match s.root with
  | node .. =>
    let res := insertN s.root x s.freed
    (⟨res.tree, if res.a then s.count + 1 else s.count, res.freed⟩, res.a)
  | nil =>
    let p := newNode x s.freed
    (⟨p.1, s.count + 1, p.2.1⟩, true)

/-- The public `erase(K const& x)` member function of avlTree.h, paired
with its boolean return value `r`. -/
def eraseS (cfg : EraseCfg) (s : State) (x : Int) : State × Bool :=
  match s.root with
  | node .. =>
    let res := erase cfg s.root x s.freed
    (⟨res.tree, if res.r then s.count - 1 else s.count, res.freed⟩, res.r)
  | nil => (s, false)

/-- The public `size()` member function. -/
def sizeS (s : State) : Nat := s.count

/-- The public `empty()` member function. -/
def emptyQ (s : State) : Bool := s.count == 0

/-- The public `freedSize()` member function: walk the freed list
counting nodes. -/
def freedSize (s : State) : Nat := s.freed.length

/-- The public `clear()` member function: delete every tree node and
every freed-list node, reset the count. -/
def clearS (_ : State) : State := ⟨nil, 0, []⟩

/-- A single mutating call on the container. -/
inductive Op where
  | ins (x : Int)
  | del (x : Int)
deriving DecidableEq, Repr

/-- Apply one mutating call to an `avlTree` state. -/
def applyOp (cfg : EraseCfg) (s : State) : Op → State
  | .ins x => (insertS s x).1
  | .del x => (eraseS cfg s x).1

/-- Run a sequence of insert and erase calls from a fresh tree. -/
def run (cfg : EraseCfg) (ops : List Op) : State :=
  ops.foldl (applyOp cfg) emptyState

end avl

namespace avl

theorem keys_ne_nil : ∀ {t : Tree}, t ≠ Tree.nil → keys t ≠ []
  | Tree.nil, h => absurd rfl h
  | Tree.node _ _ _ _, _ => by simp [keys]

theorem ordered_iff : ∀ t : Tree, Ordered t ↔ (keys t).Pairwise (· < ·)
  | Tree.nil => by simp [Ordered, keys]
  | Tree.node l k b r => by
    have hl := ordered_iff l
    have hr := ordered_iff r
    simp only [Ordered, keys, List.pairwise_append, List.pairwise_cons, hl, hr, List.mem_cons]
    constructor
    · rintro ⟨pl, pr, bl, br⟩
      refine ⟨pl, ⟨fun b hb => br b hb, pr⟩, ?_⟩
      rintro a ha b (rfl | hb)
      · exact bl a ha
      · exact lt_trans (bl a ha) (br b hb)
    · rintro ⟨pl, ⟨hk, pr⟩, hab⟩
      exact ⟨pl, pr, fun y hy => hab y hy k (Or.inl rfl), hk⟩

theorem contains_iff : ∀ t : Tree, Ordered t → ∀ x : Int, (contains t x = true ↔ x ∈ keys t)
  | Tree.nil, _, x => by simp [contains, keys]
  | Tree.node l k b r, ho, x => by
    obtain ⟨hol, hor, hbl, hbr⟩ := ho
    by_cases h1 : x < k
    · rw [contains, if_pos h1, contains_iff l hol x]
      simp only [keys, List.mem_append, List.mem_cons]
      constructor
      · exact fun h => Or.inl h
      · rintro (h | rfl | h)
        · exact h
        · exact absurd h1 (lt_irrefl x)
        · exact absurd (lt_trans (hbr x h) h1) (lt_irrefl k)
    · by_cases h2 : x > k
      · rw [contains, if_neg h1, if_pos h2, contains_iff r hor x]
        simp only [keys, List.mem_append, List.mem_cons]
        constructor
        · exact fun h => Or.inr (Or.inr h)
        · rintro (h | rfl | h)
          · exact absurd (lt_trans (hbl x h) h2) (lt_irrefl x)
          · exact absurd h2 (lt_irrefl x)
          · exact h
      · have hxk : x = k := le_antisymm (not_lt.mp h2) (not_lt.mp h1)
        subst hxk
        rw [contains, if_neg h1, if_neg h2]
        simp [keys]

/-- Insertion of a key into a sorted list at its place, skipping
duplicates: the list-level specification of tree insertion. -/
def linsert (x : Int) : List Int → List Int
  | [] => [x]
  | y :: ys => if x < y then x :: y :: ys else if x > y then y :: linsert x ys else y :: ys

theorem linsert_append_lt (x k : Int) (L R : List Int) (hL : ∀ y ∈ L, y < k)
    (hx : x < k) : linsert x (L ++ k :: R) = linsert x L ++ k :: R := by
  induction L with
  | nil => simp [linsert, hx]
  | cons y ys ih =>
    by_cases h1 : x < y
    · simp [linsert, h1]
    · by_cases h2 : x > y
      · simp only [List.cons_append, linsert, if_neg h1, if_pos h2]
        congr 1
        exact ih (fun z hz => hL z (List.mem_cons_of_mem y hz))
      · simp [linsert, h1, h2]

theorem linsert_append_gt (x k : Int) (L R : List Int) (hL : ∀ y ∈ L, y < k)
    (hx : k < x) : linsert x (L ++ k :: R) = L ++ k :: linsert x R := by
  induction L with
  | nil =>
    have h1 : ¬ x < k := not_lt.mpr (le_of_lt hx)
    simp [linsert, h1, hx]
  | cons y ys ih =>
    have hy : y < k := hL y (List.mem_cons_self y ys)
    have h1 : ¬ x < y := not_lt.mpr (le_of_lt (lt_trans hy hx))
    have h2 : x > y := lt_trans hy hx
    simp only [List.cons_append, linsert, if_neg h1, if_pos h2]
    congr 1
    exact ih (fun z hz => hL z (List.mem_cons_of_mem y hz))

theorem linsert_append_eq (x : Int) (L R : List Int) (hL : ∀ y ∈ L, y < x) :
    linsert x (L ++ x :: R) = L ++ x :: R := by
  induction L with
  | nil => simp [linsert, lt_irrefl]
  | cons y ys ih =>
    have hy : y < x := hL y (List.mem_cons_self y ys)
    have h1 : ¬ x < y := not_lt.mpr (le_of_lt hy)
    simp only [List.cons_append, linsert, if_neg h1, if_pos hy]
    congr 1
    exact ih (fun z hz => hL z (List.mem_cons_of_mem y hz))

theorem mem_linsert (x z : Int) : ∀ L : List Int, z ∈ linsert x L ↔ z = x ∨ z ∈ L
  | [] => by simp [linsert]
  | y :: ys => by
    by_cases h1 : x < y
    · simp [linsert, h1, List.mem_cons]
    · by_cases h2 : x > y
      · simp only [linsert, if_neg h1, if_pos h2, List.mem_cons, mem_linsert x z ys]
        tauto
      · have hxy : x = y := le_antisymm (not_lt.mp h2) (not_lt.mp h1)
        subst hxy
        simp only [linsert, if_neg h1, if_neg h2, List.mem_cons]
        tauto

theorem length_linsert_of_not_mem (x : Int) :
    ∀ L : List Int, x ∉ L → (linsert x L).length = L.length + 1
  | [], _ => by simp [linsert]
  | y :: ys, h => by
    have hxy : x ≠ y := fun he => h (he ▸ List.mem_cons_self y ys)
    by_cases h1 : x < y
    · simp [linsert, h1]
    · have h2 : x > y := lt_of_le_of_ne (not_lt.mp h1) (Ne.symm hxy)
      simp only [linsert, if_neg h1, if_pos h2, List.length_cons]
      rw [length_linsert_of_not_mem x ys (fun hm => h (List.mem_cons_of_mem y hm))]

theorem pairwise_linsert (x : Int) :
    ∀ L : List Int, L.Pairwise (· < ·) → (linsert x L).Pairwise (· < ·)
  | [], _ => by simp [linsert]
  | y :: ys, h => by
    rw [List.pairwise_cons] at h
    obtain ⟨hy, hys⟩ := h
    by_cases h1 : x < y
    · rw [linsert, if_pos h1, List.pairwise_cons]
      refine ⟨?_, List.pairwise_cons.mpr ⟨hy, hys⟩⟩
      intro b hb
      rcases List.mem_cons.mp hb with rfl | hb
      · exact h1
      · exact lt_trans h1 (hy b hb)
    · by_cases h2 : x > y
      · rw [linsert, if_neg h1, if_pos h2, List.pairwise_cons]
        refine ⟨?_, pairwise_linsert x ys hys⟩
        intro b hb
        rcases (mem_linsert x b ys).mp hb with rfl | hb
        · exact h2
        · exact hy b hb
      · rw [linsert, if_neg h1, if_neg h2]
        exact List.pairwise_cons.mpr ⟨hy, hys⟩

end avl

namespace avl

theorem bIL_one (l r : Tree) (k : Int) :
    balanceInsertLeft (Tree.node l k 1 r) = (Tree.node l k 0 r, false) := by
  simp [balanceInsertLeft]

theorem bIL_zero (l r : Tree) (k : Int) :
    balanceInsertLeft (Tree.node l k 0 r) = (Tree.node l k (-1) r, true) := by
  simp [balanceInsertLeft]

theorem bIL_ll (ll lr r : Tree) (lk k : Int) :
    balanceInsertLeft (Tree.node (Tree.node ll lk (-1) lr) k (-1) r) =
      (Tree.node ll lk 0 (Tree.node lr k 0 r), false) := by
  simp [balanceInsertLeft]

theorem bIL_lr (ll lrl lrr r : Tree) (lk lb lrl' lrb k : Int) (hlb : lb ≠ -1) :
    balanceInsertLeft (Tree.node (Tree.node ll lk lb (Tree.node lrl lrl' lrb lrr)) k (-1) r) =
      (Tree.node (Tree.node ll lk (if lrb = 1 then -1 else 0) lrl) lrl' 0
            (Tree.node lrr k (if lrb = -1 then 1 else 0) r), false) := by
  simp [balanceInsertLeft, hlb]

theorem bIR_one (l r : Tree) (k : Int) :
    balanceInsertRight (Tree.node l k (-1) r) = (Tree.node l k 0 r, false) := by
  simp [balanceInsertRight]

theorem bIR_zero (l r : Tree) (k : Int) :
    balanceInsertRight (Tree.node l k 0 r) = (Tree.node l k 1 r, true) := by
  simp [balanceInsertRight]

theorem bIR_rr (l rl rr : Tree) (rk k : Int) :
    balanceInsertRight (Tree.node l k 1 (Tree.node rl rk 1 rr)) =
      (Tree.node (Tree.node l k 0 rl) rk 0 rr, false) := by
  simp [balanceInsertRight]

theorem bIR_rl (l rll rlr rr : Tree) (rk rb rlk rlb k : Int) (hrb : rb ≠ 1) :
    balanceInsertRight (Tree.node l k 1 (Tree.node (Tree.node rll rlk rlb rlr) rk rb rr)) =
      (Tree.node (Tree.node l k (if rlb = 1 then -1 else 0) rll) rlk 0
            (Tree.node rlr rk (if rlb = -1 then 1 else 0) rr), false) := by
  simp [balanceInsertRight, hrb]

end avl

namespace avl

theorem balanced_node {l r : Tree} {k b : Int} :
    Balanced (Tree.node l k b r) ↔ (Balanced l ∧ Balanced r ∧
      b = (height r : Int) - (height l : Int) ∧
      height l ≤ height r + 1 ∧ height r ≤ height l + 1) := Iff.rfl

theorem ordered_node {l r : Tree} {k b : Int} :
    Ordered (Tree.node l k b r) ↔ (Ordered l ∧ Ordered r ∧
      (∀ y ∈ keys l, y < k) ∧ (∀ y ∈ keys r, k < y)) := Iff.rfl

theorem balanceInsertLeft_spec {l r : Tree} {k b : Int} {hl : Nat}
    (bl : Balanced l) (br : Balanced r)
    (hb : b = (height r : Int) - (hl : Int))
    (h1 : hl ≤ height r + 1) (h2 : height r ≤ hl + 1)
    (hg : height l = hl + 1)
    (hnz : b = -1 → balRoot l ≠ 0) :
    Balanced (balanceInsertLeft (Tree.node l k b r)).1 ∧
    keys (balanceInsertLeft (Tree.node l k b r)).1 = keys l ++ k :: keys r ∧
    ((balanceInsertLeft (Tree.node l k b r)).2 = true →
      height (balanceInsertLeft (Tree.node l k b r)).1 = (1 + max hl (height r)) + 1 ∧
      balRoot (balanceInsertLeft (Tree.node l k b r)).1 ≠ 0) ∧
    ((balanceInsertLeft (Tree.node l k b r)).2 = false →
      height (balanceInsertLeft (Tree.node l k b r)).1 = 1 + max hl (height r)) := by
  have hbc : b = 1 ∨ b = 0 ∨ b = -1 := by omega
  rcases hbc with rfl | rfl | rfl
  · -- balance restored
    rw [bIL_one]
    refine ⟨⟨bl, br, by omega, by omega, by omega⟩, rfl, by simp, fun _ => ?_⟩
    simp only [height]
    omega
  · -- tree has become more unbalanced
    rw [bIL_zero]
    refine ⟨⟨bl, br, by omega, by omega, by omega⟩, rfl, fun _ => ?_, by simp⟩
    refine ⟨?_, by norm_num [balRoot]⟩
    simp only [height]
    omega
  · -- rotation needed
    cases l with
    | nil => exact absurd hg (by simp only [height]; omega)
    | node ll lk lb lr =>
      obtain ⟨bll, blr, hlb, hlb1, hlb2⟩ := bl
      have hnz' : lb ≠ 0 := by simpa [balRoot] using hnz rfl
      simp only [height] at hg
      have hlbc : lb = -1 ∨ lb = 1 := by omega
      rcases hlbc with rfl | rfl
      · -- single LL rotation
        rw [bIL_ll]
        refine ⟨⟨bll, ⟨blr, br, ?_, ?_, ?_⟩, ?_, ?_, ?_⟩, by simp [keys], by simp,
          fun _ => ?_⟩ <;>
        · try simp only [height]
          omega
      · -- double LR rotation
        cases lr with
        | nil => exact absurd hlb (by simp only [height]; omega)
        | node lrl lrk lrb lrr =>
          obtain ⟨blrl, blrr, hlrb, hlrb1, hlrb2⟩ := blr
          simp only [height] at hlb hg
          have hlrbc : lrb = 1 ∨ lrb = 0 ∨ lrb = -1 := by omega
          rw [bIL_lr ll lrl lrr r lk 1 lrk lrb k (by norm_num)]
          rcases hlrbc with rfl | rfl | rfl <;>
          · norm_num
            refine ⟨⟨⟨bll, blrl, ?_, ?_, ?_⟩, ⟨blrr, br, ?_, ?_, ?_⟩, ?_, ?_, ?_⟩,
              by simp [keys], ?_⟩ <;>
            · try simp only [height]
              omega

end avl

namespace avl

theorem balanceInsertRight_spec {l r : Tree} {k b : Int} {hr : Nat}
    (bl : Balanced l) (br : Balanced r)
    (hb : b = (hr : Int) - (height l : Int))
    (h1 : height l ≤ hr + 1) (h2 : hr ≤ height l + 1)
    (hg : height r = hr + 1)
    (hnz : b = 1 → balRoot r ≠ 0) :
    Balanced (balanceInsertRight (Tree.node l k b r)).1 ∧
    keys (balanceInsertRight (Tree.node l k b r)).1 = keys l ++ k :: keys r ∧
    ((balanceInsertRight (Tree.node l k b r)).2 = true →
      height (balanceInsertRight (Tree.node l k b r)).1 = (1 + max (height l) hr) + 1 ∧
      balRoot (balanceInsertRight (Tree.node l k b r)).1 ≠ 0) ∧
    ((balanceInsertRight (Tree.node l k b r)).2 = false →
      height (balanceInsertRight (Tree.node l k b r)).1 = 1 + max (height l) hr) := by
  have hbc : b = -1 ∨ b = 0 ∨ b = 1 := by omega
  rcases hbc with rfl | rfl | rfl
  · -- balance restored
    rw [bIR_one]
    refine ⟨⟨bl, br, by omega, by omega, by omega⟩, rfl, by simp, fun _ => ?_⟩
    simp only [height]
    omega
  · -- tree has become more unbalanced
    rw [bIR_zero]
    refine ⟨⟨bl, br, by omega, by omega, by omega⟩, rfl, fun _ => ?_, by simp⟩
    refine ⟨?_, by norm_num [balRoot]⟩
    simp only [height]
    omega
  · -- rotation needed
    cases r with
    | nil => exact absurd hg (by simp only [height]; omega)
    | node rl rk rb rr =>
      obtain ⟨brl, brr, hrb, hrb1, hrb2⟩ := br
      have hnz' : rb ≠ 0 := by simpa [balRoot] using hnz rfl
      simp only [height] at hg
      have hrbc : rb = 1 ∨ rb = -1 := by omega
      rcases hrbc with rfl | rfl
      · -- single RR rotation
        rw [bIR_rr]
        refine ⟨⟨⟨bl, brl, ?_, ?_, ?_⟩, brr, ?_, ?_, ?_⟩, by simp [keys], by simp,
          fun _ => ?_⟩ <;>
        · try simp only [height]
          omega
      · -- double RL rotation
        cases rl with
        | nil => exact absurd hrb (by simp only [height]; omega)
        | node rll rlk rlb rlr =>
          obtain ⟨brll, brlr, hrlb, hrlb1, hrlb2⟩ := brl
          simp only [height] at hrb hg
          have hrlbc : rlb = 1 ∨ rlb = 0 ∨ rlb = -1 := by omega
          rw [bIR_rl l rll rlr rr rk (-1) rlk rlb k (by norm_num)]
          rcases hrlbc with rfl | rfl | rfl <;>
          · norm_num
            refine ⟨⟨⟨bl, brll, ?_, ?_, ?_⟩, ⟨brlr, brr, ?_, ?_, ?_⟩, ?_, ?_, ?_⟩,
              by simp [keys], ?_⟩ <;>
            · try simp only [height]
              omega

end avl

namespace avl

theorem bEL_neg (l r : Tree) (k : Int) :
    balanceEraseLeft (Tree.node l k (-1) r) = (Tree.node l k 0 r, true) := by
  simp [balanceEraseLeft]

theorem bEL_zero (l r : Tree) (k : Int) :
    balanceEraseLeft (Tree.node l k 0 r) = (Tree.node l k 1 r, false) := by
  simp [balanceEraseLeft]

theorem bEL_rr0 (l rl rr : Tree) (rk k : Int) :
    balanceEraseLeft (Tree.node l k 1 (Tree.node rl rk 0 rr)) =
      (Tree.node (Tree.node l k 1 rl) rk (-1) rr, false) := by
  simp [balanceEraseLeft]

theorem bEL_rr1 (l rl rr : Tree) (rk k : Int) :
    balanceEraseLeft (Tree.node l k 1 (Tree.node rl rk 1 rr)) =
      (Tree.node (Tree.node l k 0 rl) rk 0 rr, true) := by
  simp [balanceEraseLeft]

theorem bEL_rl (l rll rlr rr : Tree) (rk rlk rlb k : Int) :
    balanceEraseLeft (Tree.node l k 1 (Tree.node (Tree.node rll rlk rlb rlr) rk (-1) rr)) =
      (Tree.node (Tree.node l k (if rlb = 1 then -1 else 0) rll) rlk 0
            (Tree.node rlr rk (if rlb = -1 then 1 else 0) rr), true) := by
  simp [balanceEraseLeft]

theorem bER_pos (l r : Tree) (k : Int) :
    balanceEraseRight (Tree.node l k 1 r) = (Tree.node l k 0 r, true) := by
  simp [balanceEraseRight]

theorem bER_zero (l r : Tree) (k : Int) :
    balanceEraseRight (Tree.node l k 0 r) = (Tree.node l k (-1) r, false) := by
  simp [balanceEraseRight]

theorem bER_ll0 (ll lr r : Tree) (lk k : Int) :
    balanceEraseRight (Tree.node (Tree.node ll lk 0 lr) k (-1) r) =
      (Tree.node ll lk 1 (Tree.node lr k (-1) r), false) := by
  simp [balanceEraseRight]

theorem bER_ll1 (ll lr r : Tree) (lk k : Int) :
    balanceEraseRight (Tree.node (Tree.node ll lk (-1) lr) k (-1) r) =
      (Tree.node ll lk 0 (Tree.node lr k 0 r), true) := by
  simp [balanceEraseRight]

theorem bER_lr (ll lrl lrr r : Tree) (lk lrk lrb k : Int) :
    balanceEraseRight (Tree.node (Tree.node ll lk 1 (Tree.node lrl lrk lrb lrr)) k (-1) r) =
      (Tree.node (Tree.node ll lk (if lrb = 1 then -1 else 0) lrl) lrk 0
            (Tree.node lrr k (if lrb = -1 then 1 else 0) r), true) := by
  simp [balanceEraseRight]

theorem balanceEraseLeft_spec {l r : Tree} {k b : Int} {hl : Nat}
    (bl : Balanced l) (br : Balanced r)
    (hb : b = (height r : Int) - (hl : Int))
    (h1 : hl ≤ height r + 1) (h2 : height r ≤ hl + 1)
    (hs : height l + 1 = hl) :
    Balanced (balanceEraseLeft (Tree.node l k b r)).1 ∧
    keys (balanceEraseLeft (Tree.node l k b r)).1 = keys l ++ k :: keys r ∧
    ((balanceEraseLeft (Tree.node l k b r)).2 = true →
      height (balanceEraseLeft (Tree.node l k b r)).1 + 1 = 1 + max hl (height r)) ∧
    ((balanceEraseLeft (Tree.node l k b r)).2 = false →
      height (balanceEraseLeft (Tree.node l k b r)).1 = 1 + max hl (height r)) := by
  have hbc : b = -1 ∨ b = 0 ∨ b = 1 := by omega
  rcases hbc with rfl | rfl | rfl
  · rw [bEL_neg]
    refine ⟨⟨bl, br, by omega, by omega, by omega⟩, rfl, fun _ => ?_, by simp⟩
    simp only [height]
    omega
  · rw [bEL_zero]
    refine ⟨⟨bl, br, by omega, by omega, by omega⟩, rfl, by simp, fun _ => ?_⟩
    simp only [height]
    omega
  · cases r with
    | nil => exact absurd hb (by simp only [height]; omega)
    | node rl rk rb rr =>
      obtain ⟨brl, brr, hrb, hrb1, hrb2⟩ := br
      simp only [height] at hb h1 h2
      have hrbc : rb = 0 ∨ rb = 1 ∨ rb = -1 := by omega
      rcases hrbc with rfl | rfl | rfl
      · rw [bEL_rr0]
        refine ⟨⟨⟨bl, brl, ?_, ?_, ?_⟩, brr, ?_, ?_, ?_⟩, by simp [keys], by simp,
          fun _ => ?_⟩ <;>
        · try simp only [height]
          omega
      · rw [bEL_rr1]
        refine ⟨⟨⟨bl, brl, ?_, ?_, ?_⟩, brr, ?_, ?_, ?_⟩, by simp [keys], fun _ => ?_,
          by simp⟩ <;>
        · try simp only [height]
          omega
      · cases rl with
        | nil => exact absurd hrb (by simp only [height]; omega)
        | node rll rlk rlb rlr =>
          obtain ⟨brll, brlr, hrlb, hrlb1, hrlb2⟩ := brl
          simp only [height] at hrb hb h1 h2
          have hrlbc : rlb = 1 ∨ rlb = 0 ∨ rlb = -1 := by omega
          rw [bEL_rl]
          rcases hrlbc with rfl | rfl | rfl <;>
          · norm_num
            refine ⟨⟨⟨bl, brll, ?_, ?_, ?_⟩, ⟨brlr, brr, ?_, ?_, ?_⟩, ?_, ?_, ?_⟩,
              by simp [keys], ?_⟩ <;>
            · try simp only [height]
              omega

theorem balanceEraseRight_spec {l r : Tree} {k b : Int} {hr : Nat}
    (bl : Balanced l) (br : Balanced r)
    (hb : b = (hr : Int) - (height l : Int))
    (h1 : height l ≤ hr + 1) (h2 : hr ≤ height l + 1)
    (hs : height r + 1 = hr) :
    Balanced (balanceEraseRight (Tree.node l k b r)).1 ∧
    keys (balanceEraseRight (Tree.node l k b r)).1 = keys l ++ k :: keys r ∧
    ((balanceEraseRight (Tree.node l k b r)).2 = true →
      height (balanceEraseRight (Tree.node l k b r)).1 + 1 = 1 + max (height l) hr) ∧
    ((balanceEraseRight (Tree.node l k b r)).2 = false →
      height (balanceEraseRight (Tree.node l k b r)).1 = 1 + max (height l) hr) := by
  have hbc : b = 1 ∨ b = 0 ∨ b = -1 := by omega
  rcases hbc with rfl | rfl | rfl
  · rw [bER_pos]
    refine ⟨⟨bl, br, by omega, by omega, by omega⟩, rfl, fun _ => ?_, by simp⟩
    simp only [height]
    omega
  · rw [bER_zero]
    refine ⟨⟨bl, br, by omega, by omega, by omega⟩, rfl, by simp, fun _ => ?_⟩
    simp only [height]
    omega
  · cases l with
    | nil => exact absurd hb (by simp only [height]; omega)
    | node ll lk lb lr =>
      obtain ⟨bll, blr, hlb, hlb1, hlb2⟩ := bl
      simp only [height] at hb h1 h2
      have hlbc : lb = 0 ∨ lb = -1 ∨ lb = 1 := by omega
      rcases hlbc with rfl | rfl | rfl
      · rw [bER_ll0]
        refine ⟨⟨bll, ⟨blr, br, ?_, ?_, ?_⟩, ?_, ?_, ?_⟩, by simp [keys], by simp,
          fun _ => ?_⟩ <;>
        · try simp only [height]
          omega
      · rw [bER_ll1]
        refine ⟨⟨bll, ⟨blr, br, ?_, ?_, ?_⟩, ?_, ?_, ?_⟩, by simp [keys], fun _ => ?_,
          by simp⟩ <;>
        · try simp only [height]
          omega
      · cases lr with
        | nil => exact absurd hlb (by simp only [height]; omega)
        | node lrl lrk lrb lrr =>
          obtain ⟨blrl, blrr, hlrb, hlrb1, hlrb2⟩ := blr
          simp only [height] at hlrb hlb h1 h2
          have hlrbc : lrb = 1 ∨ lrb = 0 ∨ lrb = -1 := by omega
          rw [bER_lr]
          rcases hlrbc with rfl | rfl | rfl <;>
          · norm_num
            refine ⟨⟨⟨bll, blrl, ?_, ?_, ?_⟩, ⟨blrr, br, ?_, ?_, ?_⟩, ?_, ?_, ?_⟩,
              by simp [keys], ?_⟩ <;>
            · try simp only [height]
              omega

end avl

namespace avl

theorem keys_bIL : ∀ t : Tree, keys (balanceInsertLeft t).1 = keys t := by
  intro t
  unfold balanceInsertLeft
  repeat' split
  all_goals simp [keys]

theorem keys_bIR : ∀ t : Tree, keys (balanceInsertRight t).1 = keys t := by
  intro t
  unfold balanceInsertRight
  repeat' split
  all_goals simp [keys]

theorem keys_bEL : ∀ t : Tree, keys (balanceEraseLeft t).1 = keys t := by
  intro t
  unfold balanceEraseLeft
  repeat' split
  all_goals simp [keys]

theorem keys_bER : ∀ t : Tree, keys (balanceEraseRight t).1 = keys t := by
  intro t
  unfold balanceEraseRight
  repeat' split
  all_goals simp [keys]

theorem newNode_spec (x : Int) (f : List Int) :
    newNode x f = (Tree.node Tree.nil x 0 Tree.nil, f.tail, true) := by
  cases f <;> simp [newNode]

theorem mem_keys_lt {l r : Tree} {k b x : Int} (hO : Ordered (Tree.node l k b r))
    (hx : x < k) : x ∈ keys (Tree.node l k b r) ↔ x ∈ keys l := by
  obtain ⟨-, -, -, hbr⟩ := hO
  simp only [keys, List.mem_append, List.mem_cons]
  constructor
  · rintro (h | rfl | h)
    · exact h
    · exact absurd hx (lt_irrefl x)
    · exact absurd (lt_trans (hbr x h) hx) (lt_irrefl k)
  · exact fun h => Or.inl h

theorem mem_keys_gt {l r : Tree} {k b x : Int} (hO : Ordered (Tree.node l k b r))
    (hx : k < x) : x ∈ keys (Tree.node l k b r) ↔ x ∈ keys r := by
  obtain ⟨-, -, hbl, -⟩ := hO
  simp only [keys, List.mem_append, List.mem_cons]
  constructor
  · rintro (h | rfl | h)
    · exact absurd (lt_trans (hbl x h) hx) (lt_irrefl x)
    · exact absurd hx (lt_irrefl x)
    · exact h
  · exact fun h => Or.inr (Or.inr h)

end avl

namespace avl

theorem insertN_lt_leaf {r : Tree} {k b x : Int} {f : List Int} (hx : x < k) :
    insertN (Tree.node Tree.nil k b r) x f =
      ⟨(balanceInsertLeft (Tree.node (Tree.node Tree.nil x 0 Tree.nil) k b r)).1,
       (balanceInsertLeft (Tree.node (Tree.node Tree.nil x 0 Tree.nil) k b r)).2,
       true, f.tail⟩ := by
  rw [insertN.eq_def]
  dsimp only
  rw [if_pos hx, newNode_spec]
  simp

theorem insertN_lt_grow {l r : Tree} {k b x : Int} {f : List Int} (hx : x < k)
    (hln : l ≠ Tree.nil) (hh : (insertN l x f).h = true) :
    insertN (Tree.node l k b r) x f =
      ⟨(balanceInsertLeft (Tree.node (insertN l x f).tree k b r)).1,
       (balanceInsertLeft (Tree.node (insertN l x f).tree k b r)).2,
       (insertN l x f).a, (insertN l x f).freed⟩ := by
  cases l with
  | nil => exact absurd rfl hln
  | node ll lk lb lr =>
    rw [insertN.eq_def]
    dsimp only
    rw [if_pos hx, hh]
    simp

theorem insertN_lt_same {l r : Tree} {k b x : Int} {f : List Int} (hx : x < k)
    (hln : l ≠ Tree.nil) (hh : (insertN l x f).h = false) :
    insertN (Tree.node l k b r) x f =
      ⟨Tree.node (insertN l x f).tree k b r, false,
       (insertN l x f).a, (insertN l x f).freed⟩ := by
  cases l with
  | nil => exact absurd rfl hln
  | node ll lk lb lr =>
    rw [insertN.eq_def]
    dsimp only
    rw [if_pos hx, hh]
    simp [hh]

theorem insertN_gt_leaf {l : Tree} {k b x : Int} {f : List Int} (hx : x > k) :
    insertN (Tree.node l k b Tree.nil) x f =
      ⟨(balanceInsertRight (Tree.node l k b (Tree.node Tree.nil x 0 Tree.nil))).1,
       (balanceInsertRight (Tree.node l k b (Tree.node Tree.nil x 0 Tree.nil))).2,
       true, f.tail⟩ := by
  rw [insertN.eq_def]
  dsimp only
  rw [if_neg (by omega : ¬ x < k), if_pos hx, newNode_spec]
  simp

theorem insertN_gt_grow {l r : Tree} {k b x : Int} {f : List Int} (hx : x > k)
    (hrn : r ≠ Tree.nil) (hh : (insertN r x f).h = true) :
    insertN (Tree.node l k b r) x f =
      ⟨(balanceInsertRight (Tree.node l k b (insertN r x f).tree)).1,
       (balanceInsertRight (Tree.node l k b (insertN r x f).tree)).2,
       (insertN r x f).a, (insertN r x f).freed⟩ := by
  cases r with
  | nil => exact absurd rfl hrn
  | node rl rk rb rr =>
    rw [insertN.eq_def]
    dsimp only
    rw [if_neg (by omega : ¬ x < k), if_pos hx, hh]
    simp

theorem insertN_gt_same {l r : Tree} {k b x : Int} {f : List Int} (hx : x > k)
    (hrn : r ≠ Tree.nil) (hh : (insertN r x f).h = false) :
    insertN (Tree.node l k b r) x f =
      ⟨Tree.node l k b (insertN r x f).tree, false,
       (insertN r x f).a, (insertN r x f).freed⟩ := by
  cases r with
  | nil => exact absurd rfl hrn
  | node rl rk rb rr =>
    rw [insertN.eq_def]
    dsimp only
    rw [if_neg (by omega : ¬ x < k), if_pos hx, hh]
    simp [hh]

theorem insertN_found {l r : Tree} {k b : Int} {f : List Int} :
    insertN (Tree.node l k b r) k f = ⟨Tree.node l k b r, false, false, f⟩ := by
  rw [insertN.eq_def]
  dsimp only
  rw [if_neg (lt_irrefl k), if_neg (by omega : ¬ k > k)]

end avl

namespace avl

theorem insertN_keys : ∀ (t : Tree) (x : Int) (f : List Int), Ordered t → t ≠ Tree.nil →
    keys (insertN t x f).tree = linsert x (keys t) ∧
    ((insertN t x f).a = true ↔ x ∉ keys t) ∧
    ((insertN t x f).a = false → (insertN t x f).tree = t ∧ (insertN t x f).h = false) ∧
    (insertN t x f).freed = (if (insertN t x f).a then f.tail else f)
  | Tree.nil, _, _, _, hne => absurd rfl hne
  | Tree.node l k b r, x, f, hO, _ => by
    obtain ⟨hOl, hOr, hbl, hbr⟩ := hO
    rcases lt_trichotomy x k with hx | rfl | hx
    · -- x < k : descend left
      have hnotmem : x ∉ keys (Tree.node l k b r) → True := fun _ => trivial
      cases l with
      | nil =>
        rw [insertN_lt_leaf hx]
        refine ⟨?_, ?_, by simp, by simp⟩
        · show keys (balanceInsertLeft _).1 = _
          rw [keys_bIL]
          simp [keys, linsert, hx]
        · simp only [true_iff]
          intro hmem
          simp only [keys, List.nil_append, List.mem_cons] at hmem
          rcases hmem with rfl | hmem
          · exact absurd hx (lt_irrefl x)
          · exact absurd (lt_trans (hbr x hmem) hx) (lt_irrefl k)
      | node ll lk lb lr =>
        have IH := insertN_keys (Tree.node ll lk lb lr) x f hOl (by simp)
        obtain ⟨IHk, IHa, IHf, IHfr⟩ := IH
        have hmemiff : x ∈ keys (Tree.node (Tree.node ll lk lb lr) k b r) ↔
            x ∈ keys (Tree.node ll lk lb lr) :=
          mem_keys_lt ⟨hOl, hOr, hbl, hbr⟩ hx
        have hkeyseq : linsert x (keys (Tree.node (Tree.node ll lk lb lr) k b r)) =
            linsert x (keys (Tree.node ll lk lb lr)) ++ k :: keys r := by
          simp only [keys]
          exact linsert_append_lt x k _ _ hbl hx
        by_cases hh : (insertN (Tree.node ll lk lb lr) x f).h = true
        · rw [insertN_lt_grow hx (by simp) hh]
          refine ⟨?_, ?_, ?_, IHfr⟩
          · show keys (balanceInsertLeft _).1 = _
            rw [keys_bIL, hkeyseq, ← IHk]
            simp [keys]
          · rw [hmemiff]
            exact IHa
          · intro ha
            exact absurd ((IHf ha).2) (by simp [hh])
        · rw [insertN_lt_same hx (by simp) (by simpa using hh)]
          refine ⟨?_, ?_, ?_, IHfr⟩
          · show keys (Tree.node _ k b r) = _
            rw [hkeyseq, ← IHk]
            simp [keys]
          · rw [hmemiff]
            exact IHa
          · intro ha
            rw [show (insertN (Tree.node ll lk lb lr) x f).tree = Tree.node ll lk lb lr
              from (IHf ha).1]
            exact ⟨rfl, rfl⟩
    · -- x = k : already present
      rw [insertN_found]
      refine ⟨?_, ?_, fun _ => ⟨rfl, rfl⟩, by simp⟩
      · show keys (Tree.node l x b r) = _
        rw [keys, linsert_append_eq x _ _ hbl]
      · simp only [Bool.false_eq_true, false_iff, not_not, keys]
        exact List.mem_append.mpr (Or.inr (List.mem_cons_self x _))
    · -- x > k : descend right
      cases r with
      | nil =>
        rw [insertN_gt_leaf hx]
        refine ⟨?_, ?_, by simp, by simp⟩
        · show keys (balanceInsertRight _).1 = _
          rw [keys_bIR]
          simp only [keys, List.nil_append]
          rw [linsert_append_gt x k _ _ hbl hx]
          simp [linsert]
        · simp only [true_iff]
          intro hmem
          simp only [keys, List.mem_append, List.mem_cons] at hmem
          rcases hmem with hmem | rfl | hmem
          · exact absurd (lt_trans (hbl x hmem) hx) (lt_irrefl x)
          · exact absurd hx (lt_irrefl x)
          · simp [keys] at hmem
      | node rl rk rb rr =>
        have IH := insertN_keys (Tree.node rl rk rb rr) x f hOr (by simp)
        obtain ⟨IHk, IHa, IHf, IHfr⟩ := IH
        have hmemiff : x ∈ keys (Tree.node l k b (Tree.node rl rk rb rr)) ↔
            x ∈ keys (Tree.node rl rk rb rr) :=
          mem_keys_gt ⟨hOl, hOr, hbl, hbr⟩ hx
        have hkeyseq : linsert x (keys (Tree.node l k b (Tree.node rl rk rb rr))) =
            keys l ++ k :: linsert x (keys (Tree.node rl rk rb rr)) := by
          simp only [keys]
          exact linsert_append_gt x k _ _ hbl hx
        by_cases hh : (insertN (Tree.node rl rk rb rr) x f).h = true
        · rw [insertN_gt_grow hx (by simp) hh]
          refine ⟨?_, ?_, ?_, IHfr⟩
          · show keys (balanceInsertRight _).1 = _
            rw [keys_bIR, hkeyseq, ← IHk]
            simp [keys]
          · rw [hmemiff]
            exact IHa
          · intro ha
            exact absurd ((IHf ha).2) (by simp [hh])
        · rw [insertN_gt_same hx (by simp) (by simpa using hh)]
          refine ⟨?_, ?_, ?_, IHfr⟩
          · show keys (Tree.node l k b _) = _
            rw [hkeyseq, ← IHk]
            simp [keys]
          · rw [hmemiff]
            exact IHa
          · intro ha
            rw [show (insertN (Tree.node rl rk rb rr) x f).tree = Tree.node rl rk rb rr
              from (IHf ha).1]
            exact ⟨rfl, rfl⟩

end avl

namespace avl

theorem insertN_bal : ∀ (t : Tree) (x : Int) (f : List Int), Balanced t → t ≠ Tree.nil →
    Balanced (insertN t x f).tree ∧
    ((insertN t x f).h = true → height (insertN t x f).tree = height t + 1 ∧
        balRoot (insertN t x f).tree ≠ 0) ∧
    ((insertN t x f).h = false → height (insertN t x f).tree = height t)
  | Tree.nil, _, _, _, hne => absurd rfl hne
  | Tree.node l k b r, x, f, hB, _ => by
    obtain ⟨hBl, hBr, hbeq, hbd1, hbd2⟩ := hB
    rcases lt_trichotomy x k with hx | rfl | hx
    · -- x < k : descend left
      cases l with
      | nil =>
        rw [insertN_lt_leaf hx]
        have hleaf : Balanced (Tree.node Tree.nil x 0 Tree.nil) :=
          ⟨trivial, trivial, by simp [height], by simp [height], by simp [height]⟩
        simp only [height] at hbeq hbd1 hbd2
        have spec := @balanceInsertLeft_spec (Tree.node Tree.nil x 0 Tree.nil) r k b 0
          hleaf hBr (by omega) (by omega) (by omega) (by simp [height])
          (fun hb1 => by exfalso; omega)
        refine ⟨spec.1, fun hh => ?_, fun hh => ?_⟩
        · have := spec.2.2.1 hh
          refine ⟨?_, this.2⟩
          rw [this.1]
          simp only [height]
        · have := spec.2.2.2 hh
          rw [this]
          simp only [height]
      | node ll lk lb lr =>
        have IH := insertN_bal (Tree.node ll lk lb lr) x f hBl (by simp)
        obtain ⟨IHb, IHt, IHf⟩ := IH
        by_cases hh : (insertN (Tree.node ll lk lb lr) x f).h = true
        · rw [insertN_lt_grow hx (by simp) hh]
          have spec := @balanceInsertLeft_spec (insertN (Tree.node ll lk lb lr) x f).tree
            r k b (height (Tree.node ll lk lb lr)) IHb hBr hbeq hbd1 hbd2 (IHt hh).1
            (fun _ => (IHt hh).2)
          refine ⟨spec.1, fun hh2 => ?_, fun hh2 => ?_⟩
          · have := spec.2.2.1 hh2
            refine ⟨?_, this.2⟩
            rw [this.1]
            simp only [height]
          · have := spec.2.2.2 hh2
            rw [this]
            simp only [height]
        · rw [insertN_lt_same hx (by simp) (by simpa using hh)]
          have hht : height (insertN (Tree.node ll lk lb lr) x f).tree =
              height (Tree.node ll lk lb lr) := IHf (by simpa using hh)
          refine ⟨⟨IHb, hBr, by rw [hht]; exact hbeq, by rw [hht]; exact hbd1,
            by rw [hht]; exact hbd2⟩, by simp, fun _ => ?_⟩
          simp only [height, hht]
    · -- x = k
      rw [insertN_found]
      exact ⟨⟨hBl, hBr, hbeq, hbd1, hbd2⟩, by simp, fun _ => rfl⟩
    · -- x > k : descend right
      cases r with
      | nil =>
        rw [insertN_gt_leaf hx]
        have hleaf : Balanced (Tree.node Tree.nil x 0 Tree.nil) :=
          ⟨trivial, trivial, by simp [height], by simp [height], by simp [height]⟩
        simp only [height] at hbeq hbd1 hbd2
        have spec := @balanceInsertRight_spec l (Tree.node Tree.nil x 0 Tree.nil) k b 0
          hBl hleaf (by omega) (by omega) (by omega) (by simp [height])
          (fun hb1 => by exfalso; omega)
        refine ⟨spec.1, fun hh => ?_, fun hh => ?_⟩
        · have := spec.2.2.1 hh
          refine ⟨?_, this.2⟩
          rw [this.1]
          simp only [height]
        · have := spec.2.2.2 hh
          rw [this]
          simp only [height]
      | node rl rk rb rr =>
        have IH := insertN_bal (Tree.node rl rk rb rr) x f hBr (by simp)
        obtain ⟨IHb, IHt, IHf⟩ := IH
        by_cases hh : (insertN (Tree.node rl rk rb rr) x f).h = true
        · rw [insertN_gt_grow hx (by simp) hh]
          have spec := @balanceInsertRight_spec l (insertN (Tree.node rl rk rb rr) x f).tree
            k b (height (Tree.node rl rk rb rr)) hBl IHb hbeq hbd1 hbd2 (IHt hh).1
            (fun _ => (IHt hh).2)
          refine ⟨spec.1, fun hh2 => ?_, fun hh2 => ?_⟩
          · have := spec.2.2.1 hh2
            refine ⟨?_, this.2⟩
            rw [this.1]
            simp only [height]
          · have := spec.2.2.2 hh2
            rw [this]
            simp only [height]
        · rw [insertN_gt_same hx (by simp) (by simpa using hh)]
          have hht : height (insertN (Tree.node rl rk rb rr) x f).tree =
              height (Tree.node rl rk rb rr) := IHf (by simpa using hh)
          refine ⟨⟨hBl, IHb, by rw [hht]; exact hbeq, by rw [hht]; exact hbd1,
            by rw [hht]; exact hbd2⟩, by simp, fun _ => ?_⟩
          simp only [height, hht]

end avl

namespace avl

theorem eraseLeft_nilL {r : Tree} {k b : Int} :
    eraseLeft (Tree.node Tree.nil k b r) = (r, k, true) := by
  rw [eraseLeft.eq_def]

theorem eraseLeft_step {l r : Tree} {k b : Int} (hln : l ≠ Tree.nil) :
    eraseLeft (Tree.node l k b r) =
      if (eraseLeft l).2.2 then
        ((balanceEraseLeft (Tree.node (eraseLeft l).1 k b r)).1, (eraseLeft l).2.1,
         (balanceEraseLeft (Tree.node (eraseLeft l).1 k b r)).2)
      else (Tree.node (eraseLeft l).1 k b r, (eraseLeft l).2.1, (eraseLeft l).2.2) := by
  cases l with
  | nil => exact absurd rfl hln
  | node ll lk lb lr =>
    rw [eraseLeft.eq_def]

theorem eraseRight_nilR {l : Tree} {k b : Int} :
    eraseRight (Tree.node l k b Tree.nil) = (l, k, true) := by
  rw [eraseRight.eq_def]

theorem eraseRight_step {l r : Tree} {k b : Int} (hrn : r ≠ Tree.nil) :
    eraseRight (Tree.node l k b r) =
      if (eraseRight r).2.2 then
        ((balanceEraseRight (Tree.node l k b (eraseRight r).1)).1, (eraseRight r).2.1,
         (balanceEraseRight (Tree.node l k b (eraseRight r).1)).2)
      else (Tree.node l k b (eraseRight r).1, (eraseRight r).2.1, (eraseRight r).2.2) := by
  cases r with
  | nil => exact absurd rfl hrn
  | node rl rk rb rr =>
    rw [eraseRight.eq_def]

theorem erase_lt_nil {cfg : EraseCfg} {r : Tree} {k b x : Int} {f : List Int}
    (hx : x < k) :
    erase cfg (Tree.node Tree.nil k b r) x f = ⟨Tree.node Tree.nil k b r, false, false, f⟩ := by
  rw [erase.eq_def]
  dsimp only
  rw [if_pos hx]

theorem erase_lt {cfg : EraseCfg} {l r : Tree} {k b x : Int} {f : List Int}
    (hx : x < k) (hln : l ≠ Tree.nil) :
    erase cfg (Tree.node l k b r) x f =
      if (erase cfg l x f).h then
        ⟨(balanceEraseLeft (Tree.node (erase cfg l x f).tree k b r)).1,
         (balanceEraseLeft (Tree.node (erase cfg l x f).tree k b r)).2,
         (erase cfg l x f).r, (erase cfg l x f).freed⟩
      else ⟨Tree.node (erase cfg l x f).tree k b r, (erase cfg l x f).h,
            (erase cfg l x f).r, (erase cfg l x f).freed⟩ := by
  cases l with
  | nil => exact absurd rfl hln
  | node ll lk lb lr =>
    rw [erase.eq_def]
    dsimp only
    rw [if_pos hx]

theorem erase_gt_nil {cfg : EraseCfg} {l : Tree} {k b x : Int} {f : List Int}
    (hx : x > k) :
    erase cfg (Tree.node l k b Tree.nil) x f = ⟨Tree.node l k b Tree.nil, false, false, f⟩ := by
  rw [erase.eq_def]
  dsimp only
  rw [if_neg (by omega : ¬ x < k), if_pos hx]

theorem erase_gt {cfg : EraseCfg} {l r : Tree} {k b x : Int} {f : List Int}
    (hx : x > k) (hrn : r ≠ Tree.nil) :
    erase cfg (Tree.node l k b r) x f =
      if (erase cfg r x f).h then
        ⟨(balanceEraseRight (Tree.node l k b (erase cfg r x f).tree)).1,
         (balanceEraseRight (Tree.node l k b (erase cfg r x f).tree)).2,
         (erase cfg r x f).r, (erase cfg r x f).freed⟩
      else ⟨Tree.node l k b (erase cfg r x f).tree, (erase cfg r x f).h,
            (erase cfg r x f).r, (erase cfg r x f).freed⟩ := by
  cases r with
  | nil => exact absurd rfl hrn
  | node rl rk rb rr =>
    rw [erase.eq_def]
    dsimp only
    rw [if_neg (by omega : ¬ x < k), if_pos hx]

theorem erase_found_rnil {cfg : EraseCfg} {l : Tree} {k b : Int} {f : List Int} :
    erase cfg (Tree.node l k b Tree.nil) k f = ⟨l, true, true, k :: f⟩ := by
  rw [erase.eq_def]
  dsimp only
  rw [if_neg (lt_irrefl k), if_neg (by omega : ¬ k > k), if_pos rfl]

theorem erase_found_lnil {cfg : EraseCfg} {r : Tree} {k b : Int} {f : List Int}
    (hrn : r ≠ Tree.nil) :
    erase cfg (Tree.node Tree.nil k b r) k f = ⟨r, true, true, k :: f⟩ := by
  rw [erase.eq_def]
  dsimp only
  rw [if_neg (lt_irrefl k), if_neg (by omega : ¬ k > k), if_neg hrn, if_pos rfl]

theorem erase_found_succ {cfg : EraseCfg} {l r : Tree} {k b : Int} {f : List Int}
    (hln : l ≠ Tree.nil) (hrn : r ≠ Tree.nil)
    (hcfg : cfg = .plain ∨ (cfg = .preferred ∧ ¬ b ≤ 0) ∨ (cfg = .invertPreferred ∧ ¬ b < 0)) :
    erase cfg (Tree.node l k b r) k f =
      if (eraseLeft r).2.2 then
        ⟨(balanceEraseRight (Tree.node l (eraseLeft r).2.1 b (eraseLeft r).1)).1,
         (balanceEraseRight (Tree.node l (eraseLeft r).2.1 b (eraseLeft r).1)).2,
         true, (eraseLeft r).2.1 :: f⟩
      else ⟨Tree.node l (eraseLeft r).2.1 b (eraseLeft r).1, (eraseLeft r).2.2, true,
            (eraseLeft r).2.1 :: f⟩ := by
  rw [erase.eq_def]
  dsimp only
  rw [if_neg (lt_irrefl k), if_neg (by omega : ¬ k > k), if_neg hrn, if_neg hln]
  rcases hcfg with rfl | ⟨rfl, hbc⟩ | ⟨rfl, hbc⟩
  · dsimp only
  · dsimp only
    rw [if_neg hbc]
  · dsimp only
    rw [if_neg hbc]

theorem erase_found_pred {cfg : EraseCfg} {l r : Tree} {k b : Int} {f : List Int}
    (hln : l ≠ Tree.nil) (hrn : r ≠ Tree.nil)
    (hcfg : (cfg = .preferred ∧ b ≤ 0) ∨ (cfg = .invertPreferred ∧ b < 0)) :
    erase cfg (Tree.node l k b r) k f =
      if (eraseRight l).2.2 then
        ⟨(balanceEraseLeft (Tree.node (eraseRight l).1 (eraseRight l).2.1 b r)).1,
         (balanceEraseLeft (Tree.node (eraseRight l).1 (eraseRight l).2.1 b r)).2,
         true, (eraseRight l).2.1 :: f⟩
      else ⟨Tree.node (eraseRight l).1 (eraseRight l).2.1 b r, (eraseRight l).2.2, true,
            (eraseRight l).2.1 :: f⟩ := by
  rw [erase.eq_def]
  dsimp only
  rw [if_neg (lt_irrefl k), if_neg (by omega : ¬ k > k), if_neg hrn, if_neg hln]
  rcases hcfg with ⟨rfl, hbc⟩ | ⟨rfl, hbc⟩
  · dsimp only
    rw [if_pos hbc]
  · dsimp only
    rw [if_pos hbc]

end avl

namespace avl

theorem eraseLeft_spec : ∀ t : Tree, t ≠ Tree.nil → Balanced t →
    Balanced (eraseLeft t).1 ∧
    keys t = (eraseLeft t).2.1 :: keys (eraseLeft t).1 ∧
    ((eraseLeft t).2.2 = true → height (eraseLeft t).1 + 1 = height t) ∧
    ((eraseLeft t).2.2 = false → height (eraseLeft t).1 = height t)
  | Tree.nil, hne, _ => absurd rfl hne
  | Tree.node l k b r, _, hB => by
    obtain ⟨hBl, hBr, hbeq, hbd1, hbd2⟩ := hB
    cases l with
    | nil =>
      rw [eraseLeft_nilL]
      refine ⟨hBr, by simp [keys], fun _ => ?_, by simp⟩
      simp only [height] at *
      omega
    | node ll lk lb lr =>
      have IH := eraseLeft_spec (Tree.node ll lk lb lr) (by simp) hBl
      obtain ⟨IHb, IHk, IHt, IHf⟩ := IH
      rw [eraseLeft_step (by simp)]
      by_cases hh : (eraseLeft (Tree.node ll lk lb lr)).2.2 = true
      · rw [if_pos hh]
        have spec := @balanceEraseLeft_spec (eraseLeft (Tree.node ll lk lb lr)).1 r k b
          (height (Tree.node ll lk lb lr)) IHb hBr hbeq hbd1 hbd2 (IHt hh)
        refine ⟨spec.1, ?_, fun hh2 => ?_, fun hh2 => ?_⟩
        · show keys (Tree.node (Tree.node ll lk lb lr) k b r) = _ :: keys (balanceEraseLeft _).1
          rw [spec.2.1]
          show _ = _ :: (keys (eraseLeft (Tree.node ll lk lb lr)).1 ++ k :: keys r)
          rw [keys, IHk]
          simp
        · have := spec.2.2.1 hh2
          rw [show (height (Tree.node (Tree.node ll lk lb lr) k b r)) =
            1 + max (height (Tree.node ll lk lb lr)) (height r) from rfl]
          exact this
        · have := spec.2.2.2 hh2
          rw [show (height (Tree.node (Tree.node ll lk lb lr) k b r)) =
            1 + max (height (Tree.node ll lk lb lr)) (height r) from rfl]
          exact this
      · rw [if_neg hh]
        have hhf : (eraseLeft (Tree.node ll lk lb lr)).2.2 = false := by
          simpa using hh
        have hht := IHf hhf
        refine ⟨⟨IHb, hBr, by rw [hht]; exact hbeq, by rw [hht]; exact hbd1,
          by rw [hht]; exact hbd2⟩, ?_, by simp [hhf], fun _ => ?_⟩
        · rw [keys, IHk, keys]
          simp
        · simp only [height, hht]

theorem eraseRight_spec : ∀ t : Tree, t ≠ Tree.nil → Balanced t →
    Balanced (eraseRight t).1 ∧
    keys t = keys (eraseRight t).1 ++ [(eraseRight t).2.1] ∧
    ((eraseRight t).2.2 = true → height (eraseRight t).1 + 1 = height t) ∧
    ((eraseRight t).2.2 = false → height (eraseRight t).1 = height t)
  | Tree.nil, hne, _ => absurd rfl hne
  | Tree.node l k b r, _, hB => by
    obtain ⟨hBl, hBr, hbeq, hbd1, hbd2⟩ := hB
    cases r with
    | nil =>
      rw [eraseRight_nilR]
      refine ⟨hBl, by simp [keys], fun _ => ?_, by simp⟩
      simp only [height] at *
      omega
    | node rl rk rb rr =>
      have IH := eraseRight_spec (Tree.node rl rk rb rr) (by simp) hBr
      obtain ⟨IHb, IHk, IHt, IHf⟩ := IH
      rw [eraseRight_step (by simp)]
      by_cases hh : (eraseRight (Tree.node rl rk rb rr)).2.2 = true
      · rw [if_pos hh]
        have spec := @balanceEraseRight_spec l (eraseRight (Tree.node rl rk rb rr)).1 k b
          (height (Tree.node rl rk rb rr)) hBl IHb hbeq hbd1 hbd2 (IHt hh)
        refine ⟨spec.1, ?_, fun hh2 => ?_, fun hh2 => ?_⟩
        · show keys (Tree.node l k b (Tree.node rl rk rb rr)) =
            keys (balanceEraseRight _).1 ++ _
          rw [spec.2.1]
          rw [keys, IHk]
          simp
        · have := spec.2.2.1 hh2
          rw [show (height (Tree.node l k b (Tree.node rl rk rb rr))) =
            1 + max (height l) (height (Tree.node rl rk rb rr)) from rfl]
          exact this
        · have := spec.2.2.2 hh2
          rw [show (height (Tree.node l k b (Tree.node rl rk rb rr))) =
            1 + max (height l) (height (Tree.node rl rk rb rr)) from rfl]
          exact this
      · rw [if_neg hh]
        have hhf : (eraseRight (Tree.node rl rk rb rr)).2.2 = false := by
          simpa using hh
        have hht := IHf hhf
        refine ⟨⟨hBl, IHb, by rw [hht]; exact hbeq, by rw [hht]; exact hbd1,
          by rw [hht]; exact hbd2⟩, ?_, by simp [hhf], fun _ => ?_⟩
        · rw [keys, IHk, keys]
          simp
        · simp only [height, hht]

end avl

namespace avl

theorem lerase_left {L R : List Int} {k x : Int} (hbl : ∀ y ∈ L, y < k)
    (hbr : ∀ y ∈ R, k < y) (hx : x < k) :
    (L ++ k :: R).erase x = L.erase x ++ k :: R := by
  by_cases hm : x ∈ L
  · exact List.erase_append_left _ hm
  · rw [List.erase_of_not_mem hm, List.erase_append_right _ hm, List.erase_of_not_mem]
    intro hmem
    rcases List.mem_cons.mp hmem with rfl | hmem
    · exact absurd hx (lt_irrefl x)
    · exact absurd (lt_trans (hbr x hmem) hx) (lt_irrefl k)

theorem lerase_right {L R : List Int} {k x : Int} (hbl : ∀ y ∈ L, y < k)
    (hx : k < x) :
    (L ++ k :: R).erase x = L ++ k :: R.erase x := by
  have hm : x ∉ L := fun hmem => absurd (lt_trans (hbl x hmem) hx) (lt_irrefl x)
  rw [List.erase_append_right _ hm]
  congr 1
  rw [List.erase_cons_tail]
  simp only [beq_iff_eq]
  omega

theorem lerase_mid {L R : List Int} {k : Int} (hbl : ∀ y ∈ L, y < k) :
    (L ++ k :: R).erase k = L ++ R := by
  have hm : k ∉ L := fun hmem => absurd (hbl k hmem) (lt_irrefl k)
  rw [List.erase_append_right _ hm, List.erase_cons_head]

theorem erase_two_succ_spec {cfg : EraseCfg} {l r : Tree} {k b : Int} {f : List Int}
    (hln : l ≠ Tree.nil) (hrn : r ≠ Tree.nil)
    (hB : Balanced (Tree.node l k b r)) (hO : Ordered (Tree.node l k b r))
    (hcfg : cfg = .plain ∨ (cfg = .preferred ∧ ¬ b ≤ 0) ∨ (cfg = .invertPreferred ∧ ¬ b < 0)) :
    Balanced (erase cfg (Tree.node l k b r) k f).tree ∧
    keys (erase cfg (Tree.node l k b r) k f).tree = (keys (Tree.node l k b r)).erase k ∧
    (erase cfg (Tree.node l k b r) k f).r = true ∧
    (∃ m, (erase cfg (Tree.node l k b r) k f).freed = m :: f) ∧
    ((erase cfg (Tree.node l k b r) k f).h = true →
      height (erase cfg (Tree.node l k b r) k f).tree + 1 = height (Tree.node l k b r)) ∧
    ((erase cfg (Tree.node l k b r) k f).h = false →
      height (erase cfg (Tree.node l k b r) k f).tree = height (Tree.node l k b r)) := by
  obtain ⟨hBl, hBr, hbeq, hbd1, hbd2⟩ := hB
  obtain ⟨hOl, hOr, hobl, hobr⟩ := hO
  have EL := eraseLeft_spec r hrn hBr
  obtain ⟨ELb, ELk, ELt, ELf⟩ := EL
  have hkeq : (keys (Tree.node l k b r)).erase k =
      keys l ++ (eraseLeft r).2.1 :: keys (eraseLeft r).1 := by
    rw [keys, lerase_mid hobl, ELk]
  rw [erase_found_succ hln hrn hcfg]
  by_cases hh : (eraseLeft r).2.2 = true
  · rw [if_pos hh]
    have spec := @balanceEraseRight_spec l (eraseLeft r).1 ((eraseLeft r).2.1) b
      (height r) hBl ELb hbeq hbd1 hbd2 (ELt hh)
    refine ⟨spec.1, ?_, rfl, ⟨_, rfl⟩, fun hh2 => ?_, fun hh2 => ?_⟩
    · show keys (balanceEraseRight _).1 = _
      rw [spec.2.1, hkeq]
    · have := spec.2.2.1 hh2
      rw [show (height (Tree.node l k b r)) = 1 + max (height l) (height r) from rfl]
      exact this
    · have := spec.2.2.2 hh2
      rw [show (height (Tree.node l k b r)) = 1 + max (height l) (height r) from rfl]
      exact this
  · rw [if_neg hh]
    have hhf : (eraseLeft r).2.2 = false := by simpa using hh
    have hht := ELf hhf
    refine ⟨⟨hBl, ELb, by rw [hht]; exact hbeq, by rw [hht]; exact hbd1,
      by rw [hht]; exact hbd2⟩, ?_, rfl, ⟨_, rfl⟩, by simp [hhf], fun _ => ?_⟩
    · rw [keys, hkeq]
    · simp only [height, hht]

theorem erase_two_pred_spec {cfg : EraseCfg} {l r : Tree} {k b : Int} {f : List Int}
    (hln : l ≠ Tree.nil) (hrn : r ≠ Tree.nil)
    (hB : Balanced (Tree.node l k b r)) (hO : Ordered (Tree.node l k b r))
    (hcfg : (cfg = .preferred ∧ b ≤ 0) ∨ (cfg = .invertPreferred ∧ b < 0)) :
    Balanced (erase cfg (Tree.node l k b r) k f).tree ∧
    keys (erase cfg (Tree.node l k b r) k f).tree = (keys (Tree.node l k b r)).erase k ∧
    (erase cfg (Tree.node l k b r) k f).r = true ∧
    (∃ m, (erase cfg (Tree.node l k b r) k f).freed = m :: f) ∧
    ((erase cfg (Tree.node l k b r) k f).h = true →
      height (erase cfg (Tree.node l k b r) k f).tree + 1 = height (Tree.node l k b r)) ∧
    ((erase cfg (Tree.node l k b r) k f).h = false →
      height (erase cfg (Tree.node l k b r) k f).tree = height (Tree.node l k b r)) := by
  obtain ⟨hBl, hBr, hbeq, hbd1, hbd2⟩ := hB
  obtain ⟨hOl, hOr, hobl, hobr⟩ := hO
  have ER := eraseRight_spec l hln hBl
  obtain ⟨ERb, ERk, ERt, ERf⟩ := ER
  have hkeq : (keys (Tree.node l k b r)).erase k =
      keys (eraseRight l).1 ++ (eraseRight l).2.1 :: keys r := by
    rw [keys, lerase_mid hobl, ERk]
    simp
  rw [erase_found_pred hln hrn hcfg]
  by_cases hh : (eraseRight l).2.2 = true
  · rw [if_pos hh]
    have spec := @balanceEraseLeft_spec (eraseRight l).1 r ((eraseRight l).2.1) b
      (height l) ERb hBr hbeq hbd1 hbd2 (ERt hh)
    refine ⟨spec.1, ?_, rfl, ⟨_, rfl⟩, fun hh2 => ?_, fun hh2 => ?_⟩
    · show keys (balanceEraseLeft _).1 = _
      rw [spec.2.1, hkeq]
    · have := spec.2.2.1 hh2
      rw [show (height (Tree.node l k b r)) = 1 + max (height l) (height r) from rfl]
      exact this
    · have := spec.2.2.2 hh2
      rw [show (height (Tree.node l k b r)) = 1 + max (height l) (height r) from rfl]
      exact this
  · rw [if_neg hh]
    have hhf : (eraseRight l).2.2 = false := by simpa using hh
    have hht := ERf hhf
    refine ⟨⟨ERb, hBr, by rw [hht]; exact hbeq, by rw [hht]; exact hbd1,
      by rw [hht]; exact hbd2⟩, ?_, rfl, ⟨_, rfl⟩, by simp [hhf], fun _ => ?_⟩
    · rw [keys, hkeq]
    · simp only [height, hht]

end avl

namespace avl

theorem erase_spec : ∀ (cfg : EraseCfg) (t : Tree) (x : Int) (f : List Int),
    t ≠ Tree.nil → Balanced t → Ordered t →
    Balanced (erase cfg t x f).tree ∧
    keys (erase cfg t x f).tree = (keys t).erase x ∧
    ((erase cfg t x f).r = true ↔ x ∈ keys t) ∧
    ((erase cfg t x f).r = false → (erase cfg t x f).tree = t ∧
      (erase cfg t x f).h = false ∧ (erase cfg t x f).freed = f) ∧
    ((erase cfg t x f).r = true → ∃ m, (erase cfg t x f).freed = m :: f) ∧
    ((erase cfg t x f).h = true → height (erase cfg t x f).tree + 1 = height t) ∧
    ((erase cfg t x f).h = false → height (erase cfg t x f).tree = height t)
  | _, Tree.nil, _, _, hne, _, _ => absurd rfl hne
  | cfg, Tree.node l k b r, x, f, _, hB, hO => by
    have hB' := hB
    have hO' := hO
    obtain ⟨hBl, hBr, hbeq, hbd1, hbd2⟩ := hB
    obtain ⟨hOl, hOr, hobl, hobr⟩ := hO
    rcases lt_trichotomy x k with hx | rfl | hx
    · -- x < k : descend left
      have hmemiff : x ∈ keys (Tree.node l k b r) ↔ x ∈ keys l := mem_keys_lt hO' hx
      cases l with
      | nil =>
        have hnm : x ∉ keys (Tree.node Tree.nil k b r) := by
          rw [hmemiff]
          simp [keys]
        rw [erase_lt_nil hx]
        exact ⟨hB', by rw [List.erase_of_not_mem hnm], by simp [hnm],
          fun _ => ⟨rfl, rfl, rfl⟩, by simp, by simp, fun _ => rfl⟩
      | node ll lk lb lr =>
        have IH := erase_spec cfg (Tree.node ll lk lb lr) x f (by simp) hBl hOl
        obtain ⟨IHb, IHk, IHr, IHrf, IHfr, IHt, IHf⟩ := IH
        have hkeq : (keys (Tree.node (Tree.node ll lk lb lr) k b r)).erase x =
            (keys (Tree.node ll lk lb lr)).erase x ++ k :: keys r := by
          rw [keys]
          exact lerase_left hobl hobr hx
        rw [erase_lt hx (by simp)]
        by_cases hh : (erase cfg (Tree.node ll lk lb lr) x f).h = true
        · rw [if_pos hh]
          have spec := @balanceEraseLeft_spec (erase cfg (Tree.node ll lk lb lr) x f).tree
            r k b (height (Tree.node ll lk lb lr)) IHb hBr hbeq hbd1 hbd2 (IHt hh)
          have hr1 : (erase cfg (Tree.node ll lk lb lr) x f).r = true := by
            by_contra hc
            have := IHrf (by simpa using hc)
            exact absurd this.2.1 (by simp [hh])
          refine ⟨spec.1, ?_, ?_, ?_, fun _ => IHfr hr1, fun hh2 => ?_, fun hh2 => ?_⟩
          · show keys (balanceEraseLeft _).1 = _
            rw [spec.2.1, hkeq, IHk]
          · show (erase cfg (Tree.node ll lk lb lr) x f).r = true ↔ _
            rw [hmemiff]
            exact IHr
          · intro hc
            exact absurd hr1 (by simp [show (erase cfg (Tree.node ll lk lb lr) x f).r
              = false from hc])
          · have := spec.2.2.1 hh2
            rw [show (height (Tree.node (Tree.node ll lk lb lr) k b r)) =
              1 + max (height (Tree.node ll lk lb lr)) (height r) from rfl]
            exact this
          · have := spec.2.2.2 hh2
            rw [show (height (Tree.node (Tree.node ll lk lb lr) k b r)) =
              1 + max (height (Tree.node ll lk lb lr)) (height r) from rfl]
            exact this
        · rw [if_neg hh]
          have hhf : (erase cfg (Tree.node ll lk lb lr) x f).h = false := by simpa using hh
          have hht := IHf hhf
          refine ⟨⟨IHb, hBr, by rw [hht]; exact hbeq, by rw [hht]; exact hbd1,
            by rw [hht]; exact hbd2⟩, ?_, ?_, ?_, fun hr1 => IHfr hr1, by simp [hhf],
            fun _ => ?_⟩
          · show keys (Tree.node _ k b r) = _
            rw [keys, hkeq, IHk]
          · show (erase cfg (Tree.node ll lk lb lr) x f).r = true ↔ _
            rw [hmemiff]
            exact IHr
          · intro hc
            obtain ⟨ht, hhh, hfr⟩ := IHrf hc
            rw [show (Tree.node (erase cfg (Tree.node ll lk lb lr) x f).tree k b r) =
              Tree.node (Tree.node ll lk lb lr) k b r by rw [ht]]
            exact ⟨rfl, hhh, hfr⟩
          · simp only [height, hht]
    · -- x = k : remove this node
      have hmem : x ∈ keys (Tree.node l x b r) := by
        rw [keys]
        exact List.mem_append.mpr (Or.inr (List.mem_cons_self x _))
      cases r with
      | nil =>
        rw [erase_found_rnil]
        refine ⟨hBl, ?_, by simp [hmem], by simp, fun _ => ⟨x, rfl⟩, fun _ => ?_, by simp⟩
        · conv_rhs => rw [keys]
          rw [lerase_mid hobl]
          simp [keys]
        · simp only [height] at *
          omega
      | node rl rk rb rr =>
        cases l with
        | nil =>
          rw [erase_found_lnil (by simp)]
          refine ⟨hBr, ?_, by simp [hmem], by simp, fun _ => ⟨x, rfl⟩, fun _ => ?_, by simp⟩
          · conv_rhs => rw [keys]
            rw [lerase_mid hobl]
            simp [keys]
          · simp only [height] at *
            omega
        | node ll lk lb lr =>
          have spec : Balanced (erase cfg (Tree.node (Tree.node ll lk lb lr) x b
                (Tree.node rl rk rb rr)) x f).tree ∧
              keys (erase cfg (Tree.node (Tree.node ll lk lb lr) x b
                (Tree.node rl rk rb rr)) x f).tree =
                (keys (Tree.node (Tree.node ll lk lb lr) x b (Tree.node rl rk rb rr))).erase x ∧
              (erase cfg (Tree.node (Tree.node ll lk lb lr) x b
                (Tree.node rl rk rb rr)) x f).r = true ∧
              (∃ m, (erase cfg (Tree.node (Tree.node ll lk lb lr) x b
                (Tree.node rl rk rb rr)) x f).freed = m :: f) ∧
              ((erase cfg (Tree.node (Tree.node ll lk lb lr) x b
                  (Tree.node rl rk rb rr)) x f).h = true →
                height (erase cfg (Tree.node (Tree.node ll lk lb lr) x b
                  (Tree.node rl rk rb rr)) x f).tree + 1 =
                height (Tree.node (Tree.node ll lk lb lr) x b (Tree.node rl rk rb rr))) ∧
              ((erase cfg (Tree.node (Tree.node ll lk lb lr) x b
                  (Tree.node rl rk rb rr)) x f).h = false →
                height (erase cfg (Tree.node (Tree.node ll lk lb lr) x b
                  (Tree.node rl rk rb rr)) x f).tree =
                height (Tree.node (Tree.node ll lk lb lr) x b (Tree.node rl rk rb rr))) := by
            rcases cfg with _ | _ | _
            · exact erase_two_succ_spec (by simp) (by simp) hB' hO' (Or.inl rfl)
            · by_cases hbc : b ≤ 0
              · exact erase_two_pred_spec (by simp) (by simp) hB' hO' (Or.inl ⟨rfl, hbc⟩)
              · exact erase_two_succ_spec (by simp) (by simp) hB' hO'
                  (Or.inr (Or.inl ⟨rfl, hbc⟩))
            · by_cases hbc : b < 0
              · exact erase_two_pred_spec (by simp) (by simp) hB' hO' (Or.inr ⟨rfl, hbc⟩)
              · exact erase_two_succ_spec (by simp) (by simp) hB' hO'
                  (Or.inr (Or.inr ⟨rfl, hbc⟩))
          exact ⟨spec.1, spec.2.1, by simp [spec.2.2.1, hmem],
            fun hc => absurd spec.2.2.1 (by simp [hc]), fun _ => spec.2.2.2.1,
            spec.2.2.2.2.1, spec.2.2.2.2.2⟩
    · -- x > k : descend right
      have hmemiff : x ∈ keys (Tree.node l k b r) ↔ x ∈ keys r := mem_keys_gt hO' hx
      cases r with
      | nil =>
        have hnm : x ∉ keys (Tree.node l k b Tree.nil) := by
          rw [hmemiff]
          simp [keys]
        rw [erase_gt_nil hx]
        exact ⟨hB', by rw [List.erase_of_not_mem hnm], by simp [hnm],
          fun _ => ⟨rfl, rfl, rfl⟩, by simp, by simp, fun _ => rfl⟩
      | node rl rk rb rr =>
        have IH := erase_spec cfg (Tree.node rl rk rb rr) x f (by simp) hBr hOr
        obtain ⟨IHb, IHk, IHr, IHrf, IHfr, IHt, IHf⟩ := IH
        have hkeq : (keys (Tree.node l k b (Tree.node rl rk rb rr))).erase x =
            keys l ++ k :: (keys (Tree.node rl rk rb rr)).erase x := by
          rw [keys]
          exact lerase_right hobl hx
        rw [erase_gt hx (by simp)]
        by_cases hh : (erase cfg (Tree.node rl rk rb rr) x f).h = true
        · rw [if_pos hh]
          have spec := @balanceEraseRight_spec l (erase cfg (Tree.node rl rk rb rr) x f).tree
            k b (height (Tree.node rl rk rb rr)) hBl IHb hbeq hbd1 hbd2 (IHt hh)
          have hr1 : (erase cfg (Tree.node rl rk rb rr) x f).r = true := by
            by_contra hc
            have := IHrf (by simpa using hc)
            exact absurd this.2.1 (by simp [hh])
          refine ⟨spec.1, ?_, ?_, ?_, fun _ => IHfr hr1, fun hh2 => ?_, fun hh2 => ?_⟩
          · show keys (balanceEraseRight _).1 = _
            rw [spec.2.1, hkeq, IHk]
          · show (erase cfg (Tree.node rl rk rb rr) x f).r = true ↔ _
            rw [hmemiff]
            exact IHr
          · intro hc
            exact absurd hr1 (by simp [show (erase cfg (Tree.node rl rk rb rr) x f).r
              = false from hc])
          · have := spec.2.2.1 hh2
            rw [show (height (Tree.node l k b (Tree.node rl rk rb rr))) =
              1 + max (height l) (height (Tree.node rl rk rb rr)) from rfl]
            exact this
          · have := spec.2.2.2 hh2
            rw [show (height (Tree.node l k b (Tree.node rl rk rb rr))) =
              1 + max (height l) (height (Tree.node rl rk rb rr)) from rfl]
            exact this
        · rw [if_neg hh]
          have hhf : (erase cfg (Tree.node rl rk rb rr) x f).h = false := by simpa using hh
          have hht := IHf hhf
          refine ⟨⟨hBl, IHb, by rw [hht]; exact hbeq, by rw [hht]; exact hbd1,
            by rw [hht]; exact hbd2⟩, ?_, ?_, ?_, fun hr1 => IHfr hr1, by simp [hhf],
            fun _ => ?_⟩
          · show keys (Tree.node l k b _) = _
            rw [keys, hkeq, IHk]
          · show (erase cfg (Tree.node rl rk rb rr) x f).r = true ↔ _
            rw [hmemiff]
            exact IHr
          · intro hc
            obtain ⟨ht, hhh, hfr⟩ := IHrf hc
            rw [show (Tree.node l k b (erase cfg (Tree.node rl rk rb rr) x f).tree) =
              Tree.node l k b (Tree.node rl rk rb rr) by rw [ht]]
            exact ⟨rfl, hhh, hfr⟩
          · simp only [height, hht]

end avl

namespace avl

/-- Model of an unchecked write `v[i] = x` into a std::vector of length
`v.length`: the write lands only when the index is in bounds, and the
boolean records whether it was in bounds. -/
def vecWrite (v : List Int) (i : Nat) (x : Int) : List Int × Bool :=
  if i < v.length then (v.set i x, true) else (v, false)

/-- The recursive `getKeys(Node* p, std::vector<K>& v, size_t& i)` member
function of avlTree.h: in-order walk writing `v[i++] = p->key` with an
unchecked subscript. The boolean accumulates whether every write so far
was in bounds. -/
def getKeysN : Tree → List Int → Nat → Bool → List Int × Nat × Bool
  | Tree.node l k _ r, v, i, ok =>
    let a := match l with
      | Tree.node .. => getKeysN l v i ok
      | Tree.nil => (v, i, ok)
    let w := vecWrite a.1 a.2.1 k
    let a2 := (w.1, a.2.1 + 1, a.2.2 && w.2)
    match r with
    | Tree.node .. => getKeysN r a2.1 a2.2.1 a2.2.2
    | Tree.nil => a2
  | Tree.nil, v, i, ok => (v, i, ok)

/-- The public `getKeys(std::vector<K>& v)` member function. Returns the
vector contents and whether every write was in bounds. -/
def getKeysS (s : State) (v : List Int) : List Int × Bool :=
  match s.root with
  | Tree.node .. =>
    let a := getKeysN s.root v 0 true
    (a.1, a.2.2)
  | Tree.nil => (v, true)

/-- The representation invariant of an `avlTree` object: the root is an
AVL-balanced binary search tree and `count` equals the number of live
keys. -/
def Inv (s : State) : Prop :=
  Balanced s.root ∧ Ordered s.root ∧ s.count = (keys s.root).length

theorem balanced_balInRange : ∀ t : Tree, Balanced t → BalInRange t
  | Tree.nil, _ => trivial
  | Tree.node l _ b r, hB => by
    obtain ⟨hBl, hBr, hbeq, hbd1, hbd2⟩ := hB
    exact ⟨by omega, by omega, balanced_balInRange l hBl, balanced_balInRange r hBr⟩

theorem keys_eq_nil_iff : ∀ t : Tree, keys t = [] ↔ t = Tree.nil
  | Tree.nil => by simp [keys]
  | Tree.node l k b r => by simp [keys]

theorem insertS_spec (s : State) (x : Int) (hI : Inv s) :
    Inv (insertS s x).1 ∧
    ((insertS s x).2 = true ↔ x ∉ keys s.root) ∧
    keys (insertS s x).1.root = linsert x (keys s.root) ∧
    ((insertS s x).2 = false → (insertS s x).1 = s) ∧
    ((insertS s x).2 = true → (insertS s x).1.count = s.count + 1 ∧
      (insertS s x).1.freed = s.freed.tail) := by
  obtain ⟨hB, hO, hC⟩ := hI
  obtain ⟨rt, cnt, fr⟩ := s
  dsimp only at hB hO hC
  cases rt with
  | nil =>
    simp only [insertS, newNode_spec]
    refine ⟨⟨⟨trivial, trivial, by simp [height], by simp [height], by simp [height]⟩,
      ⟨trivial, trivial, by simp [keys], by simp [keys]⟩, ?_⟩, ?_, ?_, by simp, ?_⟩
    · simp only [keys] at hC ⊢
      simp at hC
      simp [hC]
    · simp [keys]
    · simp [keys, linsert]
    · intro
      simp only [keys] at hC
      simp at hC
      simp [hC]
  | node l0 k0 b0 r0 =>
    simp only [insertS]
    have hKeys := insertN_keys (Tree.node l0 k0 b0 r0) x fr hO (by simp)
    obtain ⟨IHk, IHa, IHf, IHfr⟩ := hKeys
    have hBal := insertN_bal (Tree.node l0 k0 b0 r0) x fr hB (by simp)
    refine ⟨⟨hBal.1, ?_, ?_⟩, IHa, IHk, ?_, ?_⟩
    · rw [(ordered_iff _)]
      rw [IHk]
      exact pairwise_linsert x _ ((ordered_iff _).mp hO)
    · by_cases ha : (insertN (Tree.node l0 k0 b0 r0) x fr).a = true
      · simp only [ha, if_true]
        rw [IHk]
        have hnm := IHa.mp ha
        rw [length_linsert_of_not_mem x _ hnm, hC]
      · have haf : (insertN (Tree.node l0 k0 b0 r0) x fr).a = false := by simpa using ha
        simp only [haf, Bool.false_eq_true, if_false]
        rw [(IHf haf).1, hC]
    · intro ha
      obtain ⟨ht, -⟩ := IHf ha
      have hfr : (insertN (Tree.node l0 k0 b0 r0) x fr).freed = fr := by
        rw [IHfr, ha]
        simp
      simp only [ha, Bool.false_eq_true, if_false]
      rw [ht, hfr]
    · intro ha
      refine ⟨?_, ?_⟩
      · simp [ha]
      · rw [IHfr, ha]
        simp

theorem eraseS_spec (cfg : EraseCfg) (s : State) (x : Int) (hI : Inv s) :
    Inv (eraseS cfg s x).1 ∧
    ((eraseS cfg s x).2 = true ↔ x ∈ keys s.root) ∧
    keys (eraseS cfg s x).1.root = (keys s.root).erase x ∧
    ((eraseS cfg s x).2 = false → (eraseS cfg s x).1 = s) ∧
    ((eraseS cfg s x).2 = true → (eraseS cfg s x).1.count + 1 = s.count ∧
      ∃ m, (eraseS cfg s x).1.freed = m :: s.freed) := by
  obtain ⟨hB, hO, hC⟩ := hI
  obtain ⟨rt, cnt, fr⟩ := s
  dsimp only at hB hO hC
  cases rt with
  | nil =>
    refine ⟨⟨hB, hO, hC⟩, ?_, ?_, fun _ => rfl, ?_⟩
    · show (false = true ↔ x ∈ keys Tree.nil)
      simp [keys]
    · show keys Tree.nil = (keys Tree.nil).erase x
      simp [keys]
    · show false = true → _
      simp
  | node l0 k0 b0 r0 =>
    simp only [eraseS]
    have spec := erase_spec cfg (Tree.node l0 k0 b0 r0) x fr (by simp) hB hO
    obtain ⟨Sb, Sk, Sr, Srf, Sfr, -, -⟩ := spec
    refine ⟨⟨Sb, ?_, ?_⟩, Sr, Sk, ?_, ?_⟩
    · rw [ordered_iff, Sk]
      exact List.Pairwise.sublist (List.erase_sublist x _) ((ordered_iff _).mp hO)
    · by_cases hr : (erase cfg (Tree.node l0 k0 b0 r0) x fr).r = true
      · simp only [hr, if_true]
        rw [Sk, List.length_erase_of_mem (Sr.mp hr), hC]
      · have hrf : (erase cfg (Tree.node l0 k0 b0 r0) x fr).r = false := by simpa using hr
        simp only [hrf, Bool.false_eq_true, if_false]
        rw [(Srf hrf).1, hC]
    · intro hr
      obtain ⟨ht, -, hfr⟩ := Srf hr
      simp only [hr, Bool.false_eq_true, if_false]
      rw [ht, hfr]
    · intro hr
      simp only [hr, if_true]
      refine ⟨?_, Sfr hr⟩
      have hlen : (keys (Tree.node l0 k0 b0 r0)).length ≠ 0 := by
        simp [keys]
      omega

theorem inv_empty : Inv emptyState := ⟨trivial, trivial, rfl⟩

theorem inv_applyOp (cfg : EraseCfg) (s : State) (op : Op) (hI : Inv s) :
    Inv (applyOp cfg s op) := by
  cases op with
  | ins x => exact (insertS_spec s x hI).1
  | del x => exact (eraseS_spec cfg s x hI).1

theorem inv_run (cfg : EraseCfg) (ops : List Op) : Inv (run cfg ops) := by
  suffices h : ∀ (s : State), Inv s → Inv (ops.foldl (applyOp cfg) s) by
    exact h emptyState inv_empty
  induction ops with
  | nil => exact fun s hs => hs
  | cons op rest ih =>
    intro s hs
    exact ih _ (inv_applyOp cfg s op hs)

end avl

namespace avl

theorem decide_absorb {m j n : Nat} (h : m ≤ j) :
    (decide (m ≤ n) && decide (j ≤ n)) = decide (j ≤ n) := by
  by_cases h2 : j ≤ n <;> by_cases h1 : m ≤ n <;> simp [h1, h2] <;> omega

theorem getKeysN_leaf (k b : Int) (v : List Int) (i : Nat) (ok : Bool) :
    getKeysN (Tree.node Tree.nil k b Tree.nil) v i ok =
      ((vecWrite v i k).1, i + 1, ok && (vecWrite v i k).2) := by
  rw [getKeysN.eq_def]

theorem getKeysN_nilL (k b rk rb : Int) (rl rr : Tree) (v : List Int) (i : Nat) (ok : Bool) :
    getKeysN (Tree.node Tree.nil k b (Tree.node rl rk rb rr)) v i ok =
      getKeysN (Tree.node rl rk rb rr) (vecWrite v i k).1 (i + 1)
        (ok && (vecWrite v i k).2) := by
  rw [getKeysN.eq_def]

theorem getKeysN_nilR (k b lk lb : Int) (ll lr : Tree) (v : List Int) (i : Nat) (ok : Bool) :
    getKeysN (Tree.node (Tree.node ll lk lb lr) k b Tree.nil) v i ok =
      ((vecWrite (getKeysN (Tree.node ll lk lb lr) v i ok).1
          (getKeysN (Tree.node ll lk lb lr) v i ok).2.1 k).1,
        (getKeysN (Tree.node ll lk lb lr) v i ok).2.1 + 1,
        (getKeysN (Tree.node ll lk lb lr) v i ok).2.2 &&
          (vecWrite (getKeysN (Tree.node ll lk lb lr) v i ok).1
            (getKeysN (Tree.node ll lk lb lr) v i ok).2.1 k).2) := by
  rw [getKeysN.eq_def]

theorem getKeysN_two (k b lk lb rk rb : Int) (ll lr rl rr : Tree)
    (v : List Int) (i : Nat) (ok : Bool) :
    getKeysN (Tree.node (Tree.node ll lk lb lr) k b (Tree.node rl rk rb rr)) v i ok =
      getKeysN (Tree.node rl rk rb rr)
        (vecWrite (getKeysN (Tree.node ll lk lb lr) v i ok).1
          (getKeysN (Tree.node ll lk lb lr) v i ok).2.1 k).1
        ((getKeysN (Tree.node ll lk lb lr) v i ok).2.1 + 1)
        ((getKeysN (Tree.node ll lk lb lr) v i ok).2.2 &&
          (vecWrite (getKeysN (Tree.node ll lk lb lr) v i ok).1
            (getKeysN (Tree.node ll lk lb lr) v i ok).2.1 k).2) := by
  rw [getKeysN.eq_def]

end avl

namespace avl

theorem vecWrite_length (v : List Int) (j : Nat) (k : Int) :
    (vecWrite v j k).1.length = v.length := by
  unfold vecWrite
  split <;> simp

theorem vecWrite_flag (v : List Int) (j : Nat) (k : Int) :
    (vecWrite v j k).2 = decide (j + 1 ≤ v.length) := by
  unfold vecWrite
  by_cases h : j < v.length
  · rw [if_pos h, eq_comm, decide_eq_true_iff]
    omega
  · rw [if_neg h, eq_comm, decide_eq_false_iff_not]
    omega

theorem set_at_join (P D : List Int) (x0 k : Int) :
    (P ++ x0 :: D).set P.length k = P ++ k :: D := by
  rw [List.set_append_right _ _ (le_refl P.length)]
  simp

theorem vecWrite_split (v : List Int) (j : Nat) (k : Int) (h : j < v.length) :
    (vecWrite v j k).1 = v.take j ++ k :: v.drop (j + 1) := by
  unfold vecWrite
  rw [if_pos h]
  have hv : v = v.take j ++ v[j] :: v.drop (j + 1) := by
    conv_lhs => rw [← List.take_append_drop j v]
    rw [List.drop_eq_getElem_cons h]
  calc v.set j k = (v.take j ++ v[j] :: v.drop (j + 1)).set j k := by rw [← hv]
    _ = v.take j ++ k :: v.drop (j + 1) := by
        have h2 := set_at_join (v.take j) (v.drop (j + 1)) v[j] k
        rwa [List.length_take_of_le (by omega)] at h2

theorem take_pref (P S : List Int) (n : Nat) (hP : P.length = n) :
    (P ++ S).take n = P :=
  List.take_left' hP

theorem drop_pref (P S : List Int) (n m : Nat) (hP : P.length = n) :
    (P ++ S).drop (n + m) = S.drop m := by
  rw [← List.drop_drop, List.drop_left' hP]

end avl

namespace avl

theorem getKeysN_spec : ∀ (t : Tree), t ≠ Tree.nil → ∀ (v : List Int) (i : Nat) (ok : Bool),
    (getKeysN t v i ok).2.1 = i + (keys t).length ∧
    (getKeysN t v i ok).1.length = v.length ∧
    (getKeysN t v i ok).2.2 = (ok && decide (i + (keys t).length ≤ v.length)) ∧
    (i + (keys t).length ≤ v.length →
      (getKeysN t v i ok).1 = v.take i ++ keys t ++ v.drop (i + (keys t).length))
  | Tree.nil, hne, _, _, _ => absurd rfl hne
  | Tree.node l k b r, _, v, i, ok => by
    rcases l with _ | ⟨ll, lk, lb, lr⟩ <;> rcases r with _ | ⟨rl, rk, rb, rr⟩
    · -- leaf: single write at index i
      rw [getKeysN_leaf]
      have hkl : (keys (Tree.node Tree.nil k b Tree.nil)).length = 1 := by simp [keys]
      rw [hkl]
      refine ⟨rfl, vecWrite_length v i k, ?_, ?_⟩
      · dsimp only
        rw [vecWrite_flag]
      · intro hbound
        dsimp only
        rw [vecWrite_split v i k (by omega)]
        simp [keys]
    · -- nil left, non-nil right
      rw [getKeysN_nilL]
      obtain ⟨R1, R2, R3, R4⟩ := getKeysN_spec (Tree.node rl rk rb rr) (by simp)
        (vecWrite v i k).1 (i + 1) (ok && (vecWrite v i k).2)
      rw [vecWrite_length] at R2 R3 R4
      have hkl : (keys (Tree.node Tree.nil k b (Tree.node rl rk rb rr))).length =
          (keys (Tree.node rl rk rb rr)).length + 1 := by simp [keys]
      rw [hkl]
      refine ⟨?_, R2, ?_, ?_⟩
      · rw [R1]
        omega
      · rw [R3, vecWrite_flag, Bool.and_assoc,
          decide_absorb (show i + 1 ≤ i + 1 + (keys (Tree.node rl rk rb rr)).length by omega)]
        congr 1
        rw [decide_eq_decide]
        omega
      · intro hbound
        have hP : (v.take i ++ [k]).length = i + 1 := by
          simp [List.length_take_of_le (show i ≤ v.length by omega)]
        have hvw : (vecWrite v i k).1 = (v.take i ++ [k]) ++ v.drop (i + 1) := by
          rw [vecWrite_split v i k (by omega)]
          simp
        rw [R4 (by omega), hvw, take_pref _ _ _ hP, drop_pref _ _ _ _ hP, List.drop_drop]
        rw [show i + ((keys (Tree.node rl rk rb rr)).length + 1) =
          i + 1 + (keys (Tree.node rl rk rb rr)).length by omega]
        simp [keys]
    · -- non-nil left, nil right
      rw [getKeysN_nilR]
      obtain ⟨L1, L2, L3, L4⟩ := getKeysN_spec (Tree.node ll lk lb lr) (by simp) v i ok
      set A := getKeysN (Tree.node ll lk lb lr) v i ok with hA
      have hkl : (keys (Tree.node (Tree.node ll lk lb lr) k b Tree.nil)).length =
          (keys (Tree.node ll lk lb lr)).length + 1 := by
        simp [keys]
        omega
      rw [hkl]
      refine ⟨?_, ?_, ?_, ?_⟩
      · dsimp only
        rw [L1]
        omega
      · dsimp only
        rw [vecWrite_length, L2]
      · dsimp only
        rw [vecWrite_flag, L2, L3, L1, Bool.and_assoc,
          decide_absorb (show i + (keys (Tree.node ll lk lb lr)).length ≤
            i + (keys (Tree.node ll lk lb lr)).length + 1 by omega)]
        congr 1
      · intro hbound
        dsimp only
        have hcont := L4 (by omega)
        have hP : (v.take i ++ keys (Tree.node ll lk lb lr)).length =
            i + (keys (Tree.node ll lk lb lr)).length := by
          simp [List.length_take_of_le (show i ≤ v.length by omega)]
        rw [L1, vecWrite_split A.1 (i + (keys (Tree.node ll lk lb lr)).length) k
          (by rw [L2]; omega)]
        rw [hcont, take_pref _ _ _ hP, drop_pref _ _ _ _ hP, List.drop_drop]
        rw [show i + ((keys (Tree.node ll lk lb lr)).length + 1) =
          i + (keys (Tree.node ll lk lb lr)).length + 1 by omega]
        simp [keys]
    · -- two non-nil children
      rw [getKeysN_two]
      obtain ⟨L1, L2, L3, L4⟩ := getKeysN_spec (Tree.node ll lk lb lr) (by simp) v i ok
      set A := getKeysN (Tree.node ll lk lb lr) v i ok with hA
      obtain ⟨R1, R2, R3, R4⟩ := getKeysN_spec (Tree.node rl rk rb rr) (by simp)
        (vecWrite A.1 A.2.1 k).1 (A.2.1 + 1) (A.2.2 && (vecWrite A.1 A.2.1 k).2)
      have hWlen : (vecWrite A.1 A.2.1 k).1.length = v.length := by
        rw [vecWrite_length, L2]
      rw [hWlen] at R2 R3 R4
      have hkl : (keys (Tree.node (Tree.node ll lk lb lr) k b (Tree.node rl rk rb rr))).length =
          (keys (Tree.node ll lk lb lr)).length + 1 +
          (keys (Tree.node rl rk rb rr)).length := by
        simp [keys]
        omega
      rw [hkl]
      refine ⟨?_, R2, ?_, ?_⟩
      · rw [R1, L1]
        omega
      · rw [R3, vecWrite_flag, L2, L3, L1, Bool.and_assoc, Bool.and_assoc,
          decide_absorb (show i + (keys (Tree.node ll lk lb lr)).length + 1 ≤
            i + (keys (Tree.node ll lk lb lr)).length + 1 +
            (keys (Tree.node rl rk rb rr)).length by omega),
          decide_absorb (show i + (keys (Tree.node ll lk lb lr)).length ≤
            i + (keys (Tree.node ll lk lb lr)).length + 1 +
            (keys (Tree.node rl rk rb rr)).length by omega)]
        congr 1
        rw [decide_eq_decide]
        omega
      · intro hbound
        have hcont := L4 (by omega)
        have hP : (v.take i ++ keys (Tree.node ll lk lb lr)).length =
            i + (keys (Tree.node ll lk lb lr)).length := by
          simp [List.length_take_of_le (show i ≤ v.length by omega)]
        have hvw : (vecWrite A.1 A.2.1 k).1 =
            (v.take i ++ keys (Tree.node ll lk lb lr) ++ [k]) ++
            v.drop (i + (keys (Tree.node ll lk lb lr)).length + 1) := by
          rw [L1, vecWrite_split A.1 (i + (keys (Tree.node ll lk lb lr)).length) k
            (by rw [L2]; omega)]
          rw [hcont, take_pref _ _ _ hP, drop_pref _ _ _ _ hP, List.drop_drop]
          simp
        have hP2 : (v.take i ++ keys (Tree.node ll lk lb lr) ++ [k]).length =
            i + (keys (Tree.node ll lk lb lr)).length + 1 := by
          simp [List.length_take_of_le (show i ≤ v.length by omega)]
          omega
        rw [R4 (by rw [L1]; omega), hvw, L1, take_pref _ _ _ hP2,
          drop_pref _ _ _ _ hP2, List.drop_drop]
        rw [show i + ((keys (Tree.node ll lk lb lr)).length + 1 +
            (keys (Tree.node rl rk rb rr)).length) =
          i + (keys (Tree.node ll lk lb lr)).length + 1 +
            (keys (Tree.node rl rk rb rr)).length by omega]
        simp [keys]

end avl

namespace avl

theorem bIL_rotation_flag {l : Tree} (r : Tree) (k : Int) (hB : Balanced l)
    (hnz : balRoot l ≠ 0) (hne : l ≠ Tree.nil) :
    (balanceInsertLeft (Tree.node l k (-1) r)).2 = false := by
  cases l with
  | nil => exact absurd rfl hne
  | node ll lk lb lr =>
    obtain ⟨hBll, hBlr, hbeq, hd1, hd2⟩ := hB
    simp only [balRoot] at hnz
    by_cases hlb : lb = -1
    · subst hlb
      rw [bIL_ll]
    · have hlb1 : lb = 1 := by omega
      cases lr with
      | nil =>
        exfalso
        simp only [height] at hbeq
        omega
      | node lrl lrk lrb lrr =>
        rw [bIL_lr _ _ _ _ _ _ _ _ _ hlb]

theorem bIR_rotation_flag (l : Tree) {r : Tree} (k : Int) (hB : Balanced r)
    (hnz : balRoot r ≠ 0) (hne : r ≠ Tree.nil) :
    (balanceInsertRight (Tree.node l k 1 r)).2 = false := by
  cases r with
  | nil => exact absurd rfl hne
  | node rl rk rb rr =>
    obtain ⟨hBrl, hBrr, hbeq, hd1, hd2⟩ := hB
    simp only [balRoot] at hnz
    by_cases hrb : rb = 1
    · subst hrb
      rw [bIR_rr]
    · have hrb1 : rb = -1 := by omega
      cases rl with
      | nil =>
        exfalso
        simp only [height] at hbeq
        omega
      | node rll rlk rlb rlr =>
        rw [bIR_rl _ _ _ _ _ _ _ _ _ hrb]

theorem getKeysS_pre (s : State) (v : List Int) (hI : Inv s) (hlen : sizeS s ≤ v.length) :
    (getKeysS s v).1 = keys s.root ++ v.drop (sizeS s) ∧ (getKeysS s v).2 = true := by
  obtain ⟨hB, hO, hC⟩ := hI
  obtain ⟨rt, cnt, fr⟩ := s
  dsimp only [sizeS] at hlen hC ⊢
  cases rt with
  | nil =>
    have hc0 : cnt = 0 := by simpa [keys] using hC
    subst hc0
    simp [getKeysS, keys]
  | node l k b r =>
    obtain ⟨S1, S2, S3, S4⟩ := getKeysN_spec (Tree.node l k b r) (by simp) v 0 true
    constructor
    · show (getKeysN (Tree.node l k b r) v 0 true).1 = _
      rw [S4 (by omega), hC]
      simp
    · show (getKeysN (Tree.node l k b r) v 0 true).2.2 = true
      rw [S3, Bool.true_and, decide_eq_true_iff]
      omega

theorem getKeysS_flag (s : State) (v : List Int) (hI : Inv s) (hne : s.root ≠ Tree.nil) :
    (getKeysS s v).2 = decide (sizeS s ≤ v.length) := by
  obtain ⟨hB, hO, hC⟩ := hI
  obtain ⟨rt, cnt, fr⟩ := s
  dsimp only [sizeS] at hC ⊢
  cases rt with
  | nil => exact absurd rfl hne
  | node l k b r =>
    obtain ⟨S1, S2, S3, S4⟩ := getKeysN_spec (Tree.node l k b r) (by simp) v 0 true
    show (getKeysN (Tree.node l k b r) v 0 true).2.2 = _
    rw [S3, Bool.true_and, hC]
    congr 1
    simp

/-- The live key set as the spec describes it: the keys inserted and not
subsequently erased, maintained as a sorted duplicate-free list. -/
def liveStep (L : List Int) : Op → List Int
  | .ins x => linsert x L
  | .del x => L.erase x

/-- The live keys after a sequence of mutating calls on a fresh container. -/
def liveKeys (ops : List Op) : List Int := ops.foldl liveStep []

theorem keys_foldl_live (cfg : EraseCfg) :
    ∀ (ops : List Op) (s : State), Inv s →
      keys (ops.foldl (applyOp cfg) s).root = ops.foldl liveStep (keys s.root)
  | [], _, _ => rfl
  | op :: rest, s, hI => by
    rw [List.foldl_cons, List.foldl_cons]
    have hk : keys (applyOp cfg s op).root = liveStep (keys s.root) op := by
      cases op with
      | ins x => exact (insertS_spec s x hI).2.2.1
      | del x => exact (eraseS_spec cfg s x hI).2.2.1
    rw [keys_foldl_live cfg rest (applyOp cfg s op) (inv_applyOp cfg s op hI), hk]

theorem keys_run_live (cfg : EraseCfg) (ops : List Op) :
    keys (run cfg ops).root = liveKeys ops := by
  have h := keys_foldl_live cfg ops emptyState inv_empty
  simpa [run, liveKeys, emptyState, keys] using h

theorem pairwise_lt_nodup (L : List Int) (h : L.Pairwise (· < ·)) : L.Nodup :=
  h.imp (fun hlt => ne_of_lt hlt)

theorem foldl_erase_eq_nil : ∀ (es L : List Int), L.Nodup → es.Nodup →
    (∀ x : Int, x ∈ L ↔ x ∈ es) → es.foldl List.erase L = []
  | [], L, _, _, hmem => by
    have hL : L = [] :=
      List.eq_nil_iff_forall_not_mem.mpr (fun x hx => (List.not_mem_nil x) ((hmem x).mp hx))
    simp [hL]
  | e :: es', L, hLnd, hend, hmem => by
    rw [List.foldl_cons]
    have hene : e ∉ es' := (List.nodup_cons.mp hend).1
    apply foldl_erase_eq_nil es' (L.erase e) (hLnd.erase e) (List.nodup_cons.mp hend).2
    intro x
    rw [hLnd.mem_erase_iff, hmem x]
    simp only [List.mem_cons]
    constructor
    · rintro ⟨hne, (rfl | h)⟩
      · exact absurd rfl hne
      · exact h
    · intro h
      exact ⟨fun he => hene (he ▸ h), Or.inr h⟩

theorem foldl_live_ins : ∀ (ks L : List Int),
    (ks.map Op.ins).foldl liveStep L = ks.foldl (fun M x => linsert x M) L
  | [], _ => rfl
  | k :: ks, L => by
    rw [List.map_cons, List.foldl_cons, List.foldl_cons]
    exact foldl_live_ins ks (linsert k L)

theorem foldl_live_del : ∀ (es L : List Int),
    (es.map Op.del).foldl liveStep L = es.foldl List.erase L
  | [], _ => rfl
  | e :: es, L => by
    rw [List.map_cons, List.foldl_cons, List.foldl_cons]
    exact foldl_live_del es (L.erase e)

theorem mem_foldl_linsert : ∀ (ks L : List Int) (x : Int),
    x ∈ ks.foldl (fun M y => linsert y M) L ↔ x ∈ ks ∨ x ∈ L
  | [], L, x => by simp
  | k :: ks, L, x => by
    rw [List.foldl_cons, mem_foldl_linsert ks (linsert k L) x, mem_linsert]
    simp only [List.mem_cons]
    tauto

theorem pairwise_foldl_linsert : ∀ (ks L : List Int), L.Pairwise (· < ·) →
    (ks.foldl (fun M y => linsert y M) L).Pairwise (· < ·)
  | [], _, h => h
  | k :: ks, L, h => pairwise_foldl_linsert ks _ (pairwise_linsert k L h)

end avl

namespace avl

/-- C3: for every set of unique keys, every insertion order `ks` and every
erasure order `es` (a permutation of `ks`), inserting all keys into an empty
avlTree and then erasing all of them drains the container: `size()` returns 0
and `empty()` returns true, under any replacement-selection variant. -/
theorem c3_insert_all_erase_all_drains (cfg : EraseCfg) (ks es : List Int)
    (hnd : ks.Nodup) (hperm : es.Perm ks) :
    sizeS (run cfg (ks.map Op.ins ++ es.map Op.del)) = 0 ∧
    emptyQ (run cfg (ks.map Op.ins ++ es.map Op.del)) = true := by
  have hkeys : keys (run cfg (ks.map Op.ins ++ es.map Op.del)).root = [] := by
    rw [keys_run_live]
    unfold liveKeys
    rw [List.foldl_append, foldl_live_ins, foldl_live_del]
    apply foldl_erase_eq_nil
    · exact pairwise_lt_nodup _ (pairwise_foldl_linsert ks [] (by simp))
    · exact hperm.nodup_iff.mpr hnd
    · intro x
      rw [mem_foldl_linsert]
      simpa using (hperm.mem_iff).symm
  obtain ⟨hB, hO, hC⟩ := inv_run cfg (ks.map Op.ins ++ es.map Op.del)
  constructor
  · show (run cfg (ks.map Op.ins ++ es.map Op.del)).count = 0
    rw [hC, hkeys]
    rfl
  · show ((run cfg (ks.map Op.ins ++ es.map Op.del)).count == 0) = true
    rw [hC, hkeys]
    rfl

theorem c3_drain_witness :
    sizeS (run EraseCfg.plain ([1, 2].map Op.ins ++ [2, 1].map Op.del)) = 0 ∧
    emptyQ (run EraseCfg.plain ([1, 2].map Op.ins ++ [2, 1].map Op.del)) = true :=
  c3_insert_all_erase_all_drains EraseCfg.plain [1, 2] [2, 1] (by decide) (by decide)

/-- C5 (amended): with ENABLE_PREFERRED_TEST, at a node holding the sought key
with two non-empty subtrees the replacement comes from the taller subtree, but
a tie (balance factor 0) selects the PREDECESSOR — the rightmost node of the
LEFT subtree — not the successor: the code tests `bal <= 0`. When the balance
factor is +1 the replacement is the leftmost node of the right subtree. The
spliced replacement key is the one prepended to the freed list. -/
theorem c5_preferred_replacement (l r : Tree) (k b : Int) (f : List Int)
    (hln : l ≠ Tree.nil) (hrn : r ≠ Tree.nil) (hB : Balanced (Tree.node l k b r)) :
    (b ≤ 0 →
      (erase EraseCfg.preferred (Tree.node l k b r) k f).freed = (eraseRight l).2.1 :: f ∧
      keys l = keys (eraseRight l).1 ++ [(eraseRight l).2.1]) ∧
    (0 < b →
      (erase EraseCfg.preferred (Tree.node l k b r) k f).freed = (eraseLeft r).2.1 :: f ∧
      keys r = (eraseLeft r).2.1 :: keys (eraseLeft r).1) := by
  obtain ⟨hBl, hBr, hbeq, hbd1, hbd2⟩ := hB
  constructor
  · intro hb
    have he := @erase_found_pred EraseCfg.preferred l r k b f hln hrn (Or.inl ⟨rfl, hb⟩)
    refine ⟨?_, (eraseRight_spec l hln hBl).2.1⟩
    rw [he]
    split <;> rfl
  · intro hb
    have he := @erase_found_succ EraseCfg.preferred l r k b f hln hrn
      (Or.inr (Or.inl ⟨rfl, by omega⟩))
    refine ⟨?_, (eraseLeft_spec r hrn hBr).2.1⟩
    rw [he]
    split <;> rfl

theorem c5_preferred_witness :
    (erase EraseCfg.preferred
        (Tree.node (Tree.node Tree.nil 1 0 Tree.nil) 2 0 (Tree.node Tree.nil 3 0 Tree.nil))
        2 []).freed = (eraseRight (Tree.node Tree.nil 1 0 Tree.nil)).2.1 :: [] ∧
    keys (Tree.node Tree.nil 1 0 Tree.nil) =
      keys (eraseRight (Tree.node Tree.nil 1 0 Tree.nil)).1 ++
        [(eraseRight (Tree.node Tree.nil 1 0 Tree.nil)).2.1] :=
  (c5_preferred_replacement (Tree.node Tree.nil 1 0 Tree.nil)
    (Tree.node Tree.nil 3 0 Tree.nil) 2 0 [] (by decide) (by decide) (by decide)).1
    (by decide)

/-- C5 counterexample: the claim says a tie (balance factor 0) selects the
in-order successor (leftmost of the RIGHT subtree). Erasing key 2 from the
balanced tree (1) 2 (3) with ENABLE_PREFERRED_TEST splices the predecessor 1,
not the successor 3: the freed list receives 1 and the new root key is 1. -/
theorem c5_tie_goes_to_predecessor :
    (erase EraseCfg.preferred
        (Tree.node (Tree.node Tree.nil 1 0 Tree.nil) 2 0 (Tree.node Tree.nil 3 0 Tree.nil))
        2 []).freed = [1] ∧
    (erase EraseCfg.preferred
        (Tree.node (Tree.node Tree.nil 1 0 Tree.nil) 2 0 (Tree.node Tree.nil 3 0 Tree.nil))
        2 []).freed ≠ [3] ∧
    (erase EraseCfg.preferred
        (Tree.node (Tree.node Tree.nil 1 0 Tree.nil) 2 0 (Tree.node Tree.nil 3 0 Tree.nil))
        2 []).tree = Tree.node Tree.nil 1 1 (Tree.node Tree.nil 3 0 Tree.nil) := by
  refine ⟨rfl, ?_, rfl⟩
  decide

/-- C7: whenever AVL insertion's rebalancing performs a rotation (the
balance factor of the node reached -1 after its left subtree grew, or +1
after its right subtree grew), the rotation clears the height-changed flag,
the rotated subtree's height equals the height the subtree had before the
insertion (1 + max of the old child heights), and the result is balanced;
and whenever the flag is clear, the parent node is rebuilt with its balance
factor untouched and the clear flag propagates, so no ancestor above the
rotation point is modified. -/
theorem c7_rotation_restores_and_halts :
    (∀ (l r : Tree) (k : Int) (hl : Nat), Balanced l → Balanced r →
      (-1 : Int) = (height r : Int) - (hl : Int) → hl ≤ height r + 1 →
      height r ≤ hl + 1 → height l = hl + 1 → balRoot l ≠ 0 →
      (balanceInsertLeft (Tree.node l k (-1) r)).2 = false ∧
      height (balanceInsertLeft (Tree.node l k (-1) r)).1 = 1 + max hl (height r) ∧
      Balanced (balanceInsertLeft (Tree.node l k (-1) r)).1) ∧
    (∀ (l r : Tree) (k : Int) (hr : Nat), Balanced l → Balanced r →
      (1 : Int) = (hr : Int) - (height l : Int) → height l ≤ hr + 1 →
      hr ≤ height l + 1 → height r = hr + 1 → balRoot r ≠ 0 →
      (balanceInsertRight (Tree.node l k 1 r)).2 = false ∧
      height (balanceInsertRight (Tree.node l k 1 r)).1 = 1 + max (height l) hr ∧
      Balanced (balanceInsertRight (Tree.node l k 1 r)).1) ∧
    (∀ (l r : Tree) (k b x : Int) (f : List Int), x < k → l ≠ Tree.nil →
      (insertN l x f).h = false →
      insertN (Tree.node l k b r) x f =
        ⟨Tree.node (insertN l x f).tree k b r, false,
         (insertN l x f).a, (insertN l x f).freed⟩) ∧
    (∀ (l r : Tree) (k b x : Int) (f : List Int), x > k → r ≠ Tree.nil →
      (insertN r x f).h = false →
      insertN (Tree.node l k b r) x f =
        ⟨Tree.node l k b (insertN r x f).tree, false,
         (insertN r x f).a, (insertN r x f).freed⟩) := by
  refine ⟨?_, ?_, ?_, ?_⟩
  · intro l r k hl bl br hb h1 h2 hg hnz
    have hlnn : l ≠ Tree.nil := by
      intro he
      rw [he] at hg
      simp [height] at hg
    have hflag := bIL_rotation_flag r k bl hnz hlnn
    have hspec := @balanceInsertLeft_spec l r k (-1) hl bl br hb h1 h2 hg (fun _ => hnz)
    exact ⟨hflag, hspec.2.2.2 hflag, hspec.1⟩
  · intro l r k hr bl br hb h1 h2 hg hnz
    have hrnn : r ≠ Tree.nil := by
      intro he
      rw [he] at hg
      simp [height] at hg
    have hflag := bIR_rotation_flag l k br hnz hrnn
    have hspec := @balanceInsertRight_spec l r k 1 hr bl br hb h1 h2 hg (fun _ => hnz)
    exact ⟨hflag, hspec.2.2.2 hflag, hspec.1⟩
  · intro l r k b x f hx hln hh
    exact insertN_lt_same hx hln hh
  · intro l r k b x f hx hrn hh
    exact insertN_gt_same hx hrn hh

theorem c7_witness :
    ((balanceInsertLeft (Tree.node
        (Tree.node (Tree.node Tree.nil 1 0 Tree.nil) 2 (-1) Tree.nil) 3 (-1)
        Tree.nil)).2 = false ∧
      height (balanceInsertLeft (Tree.node
        (Tree.node (Tree.node Tree.nil 1 0 Tree.nil) 2 (-1) Tree.nil) 3 (-1)
        Tree.nil)).1 = 1 + max 1 (height Tree.nil) ∧
      Balanced (balanceInsertLeft (Tree.node
        (Tree.node (Tree.node Tree.nil 1 0 Tree.nil) 2 (-1) Tree.nil) 3 (-1)
        Tree.nil)).1) ∧
    insertN (Tree.node (Tree.node (Tree.node Tree.nil 0 0 Tree.nil) 1 (-1) Tree.nil)
        5 0 Tree.nil) 2 [] =
      ⟨Tree.node (insertN (Tree.node (Tree.node Tree.nil 0 0 Tree.nil) 1 (-1) Tree.nil)
          2 []).tree 5 0 Tree.nil, false,
       (insertN (Tree.node (Tree.node Tree.nil 0 0 Tree.nil) 1 (-1) Tree.nil) 2 []).a,
       (insertN (Tree.node (Tree.node Tree.nil 0 0 Tree.nil) 1 (-1) Tree.nil) 2 []).freed⟩ := by
  constructor
  · exact c7_rotation_restores_and_halts.1
      (Tree.node (Tree.node Tree.nil 1 0 Tree.nil) 2 (-1) Tree.nil) Tree.nil 3 1
      (by decide) (by decide) (by decide) (by decide) (by decide) (by decide) (by decide)
  · exact c7_rotation_restores_and_halts.2.2.1
      (Tree.node (Tree.node Tree.nil 0 0 Tree.nil) 1 (-1) Tree.nil) Tree.nil 5 0 2 []
      (by decide) (by decide) (by decide)

/-- C9: getKeys performs the in-order walk writing `v[i++] = key` with an
unchecked subscript: the walk writes exactly `size()` elements at indices 0
through `size()-1` (the final index equals `size()`), every write is in
bounds exactly when the caller pre-sized the vector to at least `size()`
elements, and under that precondition the vector afterwards holds the keys
followed by its untouched tail. -/
theorem c9_getKeys_unchecked_writes (s : State) (v : List Int) (hI : Inv s) :
    (s.root ≠ Tree.nil → (getKeysN s.root v 0 true).2.1 = sizeS s) ∧
    (s.root ≠ Tree.nil →
      ((getKeysN s.root v 0 true).2.2 = true ↔ sizeS s ≤ v.length)) ∧
    (sizeS s ≤ v.length →
      (getKeysS s v).1 = keys s.root ++ v.drop (sizeS s) ∧ (getKeysS s v).2 = true) := by
  refine ⟨?_, ?_, fun hlen => getKeysS_pre s v hI hlen⟩
  · intro hne
    obtain ⟨S1, S2, S3, S4⟩ := getKeysN_spec s.root hne v 0 true
    rw [S1]
    simp only [sizeS]
    rw [hI.2.2]
    omega
  · intro hne
    obtain ⟨S1, S2, S3, S4⟩ := getKeysN_spec s.root hne v 0 true
    rw [S3, Bool.true_and, decide_eq_true_iff]
    simp only [sizeS]
    rw [hI.2.2]
    omega

theorem c9_witness :
    ((⟨Tree.node Tree.nil 1 0 Tree.nil, 1, []⟩ : State).root ≠ Tree.nil →
      (getKeysN (⟨Tree.node Tree.nil 1 0 Tree.nil, 1, []⟩ : State).root [0] 0 true).2.1 =
        sizeS ⟨Tree.node Tree.nil 1 0 Tree.nil, 1, []⟩) ∧
    ((⟨Tree.node Tree.nil 1 0 Tree.nil, 1, []⟩ : State).root ≠ Tree.nil →
      ((getKeysN (⟨Tree.node Tree.nil 1 0 Tree.nil, 1, []⟩ : State).root [0] 0 true).2.2 = true ↔
        sizeS ⟨Tree.node Tree.nil 1 0 Tree.nil, 1, []⟩ ≤ ([0] : List Int).length)) ∧
    (sizeS ⟨Tree.node Tree.nil 1 0 Tree.nil, 1, []⟩ ≤ ([0] : List Int).length →
      (getKeysS ⟨Tree.node Tree.nil 1 0 Tree.nil, 1, []⟩ [0]).1 =
        keys (⟨Tree.node Tree.nil 1 0 Tree.nil, 1, []⟩ : State).root ++
          ([0] : List Int).drop (sizeS ⟨Tree.node Tree.nil 1 0 Tree.nil, 1, []⟩) ∧
      (getKeysS ⟨Tree.node Tree.nil 1 0 Tree.nil, 1, []⟩ [0]).2 = true) :=
  c9_getKeys_unchecked_writes ⟨Tree.node Tree.nil 1 0 Tree.nil, 1, []⟩ [0]
    ⟨by decide, by decide, by decide⟩

/-- C10: with the freed list enabled, a successful erase splices exactly one
node out of the tree (the count drops by one) and prepends exactly that node
to the freed list, so freedSize grows by exactly one; a failed erase leaves
the state — freed list included — unchanged; and clear() empties the freed
list again. -/
theorem c10_freed_list (cfg : EraseCfg) (s : State) (x : Int) (hI : Inv s) :
    ((eraseS cfg s x).2 = true →
      (∃ m, (eraseS cfg s x).1.freed = m :: s.freed) ∧
      freedSize (eraseS cfg s x).1 = freedSize s + 1 ∧
      (eraseS cfg s x).1.count + 1 = s.count) ∧
    ((eraseS cfg s x).2 = false → (eraseS cfg s x).1 = s) ∧
    freedSize (clearS (eraseS cfg s x).1) = 0 := by
  obtain ⟨hInv, hiff, hkeys, hfail, hsucc⟩ := eraseS_spec cfg s x hI
  refine ⟨?_, hfail, rfl⟩
  intro hr
  obtain ⟨hcnt, m, hfr⟩ := hsucc hr
  exact ⟨⟨m, hfr⟩, by rw [freedSize, freedSize, hfr]; rfl, hcnt⟩

theorem c10_witness :
    ((eraseS EraseCfg.plain ⟨Tree.node Tree.nil 1 0 Tree.nil, 1, []⟩ 1).2 = true →
      (∃ m, (eraseS EraseCfg.plain ⟨Tree.node Tree.nil 1 0 Tree.nil, 1, []⟩ 1).1.freed =
        m :: (⟨Tree.node Tree.nil 1 0 Tree.nil, 1, []⟩ : State).freed) ∧
      freedSize (eraseS EraseCfg.plain ⟨Tree.node Tree.nil 1 0 Tree.nil, 1, []⟩ 1).1 =
        freedSize ⟨Tree.node Tree.nil 1 0 Tree.nil, 1, []⟩ + 1 ∧
      (eraseS EraseCfg.plain ⟨Tree.node Tree.nil 1 0 Tree.nil, 1, []⟩ 1).1.count + 1 =
        (⟨Tree.node Tree.nil 1 0 Tree.nil, 1, []⟩ : State).count) ∧
    ((eraseS EraseCfg.plain ⟨Tree.node Tree.nil 1 0 Tree.nil, 1, []⟩ 1).2 = false →
      (eraseS EraseCfg.plain ⟨Tree.node Tree.nil 1 0 Tree.nil, 1, []⟩ 1).1 =
        ⟨Tree.node Tree.nil 1 0 Tree.nil, 1, []⟩) ∧
    freedSize (clearS (eraseS EraseCfg.plain ⟨Tree.node Tree.nil 1 0 Tree.nil, 1, []⟩ 1).1) = 0 :=
  c10_freed_list EraseCfg.plain ⟨Tree.node Tree.nil 1 0 Tree.nil, 1, []⟩ 1
    ⟨by decide, by decide, by decide⟩

end avl

namespace burb

/-- The three node colors of burbTree.h (`RED`, `BLACK`, `DOUBLE_BLACK`). -/
inductive Color where
  | red
  | black
  | doubleBlack
deriving DecidableEq, Repr

/-- A node of the bottom-up red-black tree of burbTree.h: key, color and the
two child pointers. The parent pointer is represented by the zipper below. -/
inductive RTree where
  | nil
  | node (left : RTree) (key : Int) (color : Color) (right : RTree)
deriving DecidableEq, Repr

/-- The `getColor` member function: nulle reads as BLACK. -/
def getColor : RTree → Color
  | .nil => .black
  | .node _ _ c _ => c

/-- The `setColor` member function: write the root color of a non-null node. -/
def setC : RTree → Color → RTree
  | .nil, _ => .nil
  | .node l k _ r, c => .node l k c r

/-- Which child of its parent a node is. -/
inductive Side where
  | left
  | right
deriving DecidableEq, Repr

/-- One step of a parent-pointer chain: the parent node's key and color and
the sibling subtree on the other side. `side` records which child the focus
below this frame is. -/
structure Frame where
  side : Side
  key : Int
  color : Color
  sibling : RTree
deriving DecidableEq, Repr

/-- Rebuild the whole tree from a focus subtree and its innermost-first
parent chain. -/
def plug (t : RTree) : List Frame → RTree
  | [] => t
  | f :: fs =>
    match f.side with
    | .left => plug (RTree.node t f.key f.color f.sibling) fs
    | .right => plug (RTree.node f.sibling f.key f.color t) fs

/-- In-order key list. -/
def keysR : RTree → List Int
  | .nil => []
  | .node l k _ r => keysR l ++ k :: keysR r

/-- Node count of a subtree. -/
def sizeR : RTree → Nat
  | .nil => 0
  | .node l _ _ r => sizeR l + sizeR r + 1

/-- The iterative descent of the private `insert(Node*)`: record the path
to the null insertion point, or `none` when the key is already present. -/
def insDescend : RTree → Int → List Frame → Option (List Frame)
  | .nil, _, fs => some fs
  | .node l k c r, x, fs =>
    if x < k then insDescend l x (⟨.left, k, c, r⟩ :: fs)
    else if x > k then insDescend r x (⟨.right, k, c, l⟩ :: fs)
    else none

/-- Rebuild a parent node from its frame, a child and a color override for
the parent. -/
def reparent (f : Frame) (t : RTree) (c : Color) : RTree :=
  match f.side with
  | .left => RTree.node t f.key c f.sibling
  | .right => RTree.node f.sibling f.key c t

/-- The `fixInsertion` while loop over the zipper: the focus is `ptr`, the
frame list is the parent chain.  Each iteration consumes the parent and
grandparent frames: the red-uncle case recolors and retreats two levels, the
black-uncle cases rotate (single or double) and break. -/
def fixIns (t : RTree) : List Frame → RTree
  | [] => t
  | f1 :: rest1 =>
    if getColor t = .red ∧ f1.color = .red then
      match rest1 with
      | [] => plug t [f1]
      | f2 :: rest =>
        match f2.side with
        | .left =>
          if getColor f2.sibling = .red then
            fixIns (RTree.node (reparent f1 t .black) f2.key .red (setC f2.sibling .black)) rest
          else
            match f1.side with
            | .left =>
              plug (RTree.node t f1.key f2.color
                    (RTree.node f1.sibling f2.key f1.color f2.sibling)) rest
            | .right =>
              match t with
              | .node tl tk tc tr =>
                plug (RTree.node (RTree.node f1.sibling f1.key f1.color tl) tk f2.color
                      (RTree.node tr f2.key tc f2.sibling)) rest
              | .nil => plug t (f1 :: f2 :: rest)
        | .right =>
          if getColor f2.sibling = .red then
            fixIns (RTree.node (setC f2.sibling .black) f2.key .red (reparent f1 t .black)) rest
          else
            match f1.side with
            | .right =>
              plug (RTree.node (RTree.node f2.sibling f2.key f1.color f1.sibling)
                    f1.key f2.color t) rest
            | .left =>
              match t with
              | .node tl tk tc tr =>
                plug (RTree.node (RTree.node f2.sibling f2.key tc tl) tk f2.color
                      (RTree.node tr f1.key f1.color f1.sibling)) rest
              | .nil => plug t (f1 :: f2 :: rest)
    else
      plug t (f1 :: rest1)

/-- The `fixInsertion` member function: run the loop, then force the root
BLACK. -/
def fixInsertion (t : RTree) (fs : List Frame) : RTree :=
  setC (fixIns t fs) .black

/-- Result of one iteration of the fixErasure DOUBLE_BLACK while loop:
either continue with a new focus, flag and frame list, or break out with a
focus and frame list to plug. -/
inductive StepRes where
  | cont (db : Bool) (t : RTree) (fs : List Frame)
  | brk (t : RTree) (fs : List Frame)
deriving DecidableEq, Repr

/-- One iteration of the fixErasure while loop: the focus `t` carries the
DOUBLE_BLACK (the flag `db` of `dbLoop` below tracks it because the focus of
the first iteration is the already-detached null child), `f1` is the parent
frame. Rule 4 (RED sibling) rotates the parent and re-examines the same
focus; Rule 3 (BLACK sibling, two BLACK children) recolors and retreats to
the parent; Rules 5/6 rotate and break. -/
def dbStep (t : RTree) (f1 : Frame) (rest : List Frame) : StepRes :=
  match f1.side with
  | .left =>
    match f1.sibling with
    | .node sl sk sc sr =>
      if sc = .red then
        .cont true t (⟨.left, f1.key, .red, sl⟩ :: ⟨.left, sk, .black, sr⟩ :: rest)
      else if getColor sl = .black ∧ getColor sr = .black then
        if f1.color = .red then
          .cont false (RTree.node (setC t .black) f1.key .black (RTree.node sl sk .red sr)) rest
        else
          .cont true (RTree.node (setC t .black) f1.key .doubleBlack
            (RTree.node sl sk .red sr)) rest
      else if getColor sr = .black then
        match sl with
        | .node sll slk _ slr =>
          .brk (RTree.node (RTree.node (setC t .black) f1.key .black sll) slk f1.color
                (RTree.node slr sk .black sr)) rest
        | .nil => .brk t (f1 :: rest)
      else
        .brk (RTree.node (RTree.node (setC t .black) f1.key .black sl) sk f1.color
              (setC sr .black)) rest
    | .nil =>
      if f1.color = .red then
        .cont false (RTree.node (setC t .black) f1.key .black RTree.nil) rest
      else
        .cont true (RTree.node (setC t .black) f1.key .doubleBlack RTree.nil) rest
  | .right =>
    match f1.sibling with
    | .node sl sk sc sr =>
      if sc = .red then
        .cont true t (⟨.right, f1.key, .red, sr⟩ :: ⟨.right, sk, .black, sl⟩ :: rest)
      else if getColor sl = .black ∧ getColor sr = .black then
        if f1.color = .red then
          .cont false (RTree.node (RTree.node sl sk .red sr) f1.key .black (setC t .black)) rest
        else
          .cont true (RTree.node (RTree.node sl sk .red sr) f1.key .doubleBlack
            (setC t .black)) rest
      else if getColor sl = .black then
        match sr with
        | .node srl srk _ srr =>
          .brk (RTree.node (RTree.node sl sk .black srl) srk f1.color
                (RTree.node srr f1.key .black (setC t .black))) rest
        | .nil => .brk t (f1 :: rest)
      else
        .brk (RTree.node (setC sl .black) sk f1.color
              (RTree.node sr f1.key .black (setC t .black))) rest
    | .nil =>
      if f1.color = .red then
        .cont false (RTree.node RTree.nil f1.key .black (setC t .black)) rest
      else
        .cont true (RTree.node RTree.nil f1.key .doubleBlack (setC t .black)) rest

/-- Termination measure of the DOUBLE_BLACK loop: twice the total size of
the sibling subtrees on the parent chain plus the chain length. -/
def muF (fs : List Frame) : Nat :=
  2 * (fs.map (fun f => sizeR f.sibling)).sum + fs.length

end burb

namespace burb

theorem dbStep_cont_mu (t : RTree) (f1 : Frame) (rest : List Frame) (db' : Bool)
    (t' : RTree) (fs' : List Frame) (h : dbStep t f1 rest = .cont db' t' fs') :
    muF fs' < muF (f1 :: rest) := by
  obtain ⟨sd, fk, fc, fsib⟩ := f1
  cases sd <;> cases fsib
  case left.nil =>
    simp only [dbStep] at h
    split_ifs at h <;>
      (injection h with h1 h2 h3
       subst h3
       simp only [muF, sizeR, List.map_cons, List.sum_cons, List.length_cons]
       omega)
  case left.node sl sk sc sr =>
    simp only [dbStep] at h
    by_cases h4 : sc = Color.red
    · rw [if_pos h4] at h
      injection h with h1 h2 h3
      subst h3
      simp only [muF, sizeR, List.map_cons, List.sum_cons, List.length_cons]
      omega
    · rw [if_neg h4] at h
      by_cases h3b : getColor sl = Color.black ∧ getColor sr = Color.black
      · rw [if_pos h3b] at h
        split_ifs at h <;>
          (injection h with h1 h2 h3
           subst h3
           simp [muF, sizeR]
           omega)
      · rw [if_neg h3b] at h
        by_cases h6 : getColor sr = Color.black
        · rw [if_pos h6] at h
          cases sl <;> simp at h
        · rw [if_neg h6] at h
          simp at h
  case right.nil =>
    simp only [dbStep] at h
    split_ifs at h <;>
      (injection h with h1 h2 h3
       subst h3
       simp only [muF, sizeR, List.map_cons, List.sum_cons, List.length_cons]
       omega)
  case right.node sl sk sc sr =>
    simp only [dbStep] at h
    by_cases h4 : sc = Color.red
    · rw [if_pos h4] at h
      injection h with h1 h2 h3
      subst h3
      simp only [muF, sizeR, List.map_cons, List.sum_cons, List.length_cons]
      omega
    · rw [if_neg h4] at h
      by_cases h3b : getColor sl = Color.black ∧ getColor sr = Color.black
      · rw [if_pos h3b] at h
        split_ifs at h <;>
          (injection h with h1 h2 h3
           subst h3
           simp [muF, sizeR]
           omega)
      · rw [if_neg h3b] at h
        by_cases h6 : getColor sl = Color.black
        · rw [if_pos h6] at h
          cases sr <;> simp at h
        · rw [if_neg h6] at h
          simp at h

/-- The fixErasure DOUBLE_BLACK while loop. `db` holds the loop condition
`ptr->color == DOUBLE_BLACK` (the first focus is the detached null child,
whose DOUBLE_BLACK marking the flag carries); the loop ends at the root or
when the flag clears, returning the rebuilt tree. -/
def dbLoop (db : Bool) (t : RTree) (fs : List Frame) : RTree :=
  match fs with
  | [] => t
  | f1 :: rest =>
    if db then
      match h : dbStep t f1 rest with
      | .cont db' t' fs' => dbLoop db' t' fs'
      | .brk t' fs' => plug t' fs'
    else plug t (f1 :: rest)
termination_by muF fs
decreasing_by exact dbStep_cont_mu _ _ _ _ _ _ (by assumption)

/-- The `fixErasure` member function applied to the node to splice (focus
components `l`, `m`, `c`, `r`; it has at most one child) and its parent
chain: the root case replaces the root by its only child blackened; a RED
node or a node with a RED child is replaced by its child blackened; a BLACK
leaf starts the DOUBLE_BLACK loop on its detached position, after which the
root is forced BLACK. -/
def fixErasure (l : RTree) (c : Color) (r : RTree) (fs : List Frame) : RTree :=
  match fs with
  | [] =>
    match l, r with
    | .nil, .nil => .nil
    | .nil, _ => setC r .black
    | _, _ => setC l .black
  | _ :: _ =>
    if c = .red ∨ getColor l = .red ∨ getColor r = .red then
      let child := match l with | .nil => r | _ => l
      plug (setC child .black) fs
    else
      setC (dbLoop true .nil fs) .black

/-- The minimum key of a non-empty subtree (leftmost node). -/
def minKey : RTree → Int
  | .nil => 0
  | .node .nil k _ _ => k
  | .node l _ _ _ => minKey l

/-- Walk to the leftmost node, recording frames. -/
def descendMin : RTree → List Frame → RTree × List Frame
  | .node (.node a b cc d) k c r, fs =>
    descendMin (.node a b cc d) (⟨.left, k, c, r⟩ :: fs)
  | t, fs => (t, fs)

/-- The private `erase(Node*, key)` search: locate the node holding the key;
with two children, overwrite its key with the in-order successor's key (the
default build always chooses the successor) and return the successor node as
the node to splice. Returns the splice focus, its parent chain, and the key
left in the spliced node. -/
def eraseDescend : RTree → Int → List Frame → Option (RTree × List Frame × Int)
  | .nil, _, _ => none
  | .node l k c r, x, fs =>
    if x < k then eraseDescend l x (⟨.left, k, c, r⟩ :: fs)
    else if x > k then eraseDescend r x (⟨.right, k, c, l⟩ :: fs)
    else if l = .nil ∨ r = .nil then some (.node l k c r, fs, k)
    else
      let m := minKey r
      let p := descendMin r (⟨.right, m, c, l⟩ :: fs)
      some (p.1, p.2, m)

/-- The burbTree object state: root, node count and the freed list
(represented by the keys stored in the freed nodes). -/
structure RBState where
  root : RTree
  count : Nat
  freed : List Int
deriving Repr

/-- The public `insert(K const&)`: `newNode` pops the freed list first; an
empty tree takes the node as a BLACK root; a duplicate puts the node back on
the freed list (its key now overwritten) and returns false; otherwise the
new RED node is attached at the descent point and `fixInsertion` repairs the
tree. -/
def insertB (s : RBState) (x : Int) : RBState × Bool :=
  match s.root with
  | .nil => (⟨RTree.node .nil x .black .nil, s.count + 1, s.freed.tail⟩, true)
  | .node .. =>
    match insDescend s.root x [] with
    | none => (⟨s.root, s.count, x :: s.freed.tail⟩, false)
    | some fs =>
      (⟨fixInsertion (RTree.node .nil x .red .nil) fs, s.count + 1, s.freed.tail⟩, true)

/-- The public `erase(K const&)`: find the node (substituting the successor
key in the two-child case), then `--count`, repair via `fixErasure` and
prepend the spliced node to the freed list. -/
def eraseB (s : RBState) (x : Int) : RBState × Bool :=
  match eraseDescend s.root x [] with
  | none => (s, false)
  | some (t, fs, m) =>
    match t with
    | .node l _ c r => (⟨fixErasure l c r fs, s.count - 1, m :: s.freed⟩, true)
    | .nil => (s, false)

/-- Apply one mutating call to a burbTree state. -/
def applyOpB (s : RBState) : avl.Op → RBState
  | .ins x => (insertB s x).1
  | .del x => (eraseB s x).1

/-- Run a sequence of insert and erase calls from a fresh burbTree. -/
def runB (ops : List avl.Op) : RBState := ops.foldl applyOpB ⟨.nil, 0, []⟩

/-- The recursive `getKeys(Node*, std::vector<K>&, size_t&)` member function
of burbTree.h: in-order walk writing `v[i++] = p->key` with an unchecked
subscript, guarded descent into non-null children. -/
def getKeysNB : RTree → List Int → Nat → Bool → List Int × Nat × Bool
  | .node l k _ r, v, i, ok =>
    let a := match l with
      | .node .. => getKeysNB l v i ok
      | .nil => (v, i, ok)
    let w := avl.vecWrite a.1 a.2.1 k
    let a2 := (w.1, a.2.1 + 1, a.2.2 && w.2)
    match r with
    | .node .. => getKeysNB r a2.1 a2.2.1 a2.2.2
    | .nil => a2
  | .nil, v, i, ok => (v, i, ok)

/-- The public `getKeys(std::vector<K>&)` member function of burbTree.h. -/
def getKeysSB (s : RBState) (v : List Int) : List Int × Bool :=
  match s.root with
  | .node .. =>
    let a := getKeysNB s.root v 0 true
    (a.1, a.2.2)
  | .nil => (v, true)

/-- Forget the colors, mapping a red-black tree onto the bare binary tree
shape used by the AVL development (balance fields zeroed). -/
def toT : RTree → avl.Tree
  | .nil => avl.Tree.nil
  | .node l k _ r => avl.Tree.node (toT l) k 0 (toT r)

end burb

namespace burb

theorem dbLoop_none (db : Bool) (t : RTree) : dbLoop db t [] = t := by
  rw [dbLoop.eq_def]

theorem dbLoop_stop (t : RTree) (f : Frame) (fs : List Frame) :
    dbLoop false t (f :: fs) = plug t (f :: fs) := by
  rw [dbLoop.eq_def]
  dsimp only
  rw [if_neg (by simp : ¬ false = true)]

theorem dbLoop_cont {t : RTree} {f : Frame} {rest : List Frame} {db' : Bool}
    {t' : RTree} {fs' : List Frame} (h : dbStep t f rest = .cont db' t' fs') :
    dbLoop true t (f :: rest) = dbLoop db' t' fs' := by
  rw [dbLoop.eq_def]
  dsimp only
  rw [if_pos rfl]
  split
  · rename_i db2 t2 fs2 heq
    rw [heq] at h
    injection h with a b c
    subst a
    subst b
    subst c
    rfl
  · rename_i t2 fs2 heq
    rw [heq] at h
    simp at h

theorem dbLoop_brk {t : RTree} {f : Frame} {rest : List Frame}
    {t' : RTree} {fs' : List Frame} (h : dbStep t f rest = .brk t' fs') :
    dbLoop true t (f :: rest) = plug t' fs' := by
  rw [dbLoop.eq_def]
  dsimp only
  rw [if_pos rfl]
  split
  · rename_i db2 t2 fs2 heq
    rw [heq] at h
    simp at h
  · rename_i t2 fs2 heq
    rw [heq] at h
    injection h with a b
    subst a
    subst b
    rfl

end burb

namespace burb

/-- C6 (amended): in the erase fixup, when the DOUBLE_BLACK focus's sibling
is BLACK and both of the sibling's children are BLACK, the sibling is
recolored RED and the focus is recolored BLACK; but the DOUBLE_BLACK moves
to the parent (and iteration continues upward) only when the parent was
BLACK — a RED parent is recolored plain BLACK and the loop then stops, as
the continuation flag (the loop condition `ptr->color == DOUBLE_BLACK`) is
cleared. The two cases hold on either side, and a cleared flag makes the
loop plug the tree back together without another iteration. -/
theorem c6_rule3_two_black_children (t : RTree) (fk sk : Int) (fc : Color)
    (sl sr : RTree) (rest : List Frame)
    (hsl : getColor sl = .black) (hsr : getColor sr = .black) :
    (dbStep t ⟨.left, fk, fc, RTree.node sl sk .black sr⟩ rest =
      if fc = .red then
        .cont false (RTree.node (setC t .black) fk .black (RTree.node sl sk .red sr)) rest
      else
        .cont true (RTree.node (setC t .black) fk .doubleBlack
          (RTree.node sl sk .red sr)) rest) ∧
    (dbStep t ⟨.right, fk, fc, RTree.node sl sk .black sr⟩ rest =
      if fc = .red then
        .cont false (RTree.node (RTree.node sl sk .red sr) fk .black (setC t .black)) rest
      else
        .cont true (RTree.node (RTree.node sl sk .red sr) fk .doubleBlack
          (setC t .black)) rest) ∧
    (∀ (t' : RTree) (f : Frame) (fs : List Frame),
      dbLoop false t' (f :: fs) = plug t' (f :: fs)) := by
  refine ⟨?_, ?_, fun t' f fs => dbLoop_stop t' f fs⟩
  · simp only [dbStep]
    rw [if_neg (by decide : ¬ (Color.black = Color.red)), if_pos ⟨hsl, hsr⟩]
  · simp only [dbStep]
    rw [if_neg (by decide : ¬ (Color.black = Color.red)), if_pos ⟨hsl, hsr⟩]

theorem c6_rule3_witness :
    (dbStep RTree.nil ⟨.left, 10, Color.black, RTree.node RTree.nil 20 .black RTree.nil⟩ [] =
      if Color.black = Color.red then
        .cont false (RTree.node (setC RTree.nil .black) 10 .black
          (RTree.node RTree.nil 20 .red RTree.nil)) []
      else
        .cont true (RTree.node (setC RTree.nil .black) 10 .doubleBlack
          (RTree.node RTree.nil 20 .red RTree.nil)) []) ∧
    (dbStep RTree.nil ⟨.right, 10, Color.black, RTree.node RTree.nil 20 .black RTree.nil⟩ [] =
      if Color.black = Color.red then
        .cont false (RTree.node (RTree.node RTree.nil 20 .red RTree.nil) 10 .black
          (setC RTree.nil .black)) []
      else
        .cont true (RTree.node (RTree.node RTree.nil 20 .red RTree.nil) 10 .doubleBlack
          (setC RTree.nil .black)) []) ∧
    (∀ (t' : RTree) (f : Frame) (fs : List Frame),
      dbLoop false t' (f :: fs) = plug t' (f :: fs)) :=
  c6_rule3_two_black_children RTree.nil 10 20 Color.black RTree.nil RTree.nil []
    (by decide) (by decide)

/-- C6 counterexample: with a RED parent, the claimed push of DOUBLE_BLACK
to the parent does not happen. Focus detached (null), parent RED with key
10, sibling BLACK leaf 20: one iteration recolors the parent plain BLACK and
clears the continuation flag, and the loop returns with no DOUBLE_BLACK
anywhere; the claimed outcome (parent DOUBLE_BLACK, iteration continuing)
differs. -/
theorem c6_red_parent_stops :
    dbStep RTree.nil ⟨.left, 10, Color.red, RTree.node RTree.nil 20 .black RTree.nil⟩ [] =
      .cont false (RTree.node RTree.nil 10 .black (RTree.node RTree.nil 20 .red RTree.nil)) [] ∧
    dbStep RTree.nil ⟨.left, 10, Color.red, RTree.node RTree.nil 20 .black RTree.nil⟩ [] ≠
      .cont true (RTree.node RTree.nil 10 .doubleBlack
        (RTree.node RTree.nil 20 .red RTree.nil)) [] ∧
    dbLoop true RTree.nil [⟨.left, 10, Color.red, RTree.node RTree.nil 20 .black RTree.nil⟩] =
      RTree.node RTree.nil 10 .black (RTree.node RTree.nil 20 .red RTree.nil) := by
  refine ⟨rfl, by decide, ?_⟩
  have h : dbStep RTree.nil ⟨.left, 10, Color.red, RTree.node RTree.nil 20 .black RTree.nil⟩ [] =
      .cont false (RTree.node RTree.nil 10 .black
        (RTree.node RTree.nil 20 .red RTree.nil)) [] := rfl
  rw [dbLoop_cont h, dbLoop_none]

end burb

namespace burb

/-- BST ordering of a red-black tree, as the checkTree member function
checks it: left keys below, right keys above the node's key. -/
def OrderedR : RTree → Prop
  | .nil => True
  | .node l k _ r => OrderedR l ∧ OrderedR r ∧ (∀ x ∈ keysR l, x < k) ∧ (∀ x ∈ keysR r, k < x)

def orderedRDec : (t : RTree) → Decidable (OrderedR t)
  | .nil => isTrue trivial
  | .node l _ _ r =>
    haveI : Decidable (OrderedR l) := orderedRDec l
    haveI : Decidable (OrderedR r) := orderedRDec r
    show Decidable (_ ∧ _ ∧ _ ∧ _) from inferInstance

instance : DecidablePred OrderedR := orderedRDec

/-- No RED node has a RED child, as checkTree checks. -/
def NoRedRed : RTree → Prop
  | .nil => True
  | .node l _ c r =>
    NoRedRed l ∧ NoRedRed r ∧ (c = .red → getColor l ≠ .red ∧ getColor r ≠ .red)

def noRedRedDec : (t : RTree) → Decidable (NoRedRed t)
  | .nil => isTrue trivial
  | .node l _ _ r =>
    haveI : Decidable (NoRedRed l) := noRedRedDec l
    haveI : Decidable (NoRedRed r) := noRedRedDec r
    show Decidable (_ ∧ _ ∧ _) from inferInstance

instance : DecidablePred NoRedRed := noRedRedDec

/-- No DOUBLE_BLACK node remains, as checkTree checks. -/
def NoDB : RTree → Prop
  | .nil => True
  | .node l _ c r => c ≠ .doubleBlack ∧ NoDB l ∧ NoDB r

def noDBDec : (t : RTree) → Decidable (NoDB t)
  | .nil => isTrue trivial
  | .node l _ _ r =>
    haveI : Decidable (NoDB l) := noDBDec l
    haveI : Decidable (NoDB r) := noDBDec r
    show Decidable (_ ∧ _ ∧ _) from inferInstance

instance : DecidablePred NoDB := noDBDec

/-- The black-height of a subtree when every root-to-leaf path carries the
same number of BLACK nodes (counting the node itself when BLACK; nulle
counts zero), `none` when the counts disagree. -/
def bhOk : RTree → Option Nat
  | .nil => some 0
  | .node l _ c r =>
    match bhOk l, bhOk r with
    | some a, some b =>
      if a = b then some (a + (if c = .black then 1 else 0)) else none
    | _, _ => none

/-- The red-black structural invariant of burbTree.h's checkTree: the root
is BLACK (an empty tree passes), no RED node has a RED child, no
DOUBLE_BLACK node remains, and every root-to-leaf path has the same BLACK
count. -/
def RBOk (t : RTree) : Prop :=
  (t = .nil ∨ getColor t = .black) ∧ NoRedRed t ∧ NoDB t ∧ (bhOk t).isSome

theorem keys_setC (t : RTree) (c : Color) : keysR (setC t c) = keysR t := by
  cases t <;> rfl

/-- Keys contributed by a parent chain on the left of the focus, and on the
right of the focus. -/
def beforeK : List Frame → List Int
  | [] => []
  | f :: fs =>
    match f.side with
    | .left => beforeK fs
    | .right => beforeK fs ++ keysR f.sibling ++ [f.key]

def afterK : List Frame → List Int
  | [] => []
  | f :: fs =>
    match f.side with
    | .left => f.key :: keysR f.sibling ++ afterK fs
    | .right => afterK fs

theorem keys_plug : ∀ (fs : List Frame) (t : RTree),
    keysR (plug t fs) = beforeK fs ++ keysR t ++ afterK fs
  | [], t => by simp [plug, beforeK, afterK]
  | f :: fs, t => by
    obtain ⟨sd, k, c, sib⟩ := f
    cases sd
    · rw [plug, keys_plug fs _]
      simp [beforeK, afterK, keysR]
    · rw [plug, keys_plug fs _]
      simp [beforeK, afterK, keysR]

theorem ordered_iffR : ∀ t : RTree, OrderedR t ↔ (keysR t).Pairwise (· < ·)
  | .nil => by simp [OrderedR, keysR]
  | .node l k c r => by
    have hl := ordered_iffR l
    have hr := ordered_iffR r
    simp only [OrderedR, keysR, List.pairwise_append, List.pairwise_cons, hl, hr,
      List.mem_cons]
    constructor
    · rintro ⟨pl, pr, bl, br⟩
      refine ⟨pl, ⟨fun b hb => br b hb, pr⟩, ?_⟩
      rintro a ha b (rfl | hb)
      · exact bl a ha
      · exact lt_trans (bl a ha) (br b hb)
    · rintro ⟨pl, ⟨hk, pr⟩, hab⟩
      exact ⟨pl, pr, fun a ha => hab a ha k (Or.inl rfl), hk⟩

end burb


namespace burb

theorem keys_fixIns : ∀ (fs : List Frame) (t : RTree),
    keysR (fixIns t fs) = keysR (plug t fs)
  | [], _ => rfl
  | [f1], t => by
    rw [fixIns.eq_def]
    dsimp only
    split <;> rfl
  | f1 :: f2 :: rest, t => by
    rw [fixIns.eq_def]
    dsimp only
    split_ifs with hcond hu
    · obtain ⟨s1, k1, c1, sib⟩ := f1
      obtain ⟨s2, k2, c2, u⟩ := f2
      cases s2 <;> dsimp only <;>
        (rw [keys_fixIns rest _, keys_plug, keys_plug]
         cases s1 <;> simp [keysR, reparent, keys_setC, beforeK, afterK])
    · obtain ⟨s1, k1, c1, sib⟩ := f1
      obtain ⟨s2, k2, c2, u⟩ := f2
      cases s2 <;> cases s1 <;> dsimp only
      · rw [keys_plug, keys_plug]
        simp [keysR, beforeK, afterK]
      · cases t <;> dsimp only
        all_goals first
          | rfl
          | (rw [keys_plug, keys_plug]
             simp [keysR, beforeK, afterK])
      · cases t <;> dsimp only
        all_goals first
          | rfl
          | (rw [keys_plug, keys_plug]
             simp [keysR, beforeK, afterK])
      · rw [keys_plug, keys_plug]
        simp [keysR, beforeK, afterK]
    · rfl

theorem keys_fixInsertion (t : RTree) (fs : List Frame) :
    keysR (fixInsertion t fs) = keysR (plug t fs) := by
  rw [fixInsertion, keys_setC, keys_fixIns]

end burb

namespace burb

theorem keys_dbStep_cont {t : RTree} {f : Frame} {rest : List Frame} {db' : Bool}
    {t' : RTree} {fs' : List Frame} (h : dbStep t f rest = .cont db' t' fs') :
    keysR (plug t' fs') = keysR (plug t (f :: rest)) := by
  obtain ⟨sd, fk, fc, fsib⟩ := f
  cases sd <;> cases fsib
  case left.nil =>
    simp only [dbStep] at h
    split_ifs at h <;>
      (injection h with h1 h2 h3
       subst h3
       subst h2
       rw [keys_plug, keys_plug]
       simp [keysR, keys_setC, beforeK, afterK])
  case left.node sl sk sc sr =>
    simp only [dbStep] at h
    by_cases h4 : sc = Color.red
    · rw [if_pos h4] at h
      injection h with h1 h2 h3
      subst h3
      subst h2
      rw [keys_plug, keys_plug]
      simp [keysR, beforeK, afterK]
    · rw [if_neg h4] at h
      by_cases h3b : getColor sl = Color.black ∧ getColor sr = Color.black
      · rw [if_pos h3b] at h
        split_ifs at h <;>
          (injection h with h1 h2 h3
           subst h3
           subst h2
           rw [keys_plug, keys_plug]
           simp [keysR, keys_setC, beforeK, afterK])
      · rw [if_neg h3b] at h
        by_cases h6 : getColor sr = Color.black
        · rw [if_pos h6] at h
          cases sl <;> simp at h
        · rw [if_neg h6] at h
          simp at h
  case right.nil =>
    simp only [dbStep] at h
    split_ifs at h <;>
      (injection h with h1 h2 h3
       subst h3
       subst h2
       rw [keys_plug, keys_plug]
       simp [keysR, keys_setC, beforeK, afterK])
  case right.node sl sk sc sr =>
    simp only [dbStep] at h
    by_cases h4 : sc = Color.red
    · rw [if_pos h4] at h
      injection h with h1 h2 h3
      subst h3
      subst h2
      rw [keys_plug, keys_plug]
      simp [keysR, beforeK, afterK]
    · rw [if_neg h4] at h
      by_cases h3b : getColor sl = Color.black ∧ getColor sr = Color.black
      · rw [if_pos h3b] at h
        split_ifs at h <;>
          (injection h with h1 h2 h3
           subst h3
           subst h2
           rw [keys_plug, keys_plug]
           simp [keysR, keys_setC, beforeK, afterK])
      · rw [if_neg h3b] at h
        by_cases h6 : getColor sl = Color.black
        · rw [if_pos h6] at h
          cases sr <;> simp at h
        · rw [if_neg h6] at h
          simp at h

theorem keys_dbStep_brk {t : RTree} {f : Frame} {rest : List Frame}
    {t' : RTree} {fs' : List Frame} (h : dbStep t f rest = .brk t' fs') :
    keysR (plug t' fs') = keysR (plug t (f :: rest)) := by
  obtain ⟨sd, fk, fc, fsib⟩ := f
  cases sd <;> cases fsib
  case left.nil =>
    simp only [dbStep] at h
    split_ifs at h <;> simp at h
  case left.node sl sk sc sr =>
    simp only [dbStep] at h
    by_cases h4 : sc = Color.red
    · rw [if_pos h4] at h
      simp at h
    · rw [if_neg h4] at h
      by_cases h3b : getColor sl = Color.black ∧ getColor sr = Color.black
      · rw [if_pos h3b] at h
        split_ifs at h <;> simp at h
      · rw [if_neg h3b] at h
        by_cases h6 : getColor sr = Color.black
        · rw [if_pos h6] at h
          cases sl with
          | nil =>
            injection h with h1 h2
            subst h2
            subst h1
            rfl
          | node sll slk slc slr =>
            injection h with h1 h2
            subst h2
            subst h1
            rw [keys_plug, keys_plug]
            simp [keysR, keys_setC, beforeK, afterK]
        · rw [if_neg h6] at h
          injection h with h1 h2
          subst h2
          subst h1
          rw [keys_plug, keys_plug]
          simp [keysR, keys_setC, beforeK, afterK]
  case right.nil =>
    simp only [dbStep] at h
    split_ifs at h <;> simp at h
  case right.node sl sk sc sr =>
    simp only [dbStep] at h
    by_cases h4 : sc = Color.red
    · rw [if_pos h4] at h
      simp at h
    · rw [if_neg h4] at h
      by_cases h3b : getColor sl = Color.black ∧ getColor sr = Color.black
      · rw [if_pos h3b] at h
        split_ifs at h <;> simp at h
      · rw [if_neg h3b] at h
        by_cases h6 : getColor sl = Color.black
        · rw [if_pos h6] at h
          cases sr with
          | nil =>
            injection h with h1 h2
            subst h2
            subst h1
            rfl
          | node srl srk src srr =>
            injection h with h1 h2
            subst h2
            subst h1
            rw [keys_plug, keys_plug]
            simp [keysR, keys_setC, beforeK, afterK]
        · rw [if_neg h6] at h
          injection h with h1 h2
          subst h2
          subst h1
          rw [keys_plug, keys_plug]
          simp [keysR, keys_setC, beforeK, afterK]

theorem keys_dbLoop : ∀ (db : Bool) (t : RTree) (fs : List Frame),
    keysR (dbLoop db t fs) = keysR (plug t fs)
  | db, t, [] => by rw [dbLoop_none]; rfl
  | false, t, f :: rest => by rw [dbLoop_stop]
  | true, t, f :: rest => by
    cases hh : dbStep t f rest with
    | cont db' t' fs' =>
      rw [dbLoop_cont hh, keys_dbLoop db' t' fs', keys_dbStep_cont hh]
    | brk t' fs' =>
      rw [dbLoop_brk hh, keys_dbStep_brk hh]
termination_by db t fs => muF fs
decreasing_by exact dbStep_cont_mu _ _ _ _ _ _ hh

end burb

namespace burb

open avl in
theorem insDescend_spec : ∀ (t : RTree) (x : Int) (fs : List Frame), OrderedR t →
    (insDescend t x fs = none ↔ x ∈ keysR t) ∧
    (∀ fs', insDescend t x fs = some fs' →
      beforeK fs' ++ x :: afterK fs' = beforeK fs ++ linsert x (keysR t) ++ afterK fs)
  | .nil, x, fs, _ => by
    constructor
    · simp [insDescend, keysR]
    · intro fs' h
      simp only [insDescend, Option.some_inj] at h
      subst h
      simp [keysR, linsert]
  | .node l k c r, x, fs, hO => by
    obtain ⟨hOl, hOr, hbl, hbr⟩ := hO
    rcases lt_trichotomy x k with hx | rfl | hx
    · have IH := insDescend_spec l x (⟨.left, k, c, r⟩ :: fs) hOl
      rw [show insDescend (RTree.node l k c r) x fs =
        insDescend l x (⟨.left, k, c, r⟩ :: fs) from by
          simp [insDescend, hx]]
      constructor
      · rw [IH.1]
        simp only [keysR, List.mem_append, List.mem_cons]
        constructor
        · exact fun h => Or.inl h
        · rintro (h | rfl | h)
          · exact h
          · exact absurd hx (lt_irrefl x)
          · exact absurd (lt_trans hx (hbr x h)) (lt_irrefl x)
      · intro fs' h
        have h2 := IH.2 fs' h
        rw [h2]
        simp only [beforeK, afterK, keysR]
        rw [linsert_append_lt x k (keysR l) (keysR r) hbl hx]
        simp
    · rw [show insDescend (RTree.node l x c r) x fs = none from by
        simp [insDescend, lt_irrefl]]
      constructor
      · simp [keysR]
      · intro fs' h
        exact absurd h (by simp)
    · have IH := insDescend_spec r x (⟨.right, k, c, l⟩ :: fs) hOr
      rw [show insDescend (RTree.node l k c r) x fs =
        insDescend r x (⟨.right, k, c, l⟩ :: fs) from by
          simp [insDescend, hx, not_lt.mpr (le_of_lt hx)]]
      constructor
      · rw [IH.1]
        simp only [keysR, List.mem_append, List.mem_cons]
        constructor
        · exact fun h => Or.inr (Or.inr h)
        · rintro (h | rfl | h)
          · exact absurd (lt_trans (hbl x h) hx) (lt_irrefl x)
          · exact absurd hx (lt_irrefl x)
          · exact h
      · intro fs' h
        have h2 := IH.2 fs' h
        rw [h2]
        simp only [beforeK, afterK, keysR]
        rw [linsert_append_gt x k (keysR l) (keysR r) hbl hx]
        simp

end burb

namespace burb

/-- Forget keys, keeping shape and colors: the red-black structural checks
do not read keys. -/
def shapeOf : RTree → RTree
  | .nil => .nil
  | .node l _ c r => .node (shapeOf l) 0 c (shapeOf r)

theorem getColor_shapeOf (t : RTree) : getColor (shapeOf t) = getColor t := by
  cases t <;> rfl

theorem bhOk_shapeOf : ∀ t : RTree, bhOk (shapeOf t) = bhOk t
  | .nil => rfl
  | .node l k c r => by
    rw [shapeOf, bhOk, bhOk, bhOk_shapeOf l, bhOk_shapeOf r]

theorem noDB_shapeOf : ∀ t : RTree, NoDB (shapeOf t) ↔ NoDB t
  | .nil => Iff.rfl
  | .node l k c r => by
    rw [shapeOf, NoDB, NoDB]
    simp [noDB_shapeOf l, noDB_shapeOf r]

theorem noRedRed_shapeOf : ∀ t : RTree, NoRedRed (shapeOf t) ↔ NoRedRed t
  | .nil => Iff.rfl
  | .node l k c r => by
    rw [shapeOf, NoRedRed, NoRedRed]
    simp [noRedRed_shapeOf l, noRedRed_shapeOf r, getColor_shapeOf]

theorem bh_plug_some : ∀ (fs : List Frame) (t : RTree),
    (bhOk (plug t fs)).isSome → (bhOk t).isSome
  | [], t => fun h => h
  | f :: fs, t => by
    intro h
    obtain ⟨sd, k, c, sib⟩ := f
    cases sd
    · have h2 := bh_plug_some fs _ h
      rw [bhOk] at h2
      rcases hb : bhOk t with _ | n
      · rw [hb] at h2
        simp at h2
      · simp
    · have h2 := bh_plug_some fs _ h
      rw [bhOk] at h2
      rcases hb : bhOk t with _ | n
      · rw [hb] at h2
        rcases bhOk sib with _ | m <;> simp at h2
      · simp

theorem noDB_plug : ∀ (fs : List Frame) (t : RTree), NoDB (plug t fs) → NoDB t
  | [], _ => fun h => h
  | f :: fs, t => by
    intro h
    obtain ⟨sd, k, c, sib⟩ := f
    cases sd
    · exact (noDB_plug fs _ h).2.1
    · exact (noDB_plug fs _ h).2.2

theorem keys_fixErasure (l : RTree) (c : Color) (r : RTree) (fs : List Frame)
    (hone : l = .nil ∨ r = .nil)
    (hblack : fs ≠ [] → c ≠ .red → getColor l ≠ .red → getColor r ≠ .red →
      l = .nil ∧ r = .nil) :
    keysR (fixErasure l c r fs) = beforeK fs ++ (keysR l ++ keysR r) ++ afterK fs := by
  match fs with
  | [] =>
    rcases hone with rfl | rfl
    · cases r
      · rfl
      · rw [fixErasure.eq_def]
        dsimp only
        simp [beforeK, afterK, keys_setC, keysR]
    · cases l
      · rfl
      · rw [fixErasure.eq_def]
        dsimp only
        simp [beforeK, afterK, keys_setC, keysR]
  | f :: rest =>
    rw [fixErasure.eq_def]
    dsimp only
    split_ifs with hred
    · rcases hone with rfl | rfl
      · simp only [keys_plug, keys_setC]
        simp [keysR]
      · cases l
        · simp only [keys_plug, keys_setC]
          simp [keysR]
        · simp only [keys_plug, keys_setC]
          simp [keysR]
    · push_neg at hred
      obtain ⟨h1, h2, h3⟩ := hred
      obtain ⟨rfl, rfl⟩ := hblack (by simp) h1 h2 h3
      rw [keys_setC, keys_dbLoop, keys_plug]
      simp [keysR]

end burb

namespace burb

theorem shapeOf_plug_congr : ∀ (fs : List Frame) (t1 t2 : RTree),
    shapeOf t1 = shapeOf t2 → shapeOf (plug t1 fs) = shapeOf (plug t2 fs)
  | [], _, _, h => h
  | f :: fs, t1, t2, h => by
    obtain ⟨sd, k, c, sib⟩ := f
    cases sd
    · exact shapeOf_plug_congr fs _ _ (by rw [shapeOf, shapeOf, h])
    · exact shapeOf_plug_congr fs _ _ (by rw [shapeOf, shapeOf, h])

theorem descendMin_spec : ∀ (t : RTree) (fs : List Frame), t ≠ .nil →
    ∃ mc mr fs2, descendMin t fs = (RTree.node .nil (minKey t) mc mr, fs2) ∧
      plug (RTree.node .nil (minKey t) mc mr) fs2 = plug t fs ∧
      beforeK fs2 = beforeK fs ∧
      minKey t :: (keysR mr ++ afterK fs2) = keysR t ++ afterK fs
  | .nil, _, hne => absurd rfl hne
  | .node l k c r, fs, _ => by
    cases l with
    | nil =>
      refine ⟨c, r, fs, rfl, rfl, rfl, ?_⟩
      simp [keysR, minKey]
    | node ll lk lc lr =>
      obtain ⟨mc, mr, fs2, h1, h2, h3, h4⟩ :=
        descendMin_spec (RTree.node ll lk lc lr) (⟨.left, k, c, r⟩ :: fs) (by simp)
      have hmk : minKey (RTree.node (RTree.node ll lk lc lr) k c r) =
          minKey (RTree.node ll lk lc lr) := rfl
      refine ⟨mc, mr, fs2, ?_, ?_, ?_, ?_⟩
      · rw [show descendMin (RTree.node (RTree.node ll lk lc lr) k c r) fs =
          descendMin (RTree.node ll lk lc lr) (⟨.left, k, c, r⟩ :: fs) from rfl, hmk]
        exact h1
      · rw [hmk, h2]
        rfl
      · rw [h3]
        rfl
      · rw [hmk, h4]
        simp [keysR, afterK]

open avl in
theorem eraseDescend_spec : ∀ (t : RTree) (x : Int) (fs : List Frame), OrderedR t →
    (eraseDescend t x fs = none ↔ x ∉ keysR t) ∧
    (∀ focus fs' m, eraseDescend t x fs = some (focus, fs', m) →
      ∃ l c r, focus = RTree.node l m c r ∧ (l = .nil ∨ r = .nil) ∧
        shapeOf (plug focus fs') = shapeOf (plug t fs) ∧
        beforeK fs' ++ (keysR l ++ keysR r) ++ afterK fs' =
          beforeK fs ++ (keysR t).erase x ++ afterK fs)
  | .nil, x, fs, _ => by
    constructor
    · simp [eraseDescend, keysR]
    · intro focus fs' m h
      exact absurd h (by simp [eraseDescend])
  | .node l k c r, x, fs, hO => by
    obtain ⟨hOl, hOr, hbl, hbr⟩ := hO
    rcases lt_trichotomy x k with hx | rfl | hx
    · have IH := eraseDescend_spec l x (⟨.left, k, c, r⟩ :: fs) hOl
      rw [show eraseDescend (RTree.node l k c r) x fs =
        eraseDescend l x (⟨.left, k, c, r⟩ :: fs) from by
          simp [eraseDescend, hx]]
      constructor
      · rw [IH.1]
        simp only [keysR, List.mem_append, List.mem_cons]
        constructor
        · intro h hc
          rcases hc with hc | rfl | hc
          · exact h hc
          · exact absurd hx (lt_irrefl x)
          · exact absurd (lt_trans hx (hbr x hc)) (lt_irrefl x)
        · intro h hc
          exact h (Or.inl hc)
      · intro focus fs' m h
        obtain ⟨l0, c0, r0, he1, he2, he3, he4⟩ := IH.2 focus fs' m h
        refine ⟨l0, c0, r0, he1, he2, he3, ?_⟩
        rw [he4]
        simp only [beforeK, afterK, keysR]
        rw [lerase_left hbl hbr hx]
        simp
    · -- found the key
      by_cases hone : l = .nil ∨ r = .nil
      · rw [show eraseDescend (RTree.node l x c r) x fs =
          some (RTree.node l x c r, fs, x) from by
            simp [eraseDescend, lt_irrefl, hone]]
        constructor
        · simp [keysR]
        · intro focus fs' m h
          simp only [Option.some_inj, Prod.mk.injEq] at h
          obtain ⟨rfl, rfl, rfl⟩ := h
          refine ⟨l, c, r, rfl, hone, rfl, ?_⟩
          simp only [keysR]
          rw [lerase_mid hbl]
      · push_neg at hone
        obtain ⟨hln, hrn⟩ := hone
        obtain ⟨mc, mr, fs2, h1, h2, h3, h4⟩ :=
          descendMin_spec r (⟨.right, minKey r, c, l⟩ :: fs) hrn
        rw [show eraseDescend (RTree.node l x c r) x fs =
          some ((descendMin r (⟨.right, minKey r, c, l⟩ :: fs)).1,
            (descendMin r (⟨.right, minKey r, c, l⟩ :: fs)).2, minKey r) from by
            rw [eraseDescend.eq_def]
            simp [lt_irrefl, hln, hrn]]
        rw [h1]
        constructor
        · constructor
          · intro h
            exact absurd h (by simp)
          · intro h
            exact absurd (by simp [keysR] : x ∈ keysR (RTree.node l x c r)) h
        · intro focus fs' m h
          simp only [Option.some_inj, Prod.mk.injEq] at h
          obtain ⟨rfl, rfl, rfl⟩ := h
          refine ⟨.nil, mc, mr, rfl, Or.inl rfl, ?_, ?_⟩
          · have hstep : plug r (⟨.right, minKey r, c, l⟩ :: fs) =
              plug (RTree.node l (minKey r) c r) fs := rfl
            rw [h2, hstep]
            exact shapeOf_plug_congr fs _ _ rfl
          · have h5 : [minKey r] ++ (keysR mr ++ afterK fs2) = keysR r ++ afterK fs := by
              simpa [afterK] using h4
            rw [h3]
            simp only [beforeK, keysR, List.nil_append]
            rw [lerase_mid hbl]
            simp only [List.append_assoc] at h5 ⊢
            rw [h5]
    · have IH := eraseDescend_spec r x (⟨.right, k, c, l⟩ :: fs) hOr
      rw [show eraseDescend (RTree.node l k c r) x fs =
        eraseDescend r x (⟨.right, k, c, l⟩ :: fs) from by
          simp [eraseDescend, hx, not_lt.mpr (le_of_lt hx)]]
      constructor
      · rw [IH.1]
        simp only [keysR, List.mem_append, List.mem_cons]
        constructor
        · intro h hc
          rcases hc with hc | rfl | hc
          · exact absurd (lt_trans (hbl x hc) hx) (lt_irrefl x)
          · exact absurd hx (lt_irrefl x)
          · exact h hc
        · intro h hc
          exact h (Or.inr (Or.inr hc))
      · intro focus fs' m h
        obtain ⟨l0, c0, r0, he1, he2, he3, he4⟩ := IH.2 focus fs' m h
        refine ⟨l0, c0, r0, he1, he2, he3, ?_⟩
        rw [he4]
        simp only [beforeK, afterK, keysR]
        rw [lerase_right hbl hx]
        simp

end burb

namespace burb

/-- Black contribution of a node color to the black-height. -/
def bump (c : Color) : Nat := if c = .black then 1 else 0

/-- Color of the nearest enclosing node of the hole (BLACK when the hole is
the root). -/
def nextColor : List Frame → Color
  | [] => .black
  | f :: _ => f.color

/-- The nearest enclosing node of the hole exists and is BLACK. -/
def nextBlack : List Frame → Prop
  | [] => False
  | f :: _ => f.color = .black

/-- Black-height of the whole tree given the black-height of the hole. -/
def ctxBH : List Frame → Nat → Nat
  | [], n => n
  | f :: fs, n => ctxBH fs (n + bump f.color)

/-- Consistency of a parent chain around a hole of black-height `n`: each
frame is not DOUBLE_BLACK, its sibling is a valid red-black subtree of the
right black-height, and a RED frame has a non-RED sibling and a BLACK
parent frame. -/
def Ctx : List Frame → Nat → Prop
  | [], _ => True
  | f :: fs, n =>
    f.color ≠ .doubleBlack ∧
    bhOk f.sibling = some n ∧ NoRedRed f.sibling ∧ NoDB f.sibling ∧
    (f.color = .red → getColor f.sibling ≠ .red ∧ nextBlack fs) ∧
    Ctx fs (n + bump f.color)

theorem noRR_setC_black {t : RTree} (h : NoRedRed t) : NoRedRed (setC t .black) := by
  cases t with
  | nil => trivial
  | node l k c r =>
    obtain ⟨hl, hr, _⟩ := h
    exact ⟨hl, hr, by simp⟩

theorem noDB_setC_black {l r : RTree} {k : Int} {c : Color}
    (hl : NoDB l) (hr : NoDB r) : NoDB (setC (RTree.node l k c r) .black) :=
  ⟨by simp, hl, hr⟩

theorem noDB_setC_black_all {t : RTree} (h : NoDB t) : NoDB (setC t .black) := by
  cases t with
  | nil => trivial
  | node l k c r => exact noDB_setC_black h.2.1 h.2.2

theorem bh_setC_black {t : RTree} {n : Nat} (h : bhOk t = some n) :
    bhOk (setC t .black) = some (if getColor t = .black then n else n + 1) := by
  cases t with
  | nil =>
    simp only [bhOk, Option.some_inj] at h
    simp [setC, bhOk, getColor, ← h]
  | node l k c r =>
    rw [bhOk] at h
    rcases hl : bhOk l with _ | a <;> rw [hl] at h
    · simp at h
    · rcases hr : bhOk r with _ | b <;> rw [hr] at h
      · simp at h
      · dsimp only at h
        by_cases hab : a = b
        · subst hab
          rw [if_pos rfl] at h
          simp only [Option.some_inj] at h
          rw [setC, bhOk, hl, hr]
          dsimp only
          rw [if_pos rfl]
          simp only [getColor]
          cases c <;> simp_all [bump]
        · rw [if_neg hab] at h
          simp at h

theorem bhOk_node_some {l r : RTree} {k : Int} {c : Color} {n : Nat}
    (h : bhOk (RTree.node l k c r) = some n) :
    ∃ a, bhOk l = some a ∧ bhOk r = some a ∧ n = a + bump c := by
  rw [bhOk] at h
  rcases hl : bhOk l with _ | a <;> rw [hl] at h
  · simp at h
  · rcases hr : bhOk r with _ | b <;> rw [hr] at h
    · simp at h
    · dsimp only at h
      by_cases hab : a = b
      · subst hab
        rw [if_pos rfl] at h
        simp only [Option.some_inj] at h
        exact ⟨a, rfl, rfl, by rw [← h]; rfl⟩
      · rw [if_neg hab] at h
        simp at h

theorem bhOk_node_intro {l r : RTree} {k : Int} {c : Color} {a : Nat}
    (hl : bhOk l = some a) (hr : bhOk r = some a) :
    bhOk (RTree.node l k c r) = some (a + bump c) := by
  rw [bhOk, hl, hr]
  dsimp only
  rw [if_pos rfl]
  rfl

theorem plug_ok : ∀ (fs : List Frame) (t : RTree) (n : Nat), Ctx fs n →
    NoRedRed t → NoDB t → bhOk t = some n →
    (getColor t = .red → nextColor fs = .black) →
    NoRedRed (plug t fs) ∧ NoDB (plug t fs) ∧ bhOk (plug t fs) = some (ctxBH fs n)
  | [], t, n, _, h1, h2, h3, _ => ⟨h1, h2, h3⟩
  | f :: fs, t, n, hctx, h1, h2, h3, h4 => by
    obtain ⟨hdb, hsib, hsibrr, hsibdb, hred, hctx2⟩ := hctx
    obtain ⟨sd, k, c, sib⟩ := f
    dsimp only at hdb hsib hsibrr hsibdb hred hctx2 ⊢
    have hnode : ∀ l r : RTree, (l = t ∧ r = sib) ∨ (l = sib ∧ r = t) →
      NoRedRed (RTree.node l k c r) ∧ NoDB (RTree.node l k c r) ∧
      bhOk (RTree.node l k c r) = some (n + bump c) := by
      rintro l r (⟨rfl, rfl⟩ | ⟨rfl, rfl⟩)
      · refine ⟨⟨h1, hsibrr, ?_⟩, ⟨hdb, h2, hsibdb⟩, bhOk_node_intro h3 hsib⟩
        intro hc
        refine ⟨?_, (hred hc).1⟩
        intro htr
        have h5 := h4 htr
        dsimp only [nextColor] at h5
        rw [h5] at hc
        exact absurd hc (by decide)
      · refine ⟨⟨hsibrr, h1, ?_⟩, ⟨hdb, hsibdb, h2⟩, bhOk_node_intro hsib h3⟩
        intro hc
        refine ⟨(hred hc).1, ?_⟩
        intro htr
        have h5 := h4 htr
        dsimp only [nextColor] at h5
        rw [h5] at hc
        exact absurd hc (by decide)
    have hnext : ∀ l r : RTree, getColor (RTree.node l k c r) = .red →
        nextColor fs = .black := by
      intro l r hc
      simp only [getColor] at hc
      have := (hred hc).2
      cases fs with
      | nil => exact absurd this (by simp [nextBlack])
      | cons g gs => exact this
    cases sd
    · have hn := hnode t sib (Or.inl ⟨rfl, rfl⟩)
      exact plug_ok fs _ _ hctx2 hn.1 hn.2.1 hn.2.2 (hnext t sib)
    · have hn := hnode sib t (Or.inr ⟨rfl, rfl⟩)
      exact plug_ok fs _ _ hctx2 hn.1 hn.2.1 hn.2.2 (hnext sib t)

end burb

namespace burb

theorem noRR_of_shape {a b : RTree} (h : shapeOf a = shapeOf b) (hb : NoRedRed b) :
    NoRedRed a := by
  rw [← noRedRed_shapeOf a, h, noRedRed_shapeOf b]
  exact hb

theorem noDB_of_shape {a b : RTree} (h : shapeOf a = shapeOf b) (hb : NoDB b) :
    NoDB a := by
  rw [← noDB_shapeOf a, h, noDB_shapeOf b]
  exact hb

theorem bh_of_shape {a b : RTree} (h : shapeOf a = shapeOf b) :
    bhOk a = bhOk b := by
  rw [← bhOk_shapeOf a, h, bhOk_shapeOf b]

theorem rootish_of_shape {a b : RTree} (h : shapeOf a = shapeOf b)
    (hb : b = .nil ∨ getColor b = .black) : a = .nil ∨ getColor a = .black := by
  rcases hb with rfl | hb
  · left
    cases a with
    | nil => rfl
    | node l k c r => exact absurd h (by simp [shapeOf])
  · cases a with
    | nil => exact Or.inl rfl
    | node l k c r =>
      cases b with
      | nil => exact absurd h (by simp [shapeOf])
      | node bl bk bc br =>
        right
        simp only [shapeOf, RTree.node.injEq] at h
        simp only [getColor] at hb ⊢
        rw [h.2.2.1, hb]

theorem plug_extract : ∀ (fs : List Frame) (t : RTree),
    NoRedRed (plug t fs) → NoDB (plug t fs) → (bhOk (plug t fs)).isSome →
    (plug t fs = .nil ∨ getColor (plug t fs) = .black) →
    ∃ n, bhOk t = some n ∧ Ctx fs n ∧ NoRedRed t ∧ NoDB t ∧
      (getColor t = .red → nextBlack fs)
  | [], t, h1, h2, h3, h4 => by
    dsimp only [plug] at h1 h2 h3 h4
    rcases hv : bhOk t with _ | n
    · rw [hv] at h3
      simp at h3
    · refine ⟨n, rfl, trivial, h1, h2, ?_⟩
      intro hred
      rcases h4 with rfl | h4
      · simp [getColor] at hred
      · rw [h4] at hred
        exact absurd hred (by decide)
  | f :: fs, t, h1, h2, h3, h4 => by
    obtain ⟨sd, k, c, sib⟩ := f
    cases sd
    · obtain ⟨n2, hbh, hctx, hrr, hdb, hnxt⟩ := plug_extract fs _ h1 h2 h3 h4
      obtain ⟨hrr1, hrr2, hrr3⟩ := hrr
      obtain ⟨hdb1, hdb2, hdb3⟩ := hdb
      obtain ⟨a, hbl, hbr, hn2⟩ := bhOk_node_some hbh
      dsimp only at hbh hnxt hrr1 hrr2 hrr3 hdb1 hdb2 hdb3 hbl hbr hn2
      refine ⟨a, hbl, ?_, hrr1, hdb2, ?_⟩
      · refine ⟨hdb1, hbr, hrr2, hdb3, ?_, ?_⟩
        · intro hc
          dsimp only at hc
          refine ⟨(hrr3 hc).2, ?_⟩
          exact hnxt (by simp [getColor, hc])
        · dsimp only
          rw [← hn2]
          exact hctx
      · intro hred
        show c = Color.black
        by_contra hcb
        have hcr : c = .red := by
          cases c
          · rfl
          · exact absurd rfl hcb
          · exact absurd rfl hdb1
        exact absurd hred (hrr3 hcr).1
    · obtain ⟨n2, hbh, hctx, hrr, hdb, hnxt⟩ := plug_extract fs _ h1 h2 h3 h4
      obtain ⟨hrr1, hrr2, hrr3⟩ := hrr
      obtain ⟨hdb1, hdb2, hdb3⟩ := hdb
      obtain ⟨a, hbl, hbr, hn2⟩ := bhOk_node_some hbh
      dsimp only at hbh hnxt hrr1 hrr2 hrr3 hdb1 hdb2 hdb3 hbl hbr hn2
      refine ⟨a, hbr, ?_, hrr2, hdb3, ?_⟩
      · refine ⟨hdb1, hbl, hrr1, hdb2, ?_, ?_⟩
        · intro hc
          dsimp only at hc
          refine ⟨(hrr3 hc).1, ?_⟩
          exact hnxt (by simp [getColor, hc])
        · dsimp only
          rw [← hn2]
          exact hctx
      · intro hred
        show c = Color.black
        by_contra hcb
        have hcr : c = .red := by
          cases c
          · rfl
          · exact absurd rfl hcb
          · exact absurd rfl hdb1
        exact absurd hred (hrr3 hcr).2

theorem insDescend_plug : ∀ (t : RTree) (x : Int) (fs : List Frame) (fs' : List Frame),
    insDescend t x fs = some fs' → plug .nil fs' = plug t fs
  | .nil, x, fs, fs', h => by
    simp only [insDescend, Option.some_inj] at h
    subst h
    rfl
  | .node l k c r, x, fs, fs', h => by
    rw [insDescend.eq_def] at h
    dsimp only at h
    split_ifs at h with h1 h2
    · exact (insDescend_plug l x _ fs' h).trans rfl
    · exact (insDescend_plug r x _ fs' h).trans rfl

end burb

namespace burb

theorem black_of_not_red {t : RTree} (h1 : getColor t ≠ .red) (h2 : NoDB t) :
    getColor t = .black := by
  cases t with
  | nil => rfl
  | node l k c r =>
    simp only [getColor] at h1 ⊢
    cases c
    · exact absurd rfl h1
    · rfl
    · exact absurd rfl h2.1

theorem color_black_of {c : Color} (h1 : c ≠ .red) (h2 : c ≠ .doubleBlack) :
    c = .black := by
  cases c
  · exact absurd rfl h1
  · rfl
  · exact absurd rfl h2

theorem setC_black_not_red (t : RTree) : getColor (setC t .black) ≠ .red := by
  cases t <;> simp [setC, getColor]

theorem fixIns_ok : ∀ (fs : List Frame) (t : RTree) (n : Nat),
    Ctx fs n → getColor t = .red → NoRedRed t → NoDB t → bhOk t = some n →
    NoRedRed (fixIns t fs) ∧ NoDB (fixIns t fs) ∧
    bhOk (fixIns t fs) = some (ctxBH fs n)
  | [], t, n, _, _, hrr, hdb, hbh => ⟨hrr, hdb, hbh⟩
  | [f1], t, n, hctx, hred, hrr, hdb, hbh => by
    obtain ⟨hc1db, hsib, hsibrr, hsibdb, hredc, hctx2⟩ := hctx
    have hf1 : f1.color ≠ .red := fun hr => (hredc hr).2
    rw [fixIns.eq_def]
    dsimp only
    rw [if_neg (by intro hcc; exact hf1 hcc.2)]
    refine plug_ok [f1] t n ⟨hc1db, hsib, hsibrr, hsibdb, hredc, hctx2⟩ hrr hdb hbh ?_
    intro _
    dsimp only [nextColor]
    exact color_black_of hf1 hc1db
  | f1 :: f2 :: rest, t, n, hctx, hred, hrr, hdb, hbh => by
    obtain ⟨s1, k1, c1, sib⟩ := f1
    obtain ⟨s2, k2, c2, u⟩ := f2
    obtain ⟨hc1db, hsib, hsibrr, hsibdb, hredc1, hctx2⟩ := hctx
    obtain ⟨hc2db, hu, hurr, hudb, hredc2, hctxr⟩ := hctx2
    dsimp only at hc1db hsib hsibrr hsibdb hredc1 hc2db hu hurr hudb hredc2 hctxr
    rw [fixIns.eq_def]
    dsimp only
    split_ifs with hcond huncle
    · -- uncle RED: recolor and retreat two levels
      have hc1 : c1 = .red := hcond.2
      have hc2 : c2 = .black := by
        have h9 := (hredc1 hc1).2
        dsimp only [nextBlack] at h9
        exact h9
      subst hc1
      subst hc2
      simp [bump] at hctxr hu
      have hubh : bhOk (setC u .black) = some (n + 1) := by
        have h8 := bh_setC_black hu
        rw [if_neg (by rw [huncle]; decide)] at h8
        exact h8
      have hbump : ctxBH (({ side := s1, key := k1, color := Color.red, sibling := sib } : Frame) ::
          ({ side := s2, key := k2, color := Color.black, sibling := u } : Frame) :: rest) n =
          ctxBH rest (n + 1) := by
        dsimp only [ctxBH]
        simp [bump]
      rw [hbump]
      have hpl : NoRedRed (RTree.node t k1 .black sib) ∧
          NoDB (RTree.node t k1 .black sib) ∧
          bhOk (RTree.node t k1 .black sib) = some (n + 1) :=
        ⟨⟨hrr, hsibrr, by simp⟩, ⟨by decide, hdb, hsibdb⟩,
          by have h7 := @bhOk_node_intro _ _ k1 Color.black _ hbh hsib
             simpa [bump] using h7⟩
      have hpr : NoRedRed (RTree.node sib k1 .black t) ∧
          NoDB (RTree.node sib k1 .black t) ∧
          bhOk (RTree.node sib k1 .black t) = some (n + 1) :=
        ⟨⟨hsibrr, hrr, by simp⟩, ⟨by decide, hsibdb, hdb⟩,
          by have h7 := @bhOk_node_intro _ _ k1 Color.black _ hsib hbh
             simpa [bump] using h7⟩
      cases s2
      · cases s1
        all_goals (
          dsimp only [reparent]
          refine fixIns_ok rest _ (n + 1) hctxr rfl ?_ ?_ ?_)
        · exact ⟨hpl.1, noRR_setC_black hurr,
            fun _ => ⟨by simp [getColor], setC_black_not_red u⟩⟩
        · exact ⟨by decide, hpl.2.1, noDB_setC_black_all hudb⟩
        · have h7 := @bhOk_node_intro _ _ k2 Color.red _ hpl.2.2 hubh
          simpa [bump] using h7
        · exact ⟨hpr.1, noRR_setC_black hurr,
            fun _ => ⟨by simp [getColor], setC_black_not_red u⟩⟩
        · exact ⟨by decide, hpr.2.1, noDB_setC_black_all hudb⟩
        · have h7 := @bhOk_node_intro _ _ k2 Color.red _ hpr.2.2 hubh
          simpa [bump] using h7
      · cases s1
        all_goals (
          dsimp only [reparent]
          refine fixIns_ok rest _ (n + 1) hctxr rfl ?_ ?_ ?_)
        · exact ⟨noRR_setC_black hurr, hpl.1,
            fun _ => ⟨setC_black_not_red u, by simp [getColor]⟩⟩
        · exact ⟨by decide, noDB_setC_black_all hudb, hpl.2.1⟩
        · have h7 := @bhOk_node_intro _ _ k2 Color.red _ hubh hpl.2.2
          simpa [bump] using h7
        · exact ⟨noRR_setC_black hurr, hpr.1,
            fun _ => ⟨setC_black_not_red u, by simp [getColor]⟩⟩
        · exact ⟨by decide, noDB_setC_black_all hudb, hpr.2.1⟩
        · have h7 := @bhOk_node_intro _ _ k2 Color.red _ hubh hpr.2.2
          simpa [bump] using h7
    · -- uncle BLACK: rotate and stop
      have hc1 : c1 = .red := hcond.2
      have hc2 : c2 = .black := by
        have h9 := (hredc1 hc1).2
        dsimp only [nextBlack] at h9
        exact h9
      have hsibnr : getColor sib ≠ .red := (hredc1 hc1).1
      have hub : getColor u = .black := black_of_not_red huncle hudb
      subst hc1
      subst hc2
      simp [bump] at hctxr hu
      have hbump : ctxBH (({ side := s1, key := k1, color := Color.red, sibling := sib } : Frame) ::
          ({ side := s2, key := k2, color := Color.black, sibling := u } : Frame) :: rest) n =
          ctxBH rest (n + 1) := by
        dsimp only [ctxBH]
        simp [bump]
      rw [hbump]
      have hfin : ∀ R : RTree, NoRedRed R → NoDB R → bhOk R = some (n + 1) →
          getColor R ≠ .red →
          NoRedRed (plug R rest) ∧ NoDB (plug R rest) ∧
          bhOk (plug R rest) = some (ctxBH rest (n + 1)) := by
        intro R m1 m2 m3 m4
        exact plug_ok rest R (n + 1) hctxr m1 m2 m3 (fun hr => absurd hr m4)
      cases s2
      · cases s1
        · -- LL
          dsimp only
          refine hfin _ ?_ ?_ ?_ (by simp [getColor])
          · exact ⟨hrr, ⟨hsibrr, hurr, fun _ => ⟨hsibnr, huncle⟩⟩, by simp⟩
          · exact ⟨by decide, hdb, by decide, hsibdb, hudb⟩
          · have hin := @bhOk_node_intro _ _ k2 Color.red _ hsib hu
            simp only [bump] at hin
            rw [if_neg (by decide), Nat.add_zero] at hin
            have h7 := @bhOk_node_intro _ _ k1 Color.black _ hbh hin
            simpa [bump] using h7
        · -- LR : the focus is a red node
          cases t with
          | nil => simp [getColor] at hred
          | node tl tk tc tr =>
            dsimp only
            simp only [getColor] at hred
            subst hred
            obtain ⟨htlr, htrr, hch⟩ := hrr
            have hch2 := hch rfl
            obtain ⟨a, htl, htr, hna⟩ := bhOk_node_some hbh
            simp only [bump] at hna
            rw [if_neg (by decide), Nat.add_zero] at hna
            subst hna
            refine hfin _ ?_ ?_ ?_ (by simp [getColor])
            · exact ⟨⟨hsibrr, htlr, fun _ => ⟨hsibnr, hch2.1⟩⟩,
                ⟨htrr, hurr, fun _ => ⟨hch2.2, huncle⟩⟩, by simp⟩
            · exact ⟨by decide, ⟨by decide, hsibdb, hdb.2.1⟩, ⟨by decide, hdb.2.2, hudb⟩⟩
            · have hin1 := @bhOk_node_intro _ _ k1 Color.red _ hsib htl
              simp only [bump] at hin1
              rw [if_neg (by decide), Nat.add_zero] at hin1
              have hin2 := @bhOk_node_intro _ _ k2 Color.red _ htr hu
              simp only [bump] at hin2
              rw [if_neg (by decide), Nat.add_zero] at hin2
              have h7 := @bhOk_node_intro _ _ tk Color.black _ hin1 hin2
              simpa [bump] using h7
      · cases s1
        · -- RL : the focus is a red node
          cases t with
          | nil => simp [getColor] at hred
          | node tl tk tc tr =>
            dsimp only
            simp only [getColor] at hred
            subst hred
            obtain ⟨htlr, htrr, hch⟩ := hrr
            have hch2 := hch rfl
            obtain ⟨a, htl, htr, hna⟩ := bhOk_node_some hbh
            simp only [bump] at hna
            rw [if_neg (by decide), Nat.add_zero] at hna
            subst hna
            refine hfin _ ?_ ?_ ?_ (by simp [getColor])
            · exact ⟨⟨hurr, htlr, fun _ => ⟨huncle, hch2.1⟩⟩,
                ⟨htrr, hsibrr, fun _ => ⟨hch2.2, hsibnr⟩⟩, by simp⟩
            · exact ⟨by decide, ⟨by decide, hudb, hdb.2.1⟩, ⟨by decide, hdb.2.2, hsibdb⟩⟩
            · have hin1 := @bhOk_node_intro _ _ k2 Color.red _ hu htl
              simp only [bump] at hin1
              rw [if_neg (by decide), Nat.add_zero] at hin1
              have hin2 := @bhOk_node_intro _ _ k1 Color.red _ htr hsib
              simp only [bump] at hin2
              rw [if_neg (by decide), Nat.add_zero] at hin2
              have h7 := @bhOk_node_intro _ _ tk Color.black _ hin1 hin2
              simpa [bump] using h7
        · -- RR
          dsimp only
          refine hfin _ ?_ ?_ ?_ (by simp [getColor])
          · exact ⟨⟨hurr, hsibrr, fun _ => ⟨huncle, hsibnr⟩⟩, hrr, by simp⟩
          · exact ⟨by decide, ⟨by decide, hudb, hsibdb⟩, hdb⟩
          · have hin := @bhOk_node_intro _ _ k2 Color.red _ hu hsib
            simp only [bump] at hin
            rw [if_neg (by decide), Nat.add_zero] at hin
            have h7 := @bhOk_node_intro _ _ k1 Color.black _ hin hbh
            simpa [bump] using h7
    · -- the loop condition fails: the parent is BLACK
      have hf1 : c1 ≠ .red := by
        intro hr
        exact hcond ⟨hred, hr⟩
      refine plug_ok (_ :: _ :: rest) t n
        ⟨hc1db, hsib, hsibrr, hsibdb, hredc1, ⟨hc2db, hu, hurr, hudb, hredc2, hctxr⟩⟩
        hrr hdb hbh ?_
      intro _
      dsimp only [nextColor]
      exact color_black_of hf1 hc1db

end burb

namespace burb

theorem rootish_setC (t : RTree) :
    setC t .black = .nil ∨ getColor (setC t .black) = .black := by
  cases t
  · exact Or.inl rfl
  · exact Or.inr rfl

/-- The representation invariant of a burbTree object: BST order, the
red-black structural invariant, and a count equal to the number of keys. -/
def RInv (s : RBState) : Prop :=
  OrderedR s.root ∧ RBOk s.root ∧ s.count = (keysR s.root).length

open avl in
theorem linsert_self_mem (L : List Int) (x : Int) (hpw : L.Pairwise (· < ·))
    (hm : x ∈ L) : linsert x L = L := by
  obtain ⟨P, Q, rfl⟩ := List.append_of_mem hm
  rw [List.pairwise_append] at hpw
  exact linsert_append_eq x P Q
    (fun y hy => hpw.2.2 y hy x (List.mem_cons_self x Q))

open avl in
theorem insertB_spec (s : RBState) (x : Int) (hI : RInv s) :
    RInv (insertB s x).1 ∧
    ((insertB s x).2 = true ↔ x ∉ keysR s.root) ∧
    keysR (insertB s x).1.root = linsert x (keysR s.root) ∧
    ((insertB s x).2 = false → (insertB s x).1.root = s.root ∧
      (insertB s x).1.count = s.count) ∧
    ((insertB s x).2 = true → (insertB s x).1.count = s.count + 1) := by
  obtain ⟨hO, hRB, hC⟩ := hI
  obtain ⟨rt, cnt, fr⟩ := s
  dsimp only at hO hRB hC
  cases rt with
  | nil =>
    have hc0 : cnt = 0 := by simpa [keysR] using hC
    subst hc0
    simp only [insertB]
    refine ⟨⟨?_, ?_, ?_⟩, ?_, ?_, ?_, ?_⟩
    · exact ⟨trivial, trivial, by simp [keysR], by simp [keysR]⟩
    · exact ⟨Or.inr rfl, ⟨trivial, trivial, fun h => by simp at h⟩,
        ⟨by decide, trivial, trivial⟩, by simp [bhOk]⟩
    · simp [keysR, linsert]
    · simp [keysR]
    · simp [keysR, linsert]
    · intro h
      simp at h
    · exact fun _ => trivial
  | node l0 k0 c0 r0 =>
    obtain ⟨hnone, hsome⟩ := insDescend_spec (RTree.node l0 k0 c0 r0) x [] hO
    rcases hd : insDescend (RTree.node l0 k0 c0 r0) x [] with _ | fs
    · -- duplicate key
      have hmem : x ∈ keysR (RTree.node l0 k0 c0 r0) := hnone.mp hd
      simp only [insertB, hd]
      refine ⟨⟨hO, hRB, hC⟩, ?_, ?_, fun _ => ⟨by trivial, by trivial⟩, ?_⟩
      · simp [hmem]
      · exact (linsert_self_mem _ x ((ordered_iffR _).mp hO) hmem).symm
      · intro h
        first
        | exact h.elim
        | simp at h
    · -- new key inserted
      have hnm : x ∉ keysR (RTree.node l0 k0 c0 r0) := by
        intro hm
        rw [← hnone] at hm
        rw [hd] at hm
        exact absurd hm (by simp)
      have hplug : plug RTree.nil fs = RTree.node l0 k0 c0 r0 :=
        insDescend_plug _ x [] fs hd
      obtain ⟨hroot, hnrr, hndb, hbh⟩ := hRB
      obtain ⟨n0, hb0, hctx, _, _, _⟩ := plug_extract fs RTree.nil
        (by rw [hplug]; exact hnrr) (by rw [hplug]; exact hndb)
        (by rw [hplug]; exact hbh) (by rw [hplug]; exact hroot)
      have hn0 : n0 = 0 := by
        simp only [bhOk, Option.some_inj] at hb0
        omega
      subst hn0
      have hfix := fixIns_ok fs (RTree.node .nil x .red .nil) 0 hctx rfl
        ⟨trivial, trivial, fun _ => ⟨by decide, by decide⟩⟩
        ⟨by decide, trivial, trivial⟩ (by simp [bhOk, bump])
      have hkeys : keysR (fixInsertion (RTree.node .nil x .red .nil) fs) =
          linsert x (keysR (RTree.node l0 k0 c0 r0)) := by
        rw [keys_fixInsertion, keys_plug]
        have := hsome fs hd
        simpa [keysR, beforeK, afterK] using this
      simp only [insertB, hd]
      refine ⟨⟨?_, ?_, ?_⟩, ?_, ?_, ?_, ?_⟩
      · rw [ordered_iffR]
        dsimp only
        rw [hkeys]
        exact pairwise_linsert x _ ((ordered_iffR _).mp hO)
      · exact ⟨rootish_setC _, noRR_setC_black hfix.1, noDB_setC_black_all hfix.2.1,
          by dsimp only [fixInsertion]; rw [bh_setC_black hfix.2.2]; rfl⟩
      · dsimp only
        rw [hkeys, hC, length_linsert_of_not_mem x _ hnm]
      · simp [hnm]
      · exact hkeys
      · intro h
        first
        | exact h.elim
        | simp at h
      · exact fun _ => trivial

end burb

namespace burb

theorem ctx_cast {fs : List Frame} {a b : Nat} (e : a = b) (h : Ctx fs a) : Ctx fs b :=
  e ▸ h

theorem bh_cast {t : RTree} {a b : Nat} (h : bhOk t = some a) (e : a = b) :
    bhOk t = some b := e ▸ h

theorem nextColor_of_nextBlack : ∀ {fs : List Frame}, nextBlack fs → nextColor fs = .black
  | [], h => h.elim
  | _ :: _, h => h

/-- A subtree of black-height zero with no DOUBLE_BLACK node and a non-RED
root is empty. -/
theorem nil_of_bh_zero : ∀ {t : RTree}, bhOk t = some 0 → NoDB t →
    getColor t ≠ .red → t = .nil
  | .nil, _, _, _ => rfl
  | .node l k c r, hb, hdb, hnr => by
    obtain ⟨a, _, _, hn⟩ := bhOk_node_some hb
    cases c with
    | red => exact absurd rfl hnr
    | black =>
      rw [show bump Color.black = 1 from rfl] at hn
      omega
    | doubleBlack => exact absurd rfl hdb.1

/-- The root color of a plugged tree does not depend on the focus when the
parent chain is non-empty. -/
theorem getColor_plug_congr : ∀ (fs : List Frame) (t1 t2 : RTree), fs ≠ [] →
    getColor (plug t1 fs) = getColor (plug t2 fs)
  | [], _, _, h => absurd rfl h
  | [f], t1, t2, _ => by
    obtain ⟨sd, k, c, sib⟩ := f
    cases sd <;> rfl
  | f :: g :: fs, t1, t2, _ => by
    obtain ⟨sd, k, c, sib⟩ := f
    cases sd
    · exact getColor_plug_congr (g :: fs) _ _ (by simp)
    · exact getColor_plug_congr (g :: fs) _ _ (by simp)

/-- Invariant of the DOUBLE_BLACK while loop of fixErasure: when the flag is
set the blackened focus is one BLACK short of the black-height the hole
requires; when the flag is clear the focus is a valid subtree of exactly the
hole's black-height, and a RED focus sits under a BLACK parent. -/
def DBInv : Bool → RTree → List Frame → Prop
  | true, t, fs => ∃ m, bhOk (setC t .black) = some m ∧ Ctx fs (m + 1) ∧
      NoRedRed (setC t .black) ∧ NoDB (setC t .black) ∧ getColor t ≠ .red
  | false, t, fs => ∃ n, bhOk t = some n ∧ Ctx fs n ∧
      NoRedRed t ∧ NoDB t ∧ (getColor t = .red → nextColor fs = .black)

end burb
